import Mathlib

/-!
# PI-Chunk: hexadecimal digits of π by the BBP formula

A verification development for `pi-chunk.c`.  The three functions of the
program (`mod_pow`, `bbp_sum`, `get_pi_hex_digit`) and the digit loop of `main`
are embedded as Lean functions.

* `long long` values are integers; every `+`, `-`, `*` is followed by `wrap64`,
  the reduction into the two's-complement range `[-2^63, 2^63)`.
* The C remainder `%` is `c_rem`: truncated remainder, and a fault when the
  divisor is zero (or for `INT64_MIN % -1`).
* A run of the program either returns a value or stops with a `Fault`.
* A finite `double` is the rational number it denotes.  Every floating-point
  operation computes the exact rational result and rounds it with the rounding
  function `rnd` of the arithmetic in use: `binary64` (IEEE 754 double
  precision, round to nearest, ties to even) or `exact_arith` (no rounding, the
  idealised reading "doubles are exact rationals").  Each operation of the
  source is rounded on its own: no fused multiply-add, no excess precision.

The double-precision run of `bbp_sum` is also restated on natural numbers, in
units of `2^-1074` (`units_sum`), and proved equal to the embedded function
(`bbp_sum_binary64`); the digits are evaluated through that restatement.

For the claims about single iterations the two loops of `bbp_sum` are also given
with a record of their iterations (`bbp_lower_record`, `bbp_tail_record`), and
for the claim about overflow the integer computations are also given over
unbounded integers (`bbp_sum_unbounded`); both are proved to run as the
embedded functions do.
-/

namespace PiChunk

/-! ## Outcomes of a run -/

/-- The ways a run can stop without a value. -/
inductive Fault where
  /-- Integer `%` with a zero divisor. -/
  | rem_by_zero
  /-- Integer `%` that overflows: `INT64_MIN % -1`. -/
  | rem_overflow
  /-- The run produces a double that is not finite (overflow or division by zero). -/
  | not_finite
  /-- Conversion of a double to `int` outside the range of `int`. -/
  | cast_range
  /-- Read of the hexadecimal alphabet outside its sixteen characters. -/
  | index_range
  /-- The iteration budget of the model is exhausted before the loop exits. -/
  | out_of_fuel
  deriving DecidableEq, Repr

/-- Result of a run: a value, or the fault that stopped it. -/
inductive Run (α : Type) where
  | ok (value : α)
  | fault (f : Fault)
  deriving DecidableEq, Repr

/-- Sequencing of runs: the first fault stops the computation. -/
def Run.bind {α β : Type} (x : Run α) (f : α → Run β) : Run β :=
  match x with
  | Run.ok a => f a
  | Run.fault e => Run.fault e

instance : Monad Run where
  pure := Run.ok
  bind := Run.bind

/-! ## 64-bit signed integers -/

/-- Smallest `long long`. -/
def INT64_MIN : Int := -(2 ^ 63)

/-- Reduction of an integer into the two's-complement range `[-2^63, 2^63)`. -/
def wrap64 (x : Int) : Int := (x + 2 ^ 63) % 2 ^ 64 - 2 ^ 63

/-- The C operator `a % b` on `long long`: truncated remainder (sign of the dividend). -/
def c_rem (a b : Int) : Run Int :=
  if b = 0 then Run.fault Fault.rem_by_zero
  else if a = INT64_MIN ∧ b = -1 then Run.fault Fault.rem_overflow
  else Run.ok (Int.tmod a b)

/-! ## `mod_pow` (lines 7-18) -/

/-- The `while (exp > 0)` loop of `mod_pow`; `fuel` bounds the number of iterations. -/
def mod_pow_loop : Nat → Int → Int → Int → Int → Run Int
  | 0, result, _, exp, _ => if exp > 0 then Run.fault Fault.out_of_fuel else Run.ok result
  | fuel + 1, result, base, exp, mod =>
    if exp > 0 then do
      let bit ← c_rem exp 2
      let result ← if bit = 1 then c_rem (wrap64 (result * base)) mod else pure result
      let exp := Int.shiftRight exp 1
      let base ← c_rem (wrap64 (base * base)) mod
      mod_pow_loop fuel result base exp mod
    else Run.ok result

/-- The function `mod_pow(base, exp, mod)`.  The exponent is halved by every iteration,
so `exp` iterations always suffice. -/
def mod_pow (base exp mod : Int) : Run Int :=
  if mod = 1 then Run.ok 0
  else do
    let result := 1
    let base ← c_rem base mod
    mod_pow_loop exp.toNat result base exp mod

/-! ## Doubles -/

/-- Quotient `num / den` rounded to the nearest natural number, ties to the even one. -/
def round_half_even (num den : Nat) : Nat :=
  let n := num / den
  let r := num % den
  match compare (2 * r) den with
  | Ordering.lt => n
  | Ordering.gt => n + 1
  | Ordering.eq => n + n % 2

/-- One step of the bit smear: `x` with every set bit copied `k` places down. -/
def smear_step (k x : Nat) : Nat := x ||| (x >>> k)

/-- The number `2^(L+1) - 1` whose bits are all set up to the leading bit `L` of `x`,
for `x < 2^4096` (0 for `x = 0`). -/
def smear (x : Nat) : Nat :=
  smear_step 2048 (smear_step 1024 (smear_step 512 (smear_step 256 (smear_step 128
    (smear_step 64 (smear_step 32 (smear_step 16 (smear_step 8 (smear_step 4
      (smear_step 2 (smear_step 1 x)))))))))))

/-- The magnitude 1.0 counted in units of `2^-1074`, the least positive double. -/
@[irreducible] def one_in_units : Nat := 2 ^ 1074

/-- The magnitude `2^1024`, which no finite double reaches. -/
@[irreducible] def overflow_bound : Nat := 2 ^ 1024

/-- The spacing, in units of `2^-1074`, of the doubles around a magnitude of `p / d`:
`2^(L - 52)` when `L >= 53` is the leading bit of the magnitude in units of `2^-1074`,
and one unit for smaller magnitudes (below `2^-1021`, the subnormal range included). -/
def spacing (p d : Nat) : Nat :=
  max 1 ((smear (p * one_in_units / d) + 1) / 2 ^ 53)

/-- IEEE 754 binary64 rounding (round to nearest, ties to even) of the magnitude `p / d`,
counted in units of `2^-1074`: the doubles are the multiples `n * s` of the spacing `s`
with `n <= 2^53`, and `p / d` is rounded to the nearest one.  The result is `none` when
the rounded magnitude reaches `2^1024`. -/
def round_units (p d : Nat) : Option Nat :=
  bif Nat.ble (d * (2 * overflow_bound)) p then none
  else
    let s := spacing p d
    let n := round_half_even (p * one_in_units) (d * s)
    bif Nat.ble (overflow_bound * one_in_units) (n * s) then none else some (n * s)

/-- IEEE 754 binary64 rounding of an exact result `q`: the magnitude is rounded by
`round_units`, the sign is kept. -/
def round_binary64 (q : ℚ) : Option ℚ :=
  match round_units q.num.natAbs q.den with
  | none => none
  | some N => some (if q.num < 0 then -mkRat N one_in_units else mkRat N one_in_units)

/-- A floating-point arithmetic: the rounding applied to every exact result
(`none`: the rounded result is not finite). -/
structure Arith where
  rnd : ℚ → Option ℚ

/-- IEEE 754 double precision, the arithmetic of the C type `double`. -/
def binary64 : Arith := ⟨round_binary64⟩

/-- The idealised arithmetic in which doubles are exact rationals: nothing is rounded. -/
def exact_arith : Arith := ⟨some⟩

/-- Rounding of an exact result to a double. -/
def f_round (A : Arith) (x : ℚ) : Run ℚ :=
  match A.rnd x with
  | some y => Run.ok y
  | none => Run.fault Fault.not_finite

/-- Conversion `(double)n` of a `long long`. -/
def f_of_int (A : Arith) (n : Int) : Run ℚ := f_round A (n : ℚ)

/-- Double addition `a + b`. -/
def f_add (A : Arith) (a b : ℚ) : Run ℚ := f_round A (a + b)

/-- Double subtraction `a - b`. -/
def f_sub (A : Arith) (a b : ℚ) : Run ℚ := f_round A (a - b)

/-- Double multiplication `a * b`. -/
def f_mul (A : Arith) (a b : ℚ) : Run ℚ := f_round A (a * b)

/-- Double division `a / b`; a zero divisor gives an infinity or a NaN, which is not finite. -/
def f_div (A : Arith) (a b : ℚ) : Run ℚ :=
  if b = 0 then Run.fault Fault.not_finite else f_round A (a / b)

/-- The library function `floor`; its result is always representable. -/
def f_floor (a : ℚ) : ℚ := (Int.floor a : ℚ)

/-- Conversion `(int)a` of a double: truncation toward zero, defined inside the range of `int`. -/
def f_to_int (a : ℚ) : Run Int :=
  let t : Int := if a < 0 then Int.ceil a else Int.floor a
  if -(2 ^ 31) ≤ t ∧ t < 2 ^ 31 then Run.ok t else Run.fault Fault.cast_range

/-! ## `bbp_sum` (lines 22-72) -/

/-- The first loop of `bbp_sum`, `for (k = 0; k <= k_limit; ++k)`, entered at `k`
with running value `sum`; `fuel` bounds the number of iterations. -/
def bbp_lower_loop (A : Arith) (d j k_limit : Int) : Nat → Int → ℚ → Run ℚ
  | 0, k, sum => if k ≤ k_limit then Run.fault Fault.out_of_fuel else Run.ok sum
  | fuel + 1, k, sum =>
    if k ≤ k_limit then
      let m := wrap64 (wrap64 (8 * k) + j)
      if m = 0 then bbp_lower_loop A d j k_limit fuel (wrap64 (k + 1)) sum
      else do
        let term ←
          if wrap64 (d - k) ≤ 1000000 then do
            let p ← mod_pow 16 (wrap64 (d - k)) m
            f_div A (← f_of_int A p) (← f_of_int A m)
          else do
            let reduced_exp ← c_rem (wrap64 (d - k)) (wrap64 (m - 1))
            let reduced_exp :=
              if reduced_exp < 0 then wrap64 (reduced_exp + wrap64 (m - 1)) else reduced_exp
            let p ← mod_pow 16 reduced_exp m
            f_div A (← f_of_int A p) (← f_of_int A m)
        let sum ← f_add A sum term
        let sum ← f_sub A sum (f_floor sum)
        bbp_lower_loop A d j k_limit fuel (wrap64 (k + 1)) sum
    else Run.ok sum

/-- The second loop of `bbp_sum`, `for (k = d + 1; ; ++k)`, entered at `k` with the
running `term` and `sum`; it returns the sum at the `break`. -/
def bbp_tail_loop (A : Arith) (d j : Int) : Nat → Int → ℚ → ℚ → Run ℚ
  | 0, _, _, _ => Run.fault Fault.out_of_fuel
  | fuel + 1, k, term, sum => do
    let m := wrap64 (wrap64 (8 * k) + j)
    let term ← f_div A term 16
    let term ←
      if k = wrap64 (d + 1) then do
        f_div A 1 (← f_mul A 16 (← f_of_int A m))
      else pure term
    if term < (← f_round A (1 / 10 ^ 15)) then Run.ok sum
    else do
      let sum ← f_add A sum term
      if wrap64 (k - d) > 100 then Run.ok sum
      else bbp_tail_loop A d j fuel (wrap64 (k + 1)) term sum

/-- The function `bbp_sum(d, j)`.  The first loop runs `k_limit + 1` times; the second
one leaves at the latest when `k - d > 100`, in its 101st iteration. -/
def bbp_sum (A : Arith) (d j : Int) : Run ℚ := do
  let sum : ℚ := 0
  let k_limit : Int := if d < 1000000 then d else 1000000
  let sum ← bbp_lower_loop A d j k_limit (k_limit + 1).toNat 0 sum
  let sum ←
    if d < 1000000 then bbp_tail_loop A d j 101 (wrap64 (d + 1)) 0 sum
    else pure sum
  f_sub A sum (f_floor sum)

/-! ## `get_pi_hex_digit` (lines 75-92) and the digit loop of `main` (lines 114-116) -/

/-- The string literal `"0123456789ABCDEF"`. -/
def hex_alphabet : List Char :=
  ['0', '1', '2', '3', '4', '5', '6', '7', '8', '9', 'A', 'B', 'C', 'D', 'E', 'F']

/-- The function `get_pi_hex_digit(d)`. -/
def get_pi_hex_digit (A : Arith) (d : Int) : Run Char :=
  if d < 0 then Run.ok '?'
  else do
    let s1 ← bbp_sum A d 1
    let t1 ← f_mul A 4 s1
    let s4 ← bbp_sum A d 4
    let t4 ← f_mul A 2 s4
    let s5 ← bbp_sum A d 5
    let t5 ← f_mul A 1 s5
    let s6 ← bbp_sum A d 6
    let t6 ← f_mul A 1 s6
    let x ← f_sub A t1 t4
    let x ← f_sub A x t5
    let x ← f_sub A x t6
    let x ← f_sub A x (f_floor x)
    let x := if x < 0 then 0 else x
    let digit ← f_to_int (← f_mul A x 16)
    let digit := if digit < 0 then 0 else digit
    let digit := if digit > 15 then 15 else digit
    match hex_alphabet.get? digit.toNat with
    | some c => Run.ok c
    | none => Run.fault Fault.index_range

/-- The loop `for (int i = 0; i < 64; i++) putchar(get_pi_hex_digit(position + i))` of
`main`, entered at `i` with the characters `out` already printed. -/
def main_loop (A : Arith) (position : Int) : Nat → Int → List Char → Run (List Char)
  | 0, i, out => if i < 64 then Run.fault Fault.out_of_fuel else Run.ok out
  | fuel + 1, i, out =>
    if i < 64 then do
      let c ← get_pi_hex_digit A (wrap64 (position + i))
      main_loop A position fuel (i + 1) (out ++ [c])
    else Run.ok out

/-- The digit loop of `main` (lines 114-116) entered with the start `position`: the 64
characters it passes to `putchar`.  Only this loop is embedded.  `main` reaches it when
`scanf` has read a `position >= 0` (line 97) and, above 10^12, the user has confirmed
(lines 102-111); for any other input `main` returns before the loop and prints no digit. -/
def main_digits (A : Arith) (position : Int) : Run (List Char) :=
  main_loop A position 64 0 []

/-- The first 64 fractional hexadecimal digits of pi,
`243F6A8885A308D313198A2E03707344A4093822299F31D0082EFA98EC4E6C89`. -/
def pi_hex_64 : List Char :=
  ['2', '4', '3', 'F', '6', 'A', '8', '8', '8', '5', 'A', '3', '0', '8', 'D', '3', '1',
   '3', '1', '9', '8', 'A', '2', 'E', '0', '3', '7', '0', '7', '3', '4', '4', 'A', '4',
   '0', '9', '3', '8', '2', '2', '2', '9', '9', 'F', '3', '1', 'D', '0', '0', '8', '2',
   'E', 'F', 'A', '9', '8', 'E', 'C', '4', 'E', '6', 'C', '8', '9']

/-! ## The double-precision run of `bbp_sum` in units of `2^-1074`

Every value of `bbp_sum` is a non-negative double, a natural number of units of `2^-1074`.
The functions below restate the two loops on these numbers; they are proved equal to the
loops of the program in double precision (`bbp_sum_binary64`).
-/

/-- Whether a magnitude in units of `2^-1074` has at most 53 significant bits: the
finite doubles are the magnitudes of this kind below `2^1024`. -/
def fits_53_bits (N : Nat) : Prop := ∃ n a, N = n * 2 ^ a ∧ n < 2 ^ 53

/-- The non-negative double of magnitude `N` units of `2^-1074`. -/
def units_value (N : Nat) : ℚ := (N : ℚ) / (one_in_units : ℚ)

/-- The run that returns the double of a rounding in units. -/
def units_run (o : Option Nat) : Run ℚ :=
  match o with
  | some N => Run.ok (units_value N)
  | none => Run.fault Fault.not_finite

/-- The integer that the first loop of `bbp_sum(d, j)` divides by `m = 8k + j` at `k`:
`16^(d-k) mod m`, with the exponent reduced modulo `m - 1` when `d - k > 1000000`. -/
def term_numerator (d j k : Nat) : Nat :=
  if d - k ≤ 1000000 then 16 ^ (d - k) % (8 * k + j)
  else 16 ^ ((d - k) % (8 * k + j - 1)) % (8 * k + j)

/-- The first loop of `bbp_sum(d, j)` in units: `count` iterations from `k` on. -/
def units_lower (d j : Nat) : Nat → Nat → Nat → Option Nat
  | 0, _, sum => some sum
  | count + 1, k, sum =>
    match round_units (term_numerator d j k) (8 * k + j) with
    | none => none
    | some term =>
      match round_units (sum + term) one_in_units with
      | none => none
      | some sum1 => units_lower d j count (k + 1) (sum1 % one_in_units)

/-- The second loop of `bbp_sum(d, j)` in units, entered at `k`. -/
def units_tail (d j : Nat) : Nat → Nat → Nat → Nat → Option Nat
  | 0, _, _, sum => some sum
  | fuel + 1, k, term, sum =>
    match round_units term (16 * one_in_units) with
    | none => none
    | some term1 =>
      match (if k = d + 1 then round_units 1 (16 * (8 * k + j)) else some term1) with
      | none => none
      | some term2 =>
        match round_units 1 (10 ^ 15) with
        | none => none
        | some eps =>
          if term2 < eps then some sum
          else
            match round_units (sum + term2) one_in_units with
            | none => none
            | some sum1 =>
              if k - d > 100 then some sum1 else units_tail d j fuel (k + 1) term2 sum1

/-- The value of `bbp_sum(d, j)` in units. -/
def units_sum (d j : Nat) : Option Nat :=
  match units_lower d j (min d 1000000 + 1) 0 0 with
  | none => none
  | some sum =>
    match (if d < 1000000 then units_tail d j 101 (d + 1) 0 sum else some sum) with
    | none => none
    | some sum1 => some (sum1 % one_in_units)

/-- The part of `get_pi_hex_digit` (lines 78-91) that follows the test `d < 0`, as a
function of the runs of the four calls of `bbp_sum`. -/
def hex_digit_of_sums (A : Arith) (r1 r4 r5 r6 : Run ℚ) : Run Char := do
  let s1 ← r1
  let t1 ← f_mul A 4 s1
  let s4 ← r4
  let t4 ← f_mul A 2 s4
  let s5 ← r5
  let t5 ← f_mul A 1 s5
  let s6 ← r6
  let t6 ← f_mul A 1 s6
  let x ← f_sub A t1 t4
  let x ← f_sub A x t5
  let x ← f_sub A x t6
  let x ← f_sub A x (f_floor x)
  let x := if x < 0 then 0 else x
  let digit ← f_to_int (← f_mul A x 16)
  let digit := if digit < 0 then 0 else digit
  let digit := if digit > 15 then 15 else digit
  match hex_alphabet.get? digit.toNat with
  | some c => Run.ok c
  | none => Run.fault Fault.index_range

/-- A signed whole number of units of `2^-1074` of magnitude at most `c`. -/
def units_within (c : Nat) (q : ℚ) : Prop :=
  ∃ z : Int, q = (z : ℚ) / (one_in_units : ℚ) ∧ z.natAbs ≤ c * one_in_units

/-! ## The loops of `bbp_sum`, one iteration at a time

The bodies of the two loops, and the loops with a record of their iterations.  The
recorded loops run as `bbp_lower_loop` and `bbp_tail_loop` do (`bbp_lower_loop_record`,
`bbp_tail_loop_record`); the record makes the states between the iterations visible.
-/

/-- The body of the first loop (lines 32-50) at index `k`, entered with the running value
`sum`: the running value at the end of the iteration. -/
def bbp_lower_body (A : Arith) (d j k : Int) (sum : ℚ) : Run ℚ :=
  let m := wrap64 (wrap64 (8 * k) + j)
  if m = 0 then Run.ok sum
  else do
    let term ←
      if wrap64 (d - k) ≤ 1000000 then do
        let p ← mod_pow 16 (wrap64 (d - k)) m
        f_div A (← f_of_int A p) (← f_of_int A m)
      else do
        let reduced_exp ← c_rem (wrap64 (d - k)) (wrap64 (m - 1))
        let reduced_exp :=
          if reduced_exp < 0 then wrap64 (reduced_exp + wrap64 (m - 1)) else reduced_exp
        let p ← mod_pow 16 reduced_exp m
        f_div A (← f_of_int A p) (← f_of_int A m)
    let sum ← f_add A sum term
    f_sub A sum (f_floor sum)

/-- The first loop of `bbp_sum` with a record: the running values of `sum` at the end of
each iteration, in order.  One entry per iteration executed. -/
def bbp_lower_record (A : Arith) (d j k_limit : Int) : Nat → Int → ℚ → Run (List ℚ)
  | 0, k, _ => if k ≤ k_limit then Run.fault Fault.out_of_fuel else Run.ok []
  | fuel + 1, k, sum =>
    if k ≤ k_limit then do
      let sum ← bbp_lower_body A d j k sum
      let rest ← bbp_lower_record A d j k_limit fuel (wrap64 (k + 1)) sum
      pure (sum :: rest)
    else Run.ok []

/-- The body of the second loop (lines 57-66) at index `k`, entered with the running
`term` and `sum`: the term considered by the iteration and, unless the iteration leaves the
loop at `if (term < 1e-15) break`, the running sum after `sum += term`. -/
def bbp_tail_body (A : Arith) (d j k : Int) (term sum : ℚ) : Run (ℚ × Option ℚ) := do
  let m := wrap64 (wrap64 (8 * k) + j)
  let term ← f_div A term 16
  let term ←
    if k = wrap64 (d + 1) then do
      f_div A 1 (← f_mul A 16 (← f_of_int A m))
    else pure term
  if term < (← f_round A (1 / 10 ^ 15)) then Run.ok (term, none)
  else do
    let sum ← f_add A sum term
    Run.ok (term, some sum)

/-- The second loop of `bbp_sum` with a record: for each iteration executed, in order, the
term it considers and the running sum after its addition (`none` when the term is not
added). -/
def bbp_tail_record (A : Arith) (d j : Int) : Nat → Int → ℚ → ℚ → Run (List (ℚ × Option ℚ))
  | 0, _, _, _ => Run.fault Fault.out_of_fuel
  | fuel + 1, k, term, sum => do
    let step ← bbp_tail_body A d j k term sum
    match step with
    | (term, none) => Run.ok [(term, none)]
    | (term, some sum) =>
      if wrap64 (k - d) > 100 then Run.ok [(term, some sum)]
      else do
        let rest ← bbp_tail_record A d j fuel (wrap64 (k + 1)) term sum
        pure ((term, some sum) :: rest)

/-- The running sum at the end of a recorded run of the second loop entered with `sum`:
the last sum recorded. -/
def last_sum (sum : ℚ) (record : List (ℚ × Option ℚ)) : ℚ :=
  record.foldl (fun s step => step.2.getD s) sum

/-! ## The series that `bbp_sum` evaluates -/

/-- The series `sum_{k=0}^{d} 16^(d-k) / (8k+j)`. -/
def lower_series (d j : Nat) : ℚ :=
  ∑ k ∈ Finset.range (d + 1), (16 : ℚ) ^ (d - k) / ((8 * k + j : Nat) : ℚ)

/-- The term `1 / (16^i * (8(d+1)+j))`. -/
def tail_term (d j i : Nat) : ℚ := 1 / ((16 : ℚ) ^ i * ((8 * (d + 1) + j : Nat) : ℚ))

/-- The second loop as the specification words it: the terms
`1 / (16^i * (8(d+1)+j))`, `i = first, first + 1, ...`, are considered in order; a term of
at least `1e-15` is added to the sum, and the first term below `1e-15` ends the loop.  At
most `n` terms are considered.  The result has the form of a record of `bbp_tail_record`. -/
def tail_spec (d j : Nat) : Nat → Nat → ℚ → List (ℚ × Option ℚ)
  | 0, _, _ => []
  | n + 1, i, sum =>
    if tail_term d j i < 1 / 10 ^ 15 then [(tail_term d j i, none)]
    else (tail_term d j i, some (sum + tail_term d j i)) ::
      tail_spec d j n (i + 1) (sum + tail_term d j i)

/-! ## The integer computations over unbounded integers

The integer parts of `mod_pow` and `bbp_sum` with every operation computed over the
integers: no reduction into 64 bits.  The floating-point parts are unchanged.
-/

/-- The remainder `a % b` over unbounded integers: truncated, undefined for `b = 0`. -/
def rem_unbounded (a b : Int) : Run Int :=
  if b = 0 then Run.fault Fault.rem_by_zero else Run.ok (Int.tmod a b)

/-- The loop of `mod_pow` over unbounded integers. -/
def mod_pow_loop_unbounded : Nat → Int → Int → Int → Int → Run Int
  | 0, result, _, exp, _ => if exp > 0 then Run.fault Fault.out_of_fuel else Run.ok result
  | fuel + 1, result, base, exp, mod =>
    if exp > 0 then do
      let bit ← rem_unbounded exp 2
      let result ← if bit = 1 then rem_unbounded (result * base) mod else pure result
      let exp := Int.shiftRight exp 1
      let base ← rem_unbounded (base * base) mod
      mod_pow_loop_unbounded fuel result base exp mod
    else Run.ok result

/-- The function `mod_pow` over unbounded integers. -/
def mod_pow_unbounded (base exp mod : Int) : Run Int :=
  if mod = 1 then Run.ok 0
  else do
    let result := 1
    let base ← rem_unbounded base mod
    mod_pow_loop_unbounded exp.toNat result base exp mod

/-- The first loop of `bbp_sum` over unbounded integers. -/
def bbp_lower_loop_unbounded (A : Arith) (d j k_limit : Int) : Nat → Int → ℚ → Run ℚ
  | 0, k, sum => if k ≤ k_limit then Run.fault Fault.out_of_fuel else Run.ok sum
  | fuel + 1, k, sum =>
    if k ≤ k_limit then
      let m := 8 * k + j
      if m = 0 then bbp_lower_loop_unbounded A d j k_limit fuel (k + 1) sum
      else do
        let term ←
          if d - k ≤ 1000000 then do
            let p ← mod_pow_unbounded 16 (d - k) m
            f_div A (← f_of_int A p) (← f_of_int A m)
          else do
            let reduced_exp ← rem_unbounded (d - k) (m - 1)
            let reduced_exp := if reduced_exp < 0 then reduced_exp + (m - 1) else reduced_exp
            let p ← mod_pow_unbounded 16 reduced_exp m
            f_div A (← f_of_int A p) (← f_of_int A m)
        let sum ← f_add A sum term
        let sum ← f_sub A sum (f_floor sum)
        bbp_lower_loop_unbounded A d j k_limit fuel (k + 1) sum
    else Run.ok sum

/-- The second loop of `bbp_sum` over unbounded integers. -/
def bbp_tail_loop_unbounded (A : Arith) (d j : Int) : Nat → Int → ℚ → ℚ → Run ℚ
  | 0, _, _, _ => Run.fault Fault.out_of_fuel
  | fuel + 1, k, term, sum => do
    let m := 8 * k + j
    let term ← f_div A term 16
    let term ←
      if k = d + 1 then do
        f_div A 1 (← f_mul A 16 (← f_of_int A m))
      else pure term
    if term < (← f_round A (1 / 10 ^ 15)) then Run.ok sum
    else do
      let sum ← f_add A sum term
      if k - d > 100 then Run.ok sum
      else bbp_tail_loop_unbounded A d j fuel (k + 1) term sum

/-- The function `bbp_sum` over unbounded integers. -/
def bbp_sum_unbounded (A : Arith) (d j : Int) : Run ℚ := do
  let sum : ℚ := 0
  let k_limit : Int := if d < 1000000 then d else 1000000
  let sum ← bbp_lower_loop_unbounded A d j k_limit (k_limit + 1).toNat 0 sum
  let sum ←
    if d < 1000000 then bbp_tail_loop_unbounded A d j 101 (d + 1) 0 sum
    else pure sum
  f_sub A sum (f_floor sum)

/-! ## Basic facts about runs and 64-bit integers -/

@[simp] theorem Run.ok_bind {α β : Type} (a : α) (f : α → Run β) :
    (Run.ok a >>= f) = f a := rfl

@[simp] theorem Run.fault_bind {α β : Type} (e : Fault) (f : α → Run β) :
    (Run.fault e >>= f) = Run.fault e := rfl

@[simp] theorem Run.pure_eq {α : Type} (a : α) : (pure a : Run α) = Run.ok a := rfl

theorem wrap64_of_range {x : Int} (h1 : -(2 ^ 63) ≤ x) (h2 : x < 2 ^ 63) : wrap64 x = x := by
  unfold wrap64
  rw [Int.emod_eq_of_lt (by omega) (by omega)]
  omega

theorem c_rem_of_nonneg {a b : Int} (ha : 0 ≤ a) (hb : 0 < b) :
    c_rem a b = Run.ok (a % b) := by
  unfold c_rem
  have h1 : b ≠ 0 := by omega
  have h2 : ¬(a = INT64_MIN ∧ b = -1) := by omega
  simp only [h1, h2, if_false]
  rw [Int.tmod_eq_emod ha (by omega)]

theorem shiftRight_one (x : Int) : Int.shiftRight x 1 = x / 2 := by
  have h := Int.shiftRight_eq_div_pow x 1
  simpa using h

/-- The loop of `mod_pow` computes `result * base ^ exp` modulo `mod` when the running
values are reduced and the modulus is small enough for the products. -/
theorem mod_pow_loop_eq (m : Int) (hm1 : 2 ≤ m) (hm2 : m ≤ 3037000500) :
    ∀ (fuel : Nat) (result base exp : Int), 0 ≤ result → result < m → 0 ≤ base → base < m →
      0 ≤ exp → exp.toNat ≤ fuel →
      mod_pow_loop fuel result base exp m = Run.ok (result * base ^ exp.toNat % m) := by
  intro fuel
  induction fuel with
  | zero =>
    intro result base exp hr1 hr2 _ _ he hf
    have : exp = 0 := by omega
    subst this
    simp [mod_pow_loop, Int.emod_eq_of_lt hr1 hr2]
  | succ fuel ih =>
    intro result base exp hr1 hr2 hb1 hb2 he hf
    unfold mod_pow_loop
    by_cases hpos : exp > 0
    · have hrb : result * base < 2 ^ 63 := by nlinarith
      have hrb0 : 0 ≤ result * base := Int.mul_nonneg hr1 hb1
      have hbb : base * base < 2 ^ 63 := by nlinarith
      have hbb0 : 0 ≤ base * base := Int.mul_nonneg hb1 hb1
      have hm0 : 0 < m := by omega
      simp only [hpos, if_true, c_rem_of_nonneg he (by norm_num : (0 : Int) < 2), Run.ok_bind,
        wrap64_of_range (by omega : -(2 ^ 63) ≤ result * base) hrb,
        wrap64_of_range (by omega : -(2 ^ 63) ≤ base * base) hbb,
        c_rem_of_nonneg hbb0 hm0, c_rem_of_nonneg hrb0 hm0, shiftRight_one]
      have hdiv : (exp / 2).toNat ≤ fuel := by omega
      have hdiv0 : 0 ≤ exp / 2 := by omega
      have hb' : 0 ≤ base * base % m := Int.emod_nonneg _ (by omega)
      have hb'' : base * base % m < m := Int.emod_lt_of_pos _ hm0
      have hexp : exp.toNat = 2 * (exp / 2).toNat + (exp % 2).toNat := by omega
      by_cases hodd : exp % 2 = 1
      · simp only [hodd, if_true, Run.ok_bind]
        rw [ih _ _ _ (Int.emod_nonneg _ (by omega)) (Int.emod_lt_of_pos _ hm0) hb' hb'' hdiv0 hdiv]
        congr 1
        rw [hexp, hodd]
        have : (1 : Int).toNat = 1 := rfl
        rw [this, pow_add, pow_mul, pow_one]
        have e1 : (result * base % m * (base * base % m) ^ (exp / 2).toNat) ≡
            (result * base * (base * base) ^ (exp / 2).toNat) [ZMOD m] :=
          Int.ModEq.mul (Int.mod_modEq _ _) (Int.ModEq.pow _ (Int.mod_modEq _ _))
        have e2 : result * base * (base * base) ^ (exp / 2).toNat =
            result * ((base ^ 2) ^ (exp / 2).toNat * base) := by ring
        rw [← e2]
        exact e1
      · have hev : exp % 2 = 0 := by omega
        simp only [hev, Run.pure_eq, Run.ok_bind, if_neg (by norm_num : ¬ ((0 : Int) = 1))]
        rw [ih _ _ _ hr1 hr2 hb' hb'' hdiv0 hdiv]
        congr 1
        rw [hexp, hev]
        have : (0 : Int).toNat = 0 := rfl
        rw [this, add_zero, pow_mul]
        have e1 : (result * (base * base % m) ^ (exp / 2).toNat) ≡
            (result * (base * base) ^ (exp / 2).toNat) [ZMOD m] :=
          Int.ModEq.mul rfl (Int.ModEq.pow _ (Int.mod_modEq _ _))
        have e2 : result * (base * base) ^ (exp / 2).toNat = result * (base ^ 2) ^ (exp / 2).toNat := by
          ring
        rw [← e2]
        exact e1
    · have : exp = 0 := by omega
      subst this
      simp [Int.emod_eq_of_lt hr1 hr2]

/-- For a non-negative base, a non-negative exponent and a modulus up to 3037000500,
`mod_pow` returns the remainder of the power. -/
theorem mod_pow_of_nonneg (base e m : Int) (hb : 0 ≤ base) (he : 0 ≤ e)
    (hm1 : 1 ≤ m) (hm2 : m ≤ 3037000500) :
    mod_pow base e m = Run.ok (base ^ e.toNat % m) := by
  unfold mod_pow
  by_cases h1 : m = 1
  · subst h1
    simp [Int.emod_one]
  · have hm0 : 0 < m := by omega
    simp only [h1, if_false, c_rem_of_nonneg hb hm0, Run.ok_bind]
    rw [mod_pow_loop_eq m (by omega) hm2 _ 1 (base % m) e (by norm_num) (by omega)
      (Int.emod_nonneg _ (by omega)) (Int.emod_lt_of_pos _ hm0) he (le_refl _)]
    congr 1
    rw [one_mul]
    exact Int.ModEq.pow _ (Int.mod_modEq _ _)

theorem Run.bind_eq_ok {α β : Type} (x : Run α) (f : α → Run β) (b : β) :
    (x >>= f) = Run.ok b ↔ ∃ a, x = Run.ok a ∧ f a = Run.ok b := by
  cases x with
  | ok a => simp
  | fault e =>
    constructor
    · intro h; exact absurd h (by simp)
    · rintro ⟨a, h, _⟩; exact absurd h (by simp)

/-- Every character read from the alphabet at a clamped index belongs to it. -/
theorem get_pi_hex_digit_mem (A : Arith) (d : Int) (hd : 0 ≤ d) (c : Char)
    (h : get_pi_hex_digit A d = Run.ok c) : c ∈ hex_alphabet := by
  unfold get_pi_hex_digit at h
  rw [if_neg (by omega)] at h
  simp only [Run.bind_eq_ok] at h
  obtain ⟨s1, -, t1, -, s4, -, t4, -, s5, -, t5, -, s6, -, t6, -, x1, -, x2, -, x3, -, x4, -,
    y, -, digit, -, h⟩ := h
  split at h
  · rename_i c' hc
    cases h
    exact List.get?_mem hc
  · exact absurd h (by simp)

/-- At `k = 0` and `j = 1` the exponent reduction divides by `m - 1 = 0`. -/
theorem bbp_lower_loop_fault (A : Arith) (d k_limit : Int) (fuel : Nat) (sum : ℚ)
    (hd1 : 1000000 < d) (hd2 : d < 2 ^ 63) (hk : 0 ≤ k_limit) :
    bbp_lower_loop A d 1 k_limit (fuel + 1) 0 sum = Run.fault Fault.rem_by_zero := by
  unfold bbp_lower_loop
  have h1 : wrap64 (wrap64 (8 * 0) + 1) = 1 := by decide
  have h2 : wrap64 (d - 0) = d := by
    rw [sub_zero]; exact wrap64_of_range (by omega) hd2
  have h3 : wrap64 (1 - 1) = 0 := by decide
  simp only [h1, h2, h3, hk, if_true]
  rw [if_neg (by norm_num), if_neg (by omega)]
  simp [c_rem]

theorem bbp_sum_fault (A : Arith) (d : Int) (hd1 : 1000000 < d) (hd2 : d < 2 ^ 63) :
    bbp_sum A d 1 = Run.fault Fault.rem_by_zero := by
  unfold bbp_sum
  have hk : (if d < 1000000 then d else 1000000) = 1000000 := if_neg (by omega)
  have hf : ((1000000 : Int) + 1).toNat = 1000000 + 1 := rfl
  simp only [hk, hf]
  rw [bbp_lower_loop_fault A d 1000000 1000000 0 hd1 hd2 (by norm_num)]
  rfl

/-! ## The idealised arithmetic never leaves the finite doubles -/

@[simp] theorem f_round_exact (x : ℚ) : f_round exact_arith x = Run.ok x := rfl

@[simp] theorem f_of_int_exact (n : Int) : f_of_int exact_arith n = Run.ok (n : ℚ) := rfl

@[simp] theorem f_add_exact (a b : ℚ) : f_add exact_arith a b = Run.ok (a + b) := rfl

@[simp] theorem f_sub_exact (a b : ℚ) : f_sub exact_arith a b = Run.ok (a - b) := rfl

@[simp] theorem f_mul_exact (a b : ℚ) : f_mul exact_arith a b = Run.ok (a * b) := rfl

theorem f_div_exact (a b : ℚ) (hb : b ≠ 0) : f_div exact_arith a b = Run.ok (a / b) := by
  simp [f_div, hb]

theorem sub_floor_nonneg (x : ℚ) : 0 ≤ x - f_floor x := by
  unfold f_floor
  have := Int.floor_le x
  linarith

theorem sub_floor_lt_one (x : ℚ) : x - f_floor x < 1 := by
  unfold f_floor
  have := Int.lt_floor_add_one x
  linarith

/-- The modulus `8 * k + j` of the first loop, without wrap-around. -/
theorem modulus_eq (k j : Int) (hk1 : 0 ≤ k) (hk2 : k ≤ 1000000) (hj1 : 0 ≤ j) (hj2 : j ≤ 6) :
    wrap64 (wrap64 (8 * k) + j) = 8 * k + j := by
  rw [wrap64_of_range (by omega : -(2 ^ 63) ≤ 8 * k) (by omega)]
  exact wrap64_of_range (by omega) (by omega)

/-- In exact arithmetic the first loop of `bbp_sum` runs to its end without a fault, for
every position `d >= 0` and every `j` in {1, 4, 5, 6}, except `j = 1` beyond 1,000,000. -/
theorem bbp_lower_loop_exact_ok (d j k_limit : Int) (hd1 : 0 ≤ d) (hd2 : d < 2 ^ 63)
    (hk : k_limit = if d < 1000000 then d else 1000000)
    (hj : j = 1 ∨ j = 4 ∨ j = 5 ∨ j = 6) (hj1 : j = 1 → d ≤ 1000000) :
    ∀ (fuel : Nat) (k : Int) (sum : ℚ), 0 ≤ k → k + fuel = k_limit + 1 →
      ∃ s, bbp_lower_loop exact_arith d j k_limit fuel k sum = Run.ok s := by
  have hkl1 : k_limit ≤ d := by rw [hk]; split <;> omega
  have hkl2 : k_limit ≤ 1000000 := by rw [hk]; split <;> omega
  intro fuel
  induction fuel with
  | zero =>
    intro k sum _ hkf
    refine ⟨sum, ?_⟩
    unfold bbp_lower_loop
    rw [if_neg (by omega)]
  | succ fuel ih =>
    intro k sum hk0 hkf
    have hkle : k ≤ k_limit := by omega
    have hm : wrap64 (wrap64 (8 * k) + j) = 8 * k + j :=
      modulus_eq k j hk0 (by omega) (by omega) (by omega)
    have hk1 : wrap64 (k + 1) = k + 1 := wrap64_of_range (by omega) (by omega)
    have hdk : wrap64 (d - k) = d - k := wrap64_of_range (by omega) (by omega)
    have hm0 : (8 * k + j) ≠ 0 := by omega
    have hmq : ((8 * k + j : Int) : ℚ) ≠ 0 := by exact_mod_cast hm0
    unfold bbp_lower_loop
    simp only [hkle, if_true, hm, hk1, hdk, hm0, if_false]
    by_cases hbr : d - k ≤ 1000000
    · simp only [hbr, if_true]
      rw [mod_pow_of_nonneg 16 (d - k) (8 * k + j) (by norm_num) (by omega) (by omega) (by omega)]
      simp only [Run.ok_bind, f_of_int_exact, f_div_exact _ _ hmq, f_add_exact, f_sub_exact]
      exact ih _ _ (by omega) (by push_cast at hkf ⊢; omega)
    · have hm1 : wrap64 (8 * k + j - 1) = 8 * k + j - 1 :=
        wrap64_of_range (by omega) (by omega)
      have hm1pos : 0 < 8 * k + j - 1 := by
        rcases hj with h | h | h | h
        · exact absurd (hj1 h) (by omega)
        all_goals omega
      simp only [hbr, if_false, hm1, c_rem_of_nonneg (by omega : 0 ≤ d - k) hm1pos, Run.ok_bind]
      have hr0 : 0 ≤ (d - k) % (8 * k + j - 1) := Int.emod_nonneg _ (by omega)
      rw [if_neg (by omega)]
      rw [mod_pow_of_nonneg 16 _ (8 * k + j) (by norm_num) hr0 (by omega) (by omega)]
      simp only [Run.ok_bind, f_of_int_exact, f_div_exact _ _ hmq, f_add_exact, f_sub_exact]
      exact ih _ _ (by omega) (by push_cast at hkf ⊢; omega)

/-- In exact arithmetic the second loop of `bbp_sum` leaves by one of its two `break`s
before the iteration budget is used up. -/
theorem bbp_tail_loop_exact_ok (d j : Int) (hd1 : 0 ≤ d) (hd2 : d < 1000000)
    (hj1 : 0 < j) (hj2 : j ≤ 6) :
    ∀ (fuel : Nat) (k : Int) (term sum : ℚ), d < k → k - d + fuel = 102 → 0 < fuel →
      ∃ s, bbp_tail_loop exact_arith d j fuel k term sum = Run.ok s := by
  intro fuel
  induction fuel with
  | zero => intro k term sum _ _ h; exact absurd h (by omega)
  | succ fuel ih =>
    intro k term sum hk hkf _
    have hd1w : wrap64 (d + 1) = d + 1 := wrap64_of_range (by omega) (by omega)
    have hkd : wrap64 (k - d) = k - d := wrap64_of_range (by omega) (by omega)
    have hk1 : wrap64 (k + 1) = k + 1 := wrap64_of_range (by omega) (by omega)
    have hm : wrap64 (wrap64 (8 * k) + j) = 8 * k + j := by
      rw [wrap64_of_range (by omega : -(2 ^ 63) ≤ 8 * k) (by omega)]
      exact wrap64_of_range (by omega) (by omega)
    have h16 : (16 : ℚ) ≠ 0 := by norm_num
    have hmq : (16 : ℚ) * ((8 * k + j : Int) : ℚ) ≠ 0 := by
      have : (8 * k + j : Int) ≠ 0 := by omega
      have : ((8 * k + j : Int) : ℚ) ≠ 0 := by exact_mod_cast this
      positivity
    unfold bbp_tail_loop
    simp only [hd1w, hkd, hk1, hm, f_div_exact _ _ h16, Run.ok_bind, f_round_exact,
      f_of_int_exact, f_mul_exact, f_add_exact]
    by_cases hfirst : k = d + 1
    · subst hfirst
      simp only [if_true, f_div_exact _ _ hmq, Run.ok_bind]
      split
      · exact ⟨_, rfl⟩
      · rw [if_neg (by omega)]
        exact ih _ _ _ (by omega) (by push_cast at hkf ⊢; omega) (by omega)
    · simp only [hfirst, if_false, Run.pure_eq, Run.ok_bind]
      split
      · exact ⟨_, rfl⟩
      · split
        · exact ⟨_, rfl⟩
        · rename_i h100
          exact ih _ _ _ (by omega) (by push_cast at hkf ⊢; omega) (by omega)

/-- In exact arithmetic `bbp_sum(d, j)` returns a fraction in `[0, 1)`, for every position
`d >= 0` and every `j` in {1, 4, 5, 6}, except `j = 1` beyond 1,000,000. -/
theorem bbp_sum_exact_ok (d j : Int) (hd1 : 0 ≤ d) (hd2 : d < 2 ^ 63)
    (hj : j = 1 ∨ j = 4 ∨ j = 5 ∨ j = 6) (hj1 : j = 1 → d ≤ 1000000) :
    ∃ x, bbp_sum exact_arith d j = Run.ok x ∧ 0 ≤ x ∧ x < 1 := by
  unfold bbp_sum
  have hfuel : ((if d < 1000000 then d else 1000000) + 1 : Int).toNat + (0 : Int) =
      (if d < 1000000 then d else 1000000) + 1 := by split <;> omega
  obtain ⟨s, hs⟩ := bbp_lower_loop_exact_ok d j _ hd1 hd2 rfl hj hj1 _ 0 0 (le_refl _)
    (by rw [zero_add]; have := hfuel; simp only [add_zero] at this; exact this)
  simp only [hs, Run.ok_bind]
  by_cases hlt : d < 1000000
  · obtain ⟨t, ht⟩ := bbp_tail_loop_exact_ok d j hd1 hlt (by omega) (by omega) 101
      (wrap64 (d + 1)) 0 s (by rw [wrap64_of_range (by omega) (by omega)]; omega)
      (by rw [wrap64_of_range (by omega) (by omega)]; push_cast; omega) (by norm_num)
    simp only [hlt, if_true, ht, Run.ok_bind, f_sub_exact]
    exact ⟨_, rfl, sub_floor_nonneg t, sub_floor_lt_one t⟩
  · simp only [hlt, if_false, Run.pure_eq, Run.ok_bind, f_sub_exact]
    exact ⟨_, rfl, sub_floor_nonneg s, sub_floor_lt_one s⟩

/-- In exact arithmetic `get_pi_hex_digit(d)` returns a character of the alphabet for
every position from 0 to 1,000,000. -/
theorem get_pi_hex_digit_exact_ok (d : Int) (hd1 : 0 ≤ d) (hd2 : d ≤ 1000000) :
    ∃ c, get_pi_hex_digit exact_arith d = Run.ok c ∧ c ∈ hex_alphabet := by
  have hd3 : d < 2 ^ 63 := by omega
  obtain ⟨s1, h1, -, -⟩ := bbp_sum_exact_ok d 1 hd1 hd3 (by norm_num) (fun _ => hd2)
  obtain ⟨s4, h4, -, -⟩ := bbp_sum_exact_ok d 4 hd1 hd3 (by norm_num) (by norm_num)
  obtain ⟨s5, h5, -, -⟩ := bbp_sum_exact_ok d 5 hd1 hd3 (by norm_num) (by norm_num)
  obtain ⟨s6, h6, -, -⟩ := bbp_sum_exact_ok d 6 hd1 hd3 (by norm_num) (by norm_num)
  unfold get_pi_hex_digit
  rw [if_neg (by omega)]
  simp only [h1, h4, h5, h6, Run.ok_bind, f_mul_exact, f_sub_exact]
  generalize 4 * s1 - 2 * s4 - 1 * s5 - 1 * s6 = x
  have hx0 := sub_floor_nonneg x
  have hx1 := sub_floor_lt_one x
  generalize x - f_floor x = y at hx0 hx1
  rw [if_neg (by linarith)]
  have hy0 : (0 : ℚ) ≤ y * 16 := by linarith
  have hf0 : 0 ≤ Int.floor (y * 16) := Int.floor_nonneg.mpr hy0
  have hf1 : Int.floor (y * 16) < 16 := by
    rw [Int.floor_lt]; push_cast; linarith
  unfold f_to_int
  simp only [if_neg (by linarith : ¬ (y * 16 < 0))]
  rw [if_pos ⟨by omega, by omega⟩]
  simp only [Run.ok_bind]
  rw [if_neg (by omega), if_neg (by omega)]
  have hlen : (Int.floor (y * 16)).toNat < hex_alphabet.length := by
    have : hex_alphabet.length = 16 := rfl
    omega
  rw [List.get?_eq_get hlen]
  exact ⟨_, rfl, List.get_mem _ _ _⟩

/-- Beyond position 1,000,000 `get_pi_hex_digit` stops in the remainder by zero of
`bbp_sum(d, 1)`. -/
theorem get_pi_hex_digit_fault (A : Arith) (d : Int) (hd1 : 1000000 < d) (hd2 : d < 2 ^ 63) :
    get_pi_hex_digit A d = Run.fault Fault.rem_by_zero := by
  unfold get_pi_hex_digit
  rw [if_neg (by omega), bbp_sum_fault A d hd1 hd2]
  rfl

/-- The loop of `main` succeeds exactly when every call succeeds, and then it has appended
the characters of the calls, in order. -/
theorem main_loop_eq_ok (A : Arith) (p : Int) :
    ∀ (fuel : Nat) (i : Nat) (acc out : List Char), i + fuel = 64 →
      (main_loop A p fuel (i : Int) acc = Run.ok out ↔
        ∃ rest, out = acc ++ rest ∧ rest.length = fuel ∧
          ∀ (t : Nat) (c : Char), rest[t]? = some c →
            get_pi_hex_digit A (wrap64 (p + ((i + t : Nat) : Int))) = Run.ok c) := by
  intro fuel
  induction fuel with
  | zero =>
    intro i acc out hi
    unfold main_loop
    rw [if_neg (by omega)]
    constructor
    · intro h
      cases h
      exact ⟨[], by simp, rfl, by simp⟩
    · rintro ⟨rest, rfl, hlen, -⟩
      have : rest = [] := List.eq_nil_of_length_eq_zero hlen
      simp [this]
  | succ fuel ih =>
    intro i acc out hi
    unfold main_loop
    rw [if_pos (by omega)]
    have hcast : ((i : Int) + 1) = ((i + 1 : Nat) : Int) := by push_cast; rfl
    rw [hcast]
    constructor
    · intro h
      rw [Run.bind_eq_ok] at h
      obtain ⟨c, hc, h⟩ := h
      obtain ⟨rest, hout, hlen, hrest⟩ := (ih (i + 1) (acc ++ [c]) out (by omega)).mp h
      refine ⟨c :: rest, by simp [hout], by simp [hlen], ?_⟩
      intro t c' ht
      cases t with
      | zero =>
        simp only [List.getElem?_cons_zero, Option.some.injEq] at ht
        subst ht
        simpa using hc
      | succ t =>
        simp only [List.getElem?_cons_succ] at ht
        have := hrest t c' ht
        rw [show i + (t + 1) = i + 1 + t by omega]
        exact this
    · rintro ⟨rest, hout, hlen, hrest⟩
      cases rest with
      | nil => simp at hlen
      | cons c rest =>
        have hc := hrest 0 c (by simp)
        simp only [add_zero] at hc
        rw [hc, Run.ok_bind]
        refine (ih (i + 1) (acc ++ [c]) out (by omega)).mpr ⟨rest, by simp [hout], ?_, ?_⟩
        · simpa using hlen
        · intro t c' ht
          have := hrest (t + 1) c' (by simpa using ht)
          rw [show i + 1 + t = i + (t + 1) by omega]
          exact this

/-- The characters printed by `main` are, position by position, the results of the calls
of `get_pi_hex_digit`. -/
theorem main_digits_eq_ok (A : Arith) (p : Int) (out : List Char) :
    main_digits A p = Run.ok out ↔
      out.length = 64 ∧ ∀ (i : Nat) (c : Char), out[i]? = some c →
        get_pi_hex_digit A (wrap64 (p + (i : Int))) = Run.ok c := by
  unfold main_digits
  have h := main_loop_eq_ok A p 64 0 [] out (by norm_num)
  simp only [Nat.cast_zero, List.nil_append, zero_add] at h
  rw [h]
  constructor
  · rintro ⟨rest, rfl, hlen, hrest⟩
    exact ⟨hlen, hrest⟩
  · rintro ⟨hlen, hrest⟩
    exact ⟨out, rfl, hlen, hrest⟩

/-! ## Rounding: the leading bit -/

theorem smear_step_testBit (w x y : Nat)
    (h : ∀ i, y.testBit i = true ↔ ∃ j, j < w ∧ x.testBit (i + j) = true) (i : Nat) :
    (smear_step w y).testBit i = true ↔ ∃ j, j < 2 * w ∧ x.testBit (i + j) = true := by
  unfold smear_step
  rw [Nat.testBit_or, Nat.testBit_shiftRight, Bool.or_eq_true, h, h]
  constructor
  · rintro (⟨j, hj, hx⟩ | ⟨j, hj, hx⟩)
    · exact ⟨j, by omega, hx⟩
    · exact ⟨w + j, by omega, by rw [← hx]; congr 1; omega⟩
  · rintro ⟨j, hj, hx⟩
    by_cases hjw : j < w
    · exact Or.inl ⟨j, hjw, hx⟩
    · exact Or.inr ⟨j - w, by omega, by rw [← hx]; congr 1; omega⟩

theorem smear_testBit (x i : Nat) :
    (smear x).testBit i = true ↔ ∃ j, j < 4096 ∧ x.testBit (i + j) = true := by
  have h0 : ∀ i, x.testBit i = true ↔ ∃ j, j < 1 ∧ x.testBit (i + j) = true := by
    intro i
    constructor
    · intro h; exact ⟨0, by omega, by simpa using h⟩
    · rintro ⟨j, hj, h⟩
      have : j = 0 := by omega
      subst this; simpa using h
  have h1 := smear_step_testBit 1 x _ h0
  have h2 := smear_step_testBit 2 x _ h1
  have h3 := smear_step_testBit 4 x _ h2
  have h4 := smear_step_testBit 8 x _ h3
  have h5 := smear_step_testBit 16 x _ h4
  have h6 := smear_step_testBit 32 x _ h5
  have h7 := smear_step_testBit 64 x _ h6
  have h8 := smear_step_testBit 128 x _ h7
  have h9 := smear_step_testBit 256 x _ h8
  have h10 := smear_step_testBit 512 x _ h9
  have h11 := smear_step_testBit 1024 x _ h10
  have h12 := smear_step_testBit 2048 x _ h11
  exact h12 i

theorem testBit_leading (x : Nat) (hx : 0 < x) : x.testBit (Nat.size x - 1) = true := by
  have h1 : 2 ^ (Nat.size x - 1) ≤ x := Nat.lt_size.mp (by have := Nat.size_pos.mpr hx; omega)
  have h2 : x < 2 ^ (Nat.size x - 1 + 1) := by
    have := Nat.lt_size_self x
    have hs := Nat.size_pos.mpr hx
    rwa [Nat.sub_add_cancel hs]
  rw [Nat.testBit_to_div_mod]
  have h3 : x / 2 ^ (Nat.size x - 1) = 1 := by
    apply Nat.div_eq_of_lt_le
    · simpa using h1
    · rw [pow_succ] at h2; omega
  simp [h3]

/-- The smear of `x` sets every bit up to the leading bit of `x`. -/
theorem smear_eq (x : Nat) (hx : x < 2 ^ 4096) : smear x = 2 ^ Nat.size x - 1 := by
  apply Nat.eq_of_testBit_eq
  intro i
  rw [Nat.testBit_two_pow_sub_one]
  by_cases hi : i < Nat.size x
  · have hpos : 0 < x := Nat.size_pos.mp (by omega)
    have hs : Nat.size x ≤ 4096 := Nat.size_le.mpr hx
    rw [decide_eq_true hi]
    rw [smear_testBit]
    refine ⟨Nat.size x - 1 - i, by omega, ?_⟩
    rw [show i + (Nat.size x - 1 - i) = Nat.size x - 1 by omega]
    exact testBit_leading x hpos
  · rw [decide_eq_false hi]
    rw [← Bool.not_eq_true, smear_testBit]
    rintro ⟨j, -, hj⟩
    have hlt : x < 2 ^ (i + j) :=
      lt_of_lt_of_le (Nat.lt_size_self x) (Nat.pow_le_pow_right (by norm_num) (by omega))
    rw [Nat.testBit_lt_two_pow hlt] at hj
    exact absurd hj (by simp)

theorem one_in_units_eq : one_in_units = 2 ^ 1074 := by
  rw [one_in_units]

theorem overflow_bound_eq : overflow_bound = 2 ^ 1024 := by
  rw [overflow_bound]

set_option exponentiation.threshold 5000 in
theorem one_in_units_pos : 0 < one_in_units :=
  one_in_units_eq ▸ Nat.two_pow_pos 1074

set_option exponentiation.threshold 5000 in
theorem overflow_bound_pos : 0 < overflow_bound :=
  overflow_bound_eq ▸ Nat.two_pow_pos 1024

/-- The spacing is the power of two 52 places below the leading bit, and one unit for the
magnitudes below `2^53` units. -/
theorem spacing_eq (p d : Nat) (hx : p * one_in_units / d < 2 ^ 4096) :
    spacing p d = 2 ^ (Nat.size (p * one_in_units / d) - 53) := by
  unfold spacing
  rw [smear_eq _ hx]
  generalize Nat.size (p * one_in_units / d) = L
  have hpos : 0 < 2 ^ L := Nat.two_pow_pos _
  rw [Nat.sub_add_cancel hpos]
  by_cases h : 53 ≤ L
  · rw [Nat.pow_div h (by norm_num)]
    exact max_eq_right (Nat.one_le_two_pow)
  · have hlt : 2 ^ L < 2 ^ 53 := Nat.pow_lt_pow_right (by norm_num) (by omega)
    rw [Nat.div_eq_of_lt hlt]
    have : L - 53 = 0 := by omega
    rw [this]
    rfl

/-! ## Rounding: nearest multiple -/

theorem round_half_even_bounds (num den : Nat) (hden : 0 < den) :
    2 * (round_half_even num den * den) ≤ 2 * num + den ∧
      2 * num ≤ 2 * (round_half_even num den * den) + den := by
  unfold round_half_even
  have hdm := Nat.div_add_mod num den
  have hr := Nat.mod_lt num hden
  generalize num / den = q at hdm ⊢
  generalize num % den = r at hdm hr ⊢
  subst hdm
  rcases lt_trichotomy (2 * r) den with h | h | h
  · simp only [compare_lt_iff_lt.mpr h]
    constructor <;> nlinarith
  · simp only [compare_eq_iff_eq.mpr h]
    have h2 : q % 2 = 0 ∨ q % 2 = 1 := by omega
    rcases h2 with h2 | h2 <;> rw [h2] <;> constructor <;> nlinarith
  · simp only [compare_gt_iff_gt.mpr h]
    constructor <;> nlinarith

theorem round_half_even_of_dvd (num den : Nat) (hden : 0 < den) (h : den ∣ num) :
    round_half_even num den = num / den := by
  unfold round_half_even
  have hr : num % den = 0 := Nat.mod_eq_zero_of_dvd h
  simp only [hr, Nat.mul_zero, compare_lt_iff_lt.mpr hden]

theorem round_half_even_scale (c num den : Nat) (hc : 0 < c) :
    round_half_even (c * num) (c * den) = round_half_even num den := by
  unfold round_half_even
  rw [Nat.mul_div_mul_left _ _ hc, Nat.mul_mod_mul_left]
  have hcmp : compare (2 * (c * (num % den))) (c * den) = compare (2 * (num % den)) den := by
    rcases lt_trichotomy (2 * (num % den)) den with h | h | h
    · rw [compare_lt_iff_lt.mpr h, compare_lt_iff_lt]
      nlinarith
    · rw [compare_eq_iff_eq.mpr h, compare_eq_iff_eq]
      nlinarith
    · rw [compare_gt_iff_gt.mpr h, compare_gt_iff_gt]
      nlinarith
  simp only [hcmp]

theorem spacing_scale (c p d : Nat) (hc : 0 < c) : spacing (c * p) (c * d) = spacing p d := by
  unfold spacing
  rw [Nat.mul_assoc, Nat.mul_div_mul_left _ _ hc]

/-- The rounding depends on the quotient `p / d` only. -/
theorem round_units_scale (c p d : Nat) (hc : 0 < c) :
    round_units (c * p) (c * d) = round_units p d := by
  unfold round_units
  have h1 : Nat.ble (c * d * (2 * overflow_bound)) (c * p) =
      Nat.ble (d * (2 * overflow_bound)) p := by
    rw [Bool.eq_iff_iff, Nat.ble_eq, Nat.ble_eq, Nat.mul_assoc]
    exact ⟨fun h => Nat.le_of_mul_le_mul_left h hc, fun h => Nat.mul_le_mul_left c h⟩
  have h2 : round_half_even (c * p * one_in_units) (c * d * spacing p d) =
      round_half_even (p * one_in_units) (d * spacing p d) := by
    rw [Nat.mul_assoc, Nat.mul_assoc, round_half_even_scale _ _ _ hc]
  simp only [h1, spacing_scale c p d hc, h2]

theorem size_mul_two_pow_le (n a : Nat) (hn : n < 2 ^ 53) : Nat.size (n * 2 ^ a) ≤ 53 + a := by
  rw [Nat.size_le, pow_add]
  exact Nat.mul_lt_mul_of_pos_right hn (Nat.two_pow_pos a)

/-- The magnitude in units of a quotient below `2^k`. -/
theorem quotient_lt (p d : Nat) (hd : 0 < d) (k : Nat) (h : p < d * 2 ^ k) :
    p * one_in_units / d < 2 ^ (k + 1074) := by
  rw [Nat.div_lt_iff_lt_mul hd, pow_add, ← one_in_units_eq]
  have h1 : p * one_in_units < d * 2 ^ k * one_in_units :=
    Nat.mul_lt_mul_of_pos_right h one_in_units_pos
  calc p * one_in_units < d * 2 ^ k * one_in_units := h1
    _ = 2 ^ k * one_in_units * d := by ring

/-! ## Rounding: the doubles and their images -/

theorem round_units_none (p d : Nat) (hp : d * (2 * overflow_bound) ≤ p) :
    round_units p d = none := by
  unfold round_units
  rw [(Nat.ble_eq).mpr hp]
  rfl

set_option exponentiation.threshold 5000 in
theorem round_units_eq (p d : Nat) (hd : 0 < d) (hp : p < d * (2 * overflow_bound)) :
    round_units p d =
      bif Nat.ble (overflow_bound * one_in_units)
        (round_half_even (p * one_in_units) (d * 2 ^ (Nat.size (p * one_in_units / d) - 53)) *
          2 ^ (Nat.size (p * one_in_units / d) - 53))
      then none
      else some (round_half_even (p * one_in_units)
          (d * 2 ^ (Nat.size (p * one_in_units / d) - 53)) *
          2 ^ (Nat.size (p * one_in_units / d) - 53)) := by
  unfold round_units
  have h1 : Nat.ble (d * (2 * overflow_bound)) p = false := by
    rw [← Bool.not_eq_true, Nat.ble_eq]; exact not_le.mpr hp
  have hx : p * one_in_units / d < 2 ^ 4096 := by
    rw [Nat.div_lt_iff_lt_mul hd]
    have h2 : p * one_in_units < d * (2 * overflow_bound) * one_in_units :=
      Nat.mul_lt_mul_of_pos_right hp one_in_units_pos
    have h3 : d * (2 * overflow_bound) * one_in_units = 2 ^ (1 + 1024 + 1074) * d := by
      rw [pow_add, pow_add, pow_one, ← overflow_bound_eq, ← one_in_units_eq]
      ring
    have h4 : 2 ^ (1 + 1024 + 1074) * d ≤ 2 ^ 4096 * d :=
      Nat.mul_le_mul_right d (Nat.pow_le_pow_right (by decide) (by decide))
    rw [h3] at h2
    exact lt_of_lt_of_le h2 h4
  simp only [h1, cond_false, spacing_eq p d hx]

/-- The rounded quotient has at most 53 bits, the case `2^53` included. -/
theorem round_half_even_le (P X d : Nat) (hd : 0 < d) (hX : X = P / d) :
    round_half_even P (d * 2 ^ (Nat.size X - 53)) ≤ 2 ^ 53 := by
  generalize ha : Nat.size X - 53 = a
  have hs : 0 < 2 ^ a := Nat.two_pow_pos a
  have hds : 0 < d * 2 ^ a := Nat.mul_pos hd hs
  obtain ⟨hb, -⟩ := round_half_even_bounds P (d * 2 ^ a) hds
  have hP : P < d * (X + 1) := by rw [hX]; exact Nat.lt_mul_div_succ _ hd
  have hX1 : X + 1 ≤ 2 ^ a * 2 ^ 53 := by
    have h1 : X < 2 ^ Nat.size X := Nat.lt_size_self X
    have h2 : 2 ^ Nat.size X ≤ 2 ^ (a + 53) := Nat.pow_le_pow_right (by norm_num) (by omega)
    rw [pow_add] at h2
    omega
  have hP2 : P < d * 2 ^ a * 2 ^ 53 := by
    calc P < d * (X + 1) := hP
      _ ≤ d * (2 ^ a * 2 ^ 53) := Nat.mul_le_mul_left d hX1
      _ = d * 2 ^ a * 2 ^ 53 := by ring
  generalize round_half_even P (d * 2 ^ a) = n at hb ⊢
  generalize d * 2 ^ a = D at hds hb hP2
  by_contra hn
  have hn' : 2 ^ 53 + 1 ≤ n := by omega
  have : (2 ^ 53 + 1) * D ≤ n * D := Nat.mul_le_mul_right D hn'
  nlinarith

theorem cond_eq_some {α : Type} (b : Bool) (x y : α) (h : (bif b then none else some x) = some y) :
    b = false ∧ x = y := by
  cases b with
  | true => exact absurd h (by simp)
  | false => exact ⟨rfl, by simpa using h⟩

/-- Every value of the rounding has at most 53 significant bits. -/
theorem round_units_fits (p d N : Nat) (hd : 0 < d) (h : round_units p d = some N) :
    fits_53_bits N := by
  by_cases hp : p < d * (2 * overflow_bound)
  · rw [round_units_eq p d hd hp] at h
    have hle := round_half_even_le (p * one_in_units) _ d hd rfl
    generalize round_half_even (p * one_in_units)
      (d * 2 ^ (Nat.size (p * one_in_units / d) - 53)) = n at h hle
    generalize Nat.size (p * one_in_units / d) - 53 = a at h
    obtain ⟨-, rfl⟩ := cond_eq_some _ _ _ h
    by_cases hn : n < 2 ^ 53
    · exact ⟨n, a, rfl, hn⟩
    · have : n = 2 ^ 53 := by omega
      subst this
      exact ⟨2 ^ 52, a + 1, by rw [pow_succ]; ring, by norm_num⟩
  · rw [round_units_none p d (not_lt.mp hp)] at h
    exact absurd h (by simp)

/-- The value of the rounding is below `2^1024`. -/
theorem round_units_lt (p d N : Nat) (h : round_units p d = some N) :
    N < overflow_bound * one_in_units := by
  unfold round_units at h
  cases hb : Nat.ble (d * (2 * overflow_bound)) p with
  | true => rw [hb] at h; exact absurd h (by simp)
  | false =>
    rw [hb] at h
    simp only [cond_false] at h
    obtain ⟨h2, -⟩ := cond_eq_some _ _ _ h
    rw [← Bool.not_eq_true, Nat.ble_eq] at h2
    have h3 := not_le.mp h2
    obtain ⟨-, rfl⟩ := cond_eq_some _ _ _ h
    exact h3

/-- A magnitude with at most 53 significant bits is a double: the rounding keeps it. -/
theorem round_units_of_fits (p d N : Nat) (hd : 0 < d) (hN : fits_53_bits N)
    (hN2 : N < overflow_bound * one_in_units) (h : p * one_in_units = N * d) :
    round_units p d = some N := by
  have hp : p < d * (2 * overflow_bound) := by
    have h2 : N * d < overflow_bound * one_in_units * d := Nat.mul_lt_mul_of_pos_right hN2 hd
    rw [← h] at h2
    have h3 : overflow_bound * one_in_units * d = d * overflow_bound * one_in_units := by ring
    rw [h3] at h2
    have h4 : p < d * overflow_bound := Nat.lt_of_mul_lt_mul_right h2
    have h5 : d * overflow_bound ≤ d * (2 * overflow_bound) :=
      Nat.mul_le_mul_left d (Nat.le_mul_of_pos_left _ (by norm_num))
    exact lt_of_lt_of_le h4 h5
  rw [round_units_eq p d hd hp]
  have hX : p * one_in_units / d = N := by rw [h]; exact Nat.mul_div_cancel _ hd
  rw [hX, h]
  obtain ⟨n, a, rfl, hn⟩ := hN
  have hsz : Nat.size (n * 2 ^ a) - 53 ≤ a := by
    have := size_mul_two_pow_le n a hn
    omega
  generalize Nat.size (n * 2 ^ a) - 53 = b at hsz
  obtain ⟨c, rfl⟩ := Nat.exists_eq_add_of_le hsz
  have hfac : n * 2 ^ (b + c) * d = n * 2 ^ c * (d * 2 ^ b) := by rw [pow_add]; ring
  have hdpos : 0 < d * 2 ^ b := Nat.mul_pos hd (Nat.two_pow_pos b)
  rw [hfac, round_half_even_of_dvd _ _ hdpos ⟨n * 2 ^ c, by ring⟩,
    Nat.mul_div_cancel _ hdpos]
  have hq : n * 2 ^ c * 2 ^ b = n * 2 ^ (b + c) := by rw [pow_add]; ring
  rw [hq]
  have hb : Nat.ble (overflow_bound * one_in_units) (n * 2 ^ (b + c)) = false := by
    rw [← Bool.not_eq_true, Nat.ble_eq]; exact not_le.mpr hN2
  rw [hb]
  rfl

set_option exponentiation.threshold 5000 in
/-- The rounding of a magnitude below `2^64` is finite. -/
theorem round_units_isSome (p d : Nat) (hd : 0 < d) (hp : p < d * 2 ^ 64) :
    ∃ N, round_units p d = some N := by
  have hp' : p < d * (2 * overflow_bound) := by
    have h1 : (2 : Nat) ^ 64 ≤ 2 * overflow_bound := by
      have h2 : (2 : Nat) ^ 64 ≤ 2 ^ 1024 := Nat.pow_le_pow_right (by decide) (by decide)
      rw [← overflow_bound_eq] at h2
      exact le_trans h2 (Nat.le_mul_of_pos_left _ (by norm_num))
    exact lt_of_lt_of_le hp (Nat.mul_le_mul_left d h1)
  rw [round_units_eq p d hd hp']
  have hle := round_half_even_le (p * one_in_units) _ d hd rfl
  have hX : p * one_in_units / d < 2 ^ (64 + 1074) := quotient_lt p d hd 64 hp
  have hsz : Nat.size (p * one_in_units / d) ≤ 64 + 1074 := Nat.size_le.mpr hX
  generalize round_half_even (p * one_in_units)
    (d * 2 ^ (Nat.size (p * one_in_units / d) - 53)) = n at hle ⊢
  have ha : Nat.size (p * one_in_units / d) - 53 ≤ 1085 := by omega
  generalize Nat.size (p * one_in_units / d) - 53 = a at ha ⊢
  have hlt : n * 2 ^ a < overflow_bound * one_in_units := by
    have h1 : n * 2 ^ a ≤ 2 ^ 53 * 2 ^ 1085 :=
      Nat.mul_le_mul hle (Nat.pow_le_pow_right (by norm_num) ha)
    have h2 : (2 : Nat) ^ 53 * 2 ^ 1085 < overflow_bound * one_in_units := by
      rw [overflow_bound_eq, one_in_units_eq, ← pow_add, ← pow_add]
      exact Nat.pow_lt_pow_right (by norm_num) (by norm_num)
    exact lt_of_le_of_lt h1 h2
  have hb : Nat.ble (overflow_bound * one_in_units) (n * 2 ^ a) = false := by
    rw [← Bool.not_eq_true, Nat.ble_eq]; exact not_le.mpr hlt
  rw [hb]
  exact ⟨_, rfl⟩

/-- The rounding does not exceed a double that bounds the exact magnitude. -/
theorem round_units_le (p d N B : Nat) (hd : 0 < d) (h : round_units p d = some N)
    (hB : fits_53_bits B) (hpB : p * one_in_units ≤ B * d) : N ≤ B := by
  have hp : p < d * (2 * overflow_bound) := by
    by_contra hge
    rw [round_units_none p d (not_lt.mp hge)] at h
    exact absurd h (by simp)
  rw [round_units_eq p d hd hp] at h
  generalize p * one_in_units = P at h hpB
  have hXB : P / d ≤ B :=
    Nat.div_le_of_le_mul (by rw [Nat.mul_comm d B]; exact hpB)
  obtain ⟨b, c, rfl, hb⟩ := hB
  have hsz : Nat.size (P / d) - 53 ≤ c := by
    have h1 := Nat.size_le_size hXB
    have h2 := size_mul_two_pow_le b c hb
    omega
  generalize Nat.size (P / d) - 53 = a at h hsz
  obtain ⟨hup, -⟩ := round_half_even_bounds P (d * 2 ^ a)
    (Nat.mul_pos hd (Nat.two_pow_pos a))
  generalize round_half_even P (d * 2 ^ a) = n at h hup
  obtain ⟨-, rfl⟩ := cond_eq_some _ _ _ h
  obtain ⟨e, rfl⟩ := Nat.exists_eq_add_of_le hsz
  have hs : 0 < 2 ^ a := Nat.two_pow_pos a
  have hkey : n ≤ b * 2 ^ e := by
    by_contra hn
    have hn' : b * 2 ^ e + 1 ≤ n := by omega
    have h1 : (b * 2 ^ e + 1) * (d * 2 ^ a) ≤ n * (d * 2 ^ a) :=
      Nat.mul_le_mul_right _ hn'
    have h2 : b * 2 ^ (a + e) * d = b * 2 ^ e * (d * 2 ^ a) := by rw [pow_add]; ring
    have h3 : 0 < d * 2 ^ a := Nat.mul_pos hd hs
    rw [h2] at hpB
    rw [Nat.add_mul, Nat.one_mul] at h1
    generalize d * 2 ^ a = D at hup hpB h1 h3
    generalize b * 2 ^ e * D = K at hpB h1
    generalize n * D = M at hup h1
    omega
  calc n * 2 ^ a ≤ b * 2 ^ e * 2 ^ a := Nat.mul_le_mul_right _ hkey
    _ = b * 2 ^ (a + e) := by rw [pow_add]; ring

/-! ## Rounding: rationals -/

/-- A quotient of natural numbers and its reduced form differ by a common factor. -/
theorem rat_reduced (a b : Nat) (hb : 0 < b) :
    ∃ c, 0 < c ∧ a = c * ((a : ℚ) / (b : ℚ)).num.natAbs ∧ b = c * ((a : ℚ) / (b : ℚ)).den := by
  set q : ℚ := (a : ℚ) / (b : ℚ) with hq
  have hbq : (b : ℚ) ≠ 0 := by exact_mod_cast hb.ne'
  have hq0 : 0 ≤ q := by positivity
  have hnum0 : 0 ≤ q.num := Rat.num_nonneg.mpr hq0
  have hcross : (q.num : ℚ) * b = a * q.den := by
    have h1 : q = (q.num : ℚ) / (q.den : ℚ) := (Rat.num_div_den q).symm
    have hden : (q.den : ℚ) ≠ 0 := by exact_mod_cast q.den_pos.ne'
    have h2 : (q.num : ℚ) / (q.den : ℚ) = (a : ℚ) / (b : ℚ) := by rw [← h1]
    rw [div_eq_div_iff hden hbq] at h2
    exact h2
  have hcrossN : q.num.natAbs * b = a * q.den := by
    have h1 : ((q.num.natAbs : Int) : ℚ) = (q.num : ℚ) := by
      rw [Int.natAbs_of_nonneg hnum0]
    have h2 : ((q.num.natAbs * b : Nat) : ℚ) = ((a * q.den : Nat) : ℚ) := by
      push_cast
      rw [← hcross]
      congr 1
    exact_mod_cast h2
  have hcop : Nat.Coprime q.num.natAbs q.den := q.reduced
  have hdvd : q.den ∣ b := by
    have h1 : q.den ∣ q.num.natAbs * b := ⟨a, by rw [hcrossN]; ring⟩
    exact (Nat.Coprime.dvd_mul_left hcop.symm).mp h1
  obtain ⟨c, hc⟩ := hdvd
  have hc0 : 0 < c := by
    rcases Nat.eq_zero_or_pos c with h | h
    · rw [h, Nat.mul_zero] at hc; omega
    · exact h
  refine ⟨c, hc0, ?_, by rw [hc]; ring⟩
  have h3 : q.num.natAbs * (q.den * c) = a * q.den := by rw [← hc]; exact hcrossN
  have h4 : q.den * (c * q.num.natAbs) = q.den * a := by rw [← Nat.mul_comm a, ← h3]; ring
  exact (Nat.eq_of_mul_eq_mul_left q.den_pos h4).symm

theorem units_value_nonneg (N : Nat) : 0 ≤ units_value N := by
  unfold units_value; positivity

/-- The rounding of a non-negative quotient, in units. -/
theorem round_binary64_div (a b : Nat) (hb : 0 < b) :
    round_binary64 ((a : ℚ) / (b : ℚ)) = (round_units a b).map units_value := by
  obtain ⟨c, hc0, ha, hb'⟩ := rat_reduced a b hb
  have hq0 : (0 : ℚ) ≤ (a : ℚ) / (b : ℚ) := by positivity
  have hnum0 : ¬ ((a : ℚ) / (b : ℚ)).num < 0 := not_lt.mpr (Rat.num_nonneg.mpr hq0)
  unfold round_binary64
  have hsc : round_units ((a : ℚ) / (b : ℚ)).num.natAbs ((a : ℚ) / (b : ℚ)).den =
      round_units a b := by
    have h := round_units_scale c ((a : ℚ) / (b : ℚ)).num.natAbs ((a : ℚ) / (b : ℚ)).den hc0
    rw [← ha, ← hb'] at h
    exact h.symm
  rw [hsc]
  cases round_units a b with
  | none => rfl
  | some N =>
    simp only [hnum0, if_false, Option.map_some']
    congr 1
    unfold units_value
    rw [Rat.mkRat_eq_div]
    push_cast
    rfl

/-- The rounding is odd: the sign is kept and the magnitude is rounded. -/
theorem round_binary64_neg (q : ℚ) : round_binary64 (-q) = (round_binary64 q).map (fun r => -r) := by
  unfold round_binary64
  rw [Rat.neg_num, Rat.neg_den, Int.natAbs_neg]
  cases h : round_units q.num.natAbs q.den with
  | none => rfl
  | some N =>
    simp only [Option.map_some']
    congr 1
    rcases lt_trichotomy q.num 0 with hn | hn | hn
    · rw [if_neg (by omega), if_pos hn, neg_neg]
    · have hN : N = 0 := by
        rw [hn] at h
        have : round_units 0 q.den = some 0 :=
          round_units_of_fits 0 q.den 0 q.den_pos ⟨0, 0, by simp, by norm_num⟩
            (Nat.mul_pos overflow_bound_pos one_in_units_pos) (by simp)
        simp only [Int.natAbs_zero] at h
        rw [this] at h
        exact (Option.some.inj h).symm
      subst hN
      simp [hn]
    · rw [if_pos (by omega), if_neg (by omega)]

/-! ## Double-precision operations in units -/

theorem one_in_units_cast_pos : (0 : ℚ) < (one_in_units : ℚ) := by
  exact_mod_cast one_in_units_pos

theorem units_value_lt_iff (a b : Nat) : units_value a < units_value b ↔ a < b := by
  unfold units_value
  rw [div_lt_div_iff_of_pos_right one_in_units_cast_pos]
  exact Nat.cast_lt

theorem units_value_lt_one (a : Nat) (h : a < one_in_units) : units_value a < 1 := by
  unfold units_value
  rw [div_lt_one one_in_units_cast_pos]
  exact_mod_cast h

theorem f_round_binary64_div (a b : Nat) (hb : 0 < b) :
    f_round binary64 ((a : ℚ) / (b : ℚ)) = units_run (round_units a b) := by
  unfold f_round binary64
  simp only [round_binary64_div a b hb]
  cases round_units a b <;> rfl

theorem fits_of_lt (n : Nat) (hn : n < 2 ^ 53) : fits_53_bits (n * one_in_units) :=
  ⟨n, 1074, by rw [one_in_units_eq], hn⟩

set_option exponentiation.threshold 5000 in
theorem lt_overflow_of_lt (n : Nat) (hn : n < 2 ^ 53) :
    n * one_in_units < overflow_bound * one_in_units := by
  apply Nat.mul_lt_mul_of_pos_right _ one_in_units_pos
  have h : (2 : Nat) ^ 53 ≤ 2 ^ 1024 := Nat.pow_le_pow_right (by decide) (by decide)
  rw [← overflow_bound_eq] at h
  exact lt_of_lt_of_le hn h

/-- The rounding keeps a whole number of ones below `2^53`. -/
theorem round_units_whole (n d : Nat) (hd : 0 < d) (hn : n < 2 ^ 53) :
    round_units (n * d) d = some (n * one_in_units) :=
  round_units_of_fits (n * d) d (n * one_in_units) hd (fits_of_lt n hn)
    (lt_overflow_of_lt n hn) (by ring)

theorem units_value_whole (n : Nat) : units_value (n * one_in_units) = (n : ℚ) := by
  unfold units_value
  have h := one_in_units_cast_pos
  push_cast
  field_simp

/-- Natural numbers below `2^53` are doubles. -/
theorem f_round_binary64_nat (n : Nat) (hn : n < 2 ^ 53) :
    f_round binary64 (n : ℚ) = Run.ok (n : ℚ) := by
  have h1 : (n : ℚ) = ((n * 1 : Nat) : ℚ) / ((1 : Nat) : ℚ) := by simp
  rw [h1, f_round_binary64_div (n * 1) 1 (by norm_num), round_units_whole n 1 (by norm_num) hn]
  show Run.ok (units_value (n * one_in_units)) = _
  rw [units_value_whole]
  simp

theorem f_of_int_binary64_nat (n : Nat) (hn : n < 2 ^ 53) :
    f_of_int binary64 (n : Int) = Run.ok (n : ℚ) := by
  unfold f_of_int
  rw [Int.cast_natCast]
  exact f_round_binary64_nat n hn

theorem f_div_binary64_nat (a b : Nat) (hb : 0 < b) :
    f_div binary64 (a : ℚ) (b : ℚ) = units_run (round_units a b) := by
  unfold f_div
  rw [if_neg (by exact_mod_cast hb.ne'), f_round_binary64_div a b hb]

theorem f_add_binary64_units (s t : Nat) :
    f_add binary64 (units_value s) (units_value t) =
      units_run (round_units (s + t) one_in_units) := by
  unfold f_add
  rw [← f_round_binary64_div (s + t) one_in_units one_in_units_pos]
  congr 1
  unfold units_value
  push_cast
  ring

theorem f_floor_units (s : Nat) :
    f_floor (units_value s) = ((s / one_in_units : Nat) : ℚ) := by
  unfold f_floor units_value
  have hU := one_in_units_cast_pos
  have h : (Int.floor ((s : ℚ) / (one_in_units : ℚ)) : Int) = ((s / one_in_units : Nat) : Int) := by
    rw [Int.floor_eq_iff]
    have hdm := Nat.div_add_mod s one_in_units
    have hm := Nat.mod_lt s one_in_units_pos
    have hsq : (s : ℚ) = (one_in_units : ℚ) * ((s / one_in_units : Nat) : ℚ) +
        ((s % one_in_units : Nat) : ℚ) := by
      exact_mod_cast hdm.symm
    have hmq : ((s % one_in_units : Nat) : ℚ) < (one_in_units : ℚ) := by exact_mod_cast hm
    have hm0 : (0 : ℚ) ≤ ((s % one_in_units : Nat) : ℚ) := Nat.cast_nonneg _
    rw [Int.cast_natCast]
    constructor
    · rw [le_div_iff₀ hU]
      linarith
    · rw [div_lt_iff₀ hU]
      linarith
  rw [h, Int.cast_natCast]

theorem sub_floor_units (s : Nat) :
    units_value s - f_floor (units_value s) = units_value (s % one_in_units) := by
  rw [f_floor_units]
  unfold units_value
  have hdm := Nat.div_add_mod s one_in_units
  have hsq : (s : ℚ) = (one_in_units : ℚ) * ((s / one_in_units : Nat) : ℚ) +
      ((s % one_in_units : Nat) : ℚ) := by
    exact_mod_cast hdm.symm
  have hU : (one_in_units : ℚ) ≠ 0 := one_in_units_cast_pos.ne'
  field_simp
  linarith

/-- The remainder of a double by a power of two is a double. -/
theorem fits_mod_two_pow (s e : Nat) (h : fits_53_bits s) : fits_53_bits (s % 2 ^ e) := by
  obtain ⟨n, a, rfl, hn⟩ := h
  by_cases ha : a ≤ e
  · obtain ⟨c, rfl⟩ := Nat.exists_eq_add_of_le ha
    refine ⟨n % 2 ^ c, a, ?_, lt_of_le_of_lt (Nat.mod_le _ _) hn⟩
    rw [pow_add, Nat.mul_comm (2 ^ a) (2 ^ c), Nat.mul_mod_mul_right]
  · have hdvd : 2 ^ e ∣ n * 2 ^ a :=
      Dvd.dvd.mul_left (Nat.pow_dvd_pow 2 (by omega)) n
    rw [Nat.mod_eq_zero_of_dvd hdvd]
    exact ⟨0, 0, by simp, by norm_num⟩

/-- The fractional part of a double is a double. -/
theorem fits_mod (s : Nat) (h : fits_53_bits s) : fits_53_bits (s % one_in_units) := by
  rw [one_in_units_eq]
  exact fits_mod_two_pow s 1074 h

theorem mod_lt_overflow (s : Nat) : s % one_in_units < overflow_bound * one_in_units :=
  lt_of_lt_of_le (Nat.mod_lt s one_in_units_pos) (Nat.le_mul_of_pos_left _ overflow_bound_pos)

theorem f_sub_floor_binary64_units (s : Nat) (hs : fits_53_bits s) :
    f_sub binary64 (units_value s) (f_floor (units_value s)) =
      Run.ok (units_value (s % one_in_units)) := by
  unfold f_sub
  rw [sub_floor_units]
  have h1 : units_value (s % one_in_units) =
      ((s % one_in_units : Nat) : ℚ) / ((one_in_units : Nat) : ℚ) := rfl
  rw [h1, f_round_binary64_div _ _ one_in_units_pos,
    round_units_of_fits _ _ (s % one_in_units) one_in_units_pos (fits_mod s hs)
      (mod_lt_overflow s) rfl]
  rfl

/-! ## The loops of `bbp_sum` in double precision -/

theorem units_run_bind_none {β : Type} (f : ℚ → Run β) :
    (units_run none >>= f) = Run.fault Fault.not_finite := rfl

theorem units_run_bind_some {β : Type} (N : Nat) (f : ℚ → Run β) :
    (units_run (some N) >>= f) = f (units_value N) := rfl

theorem term_numerator_lt (d j k : Nat) (hj : 0 < j) : term_numerator d j k < 8 * k + j := by
  unfold term_numerator
  split <;> exact Nat.mod_lt _ (by omega)

/-- The integer part of an iteration of the first loop: the modular power, by either
branch, is `term_numerator`. -/
theorem lower_numerator_run (d j k : Nat) (hj1 : 1 ≤ j) (hj2 : j ≤ 6) (hk : k ≤ d)
    (hk2 : k ≤ 1000000) (hd : (d : Int) < 2 ^ 63) (hjd : j = 1 → d ≤ 1000000)
    {β : Type} (f : Int → Run β) :
    (if wrap64 ((d : Int) - (k : Int)) ≤ 1000000 then
        mod_pow 16 (wrap64 ((d : Int) - (k : Int))) (8 * (k : Int) + (j : Int)) >>= f
      else
        c_rem (wrap64 ((d : Int) - (k : Int))) (wrap64 (8 * (k : Int) + (j : Int) - 1)) >>=
          fun reduced_exp =>
            mod_pow 16
              (if reduced_exp < 0 then
                wrap64 (reduced_exp + wrap64 (8 * (k : Int) + (j : Int) - 1))
              else reduced_exp)
              (8 * (k : Int) + (j : Int)) >>= f) =
      f ((term_numerator d j k : Nat) : Int) := by
  have hdk : wrap64 ((d : Int) - (k : Int)) = ((d - k : Nat) : Int) := by
    rw [wrap64_of_range (by omega) (by omega)]
    omega
  have hm : (8 * (k : Int) + (j : Int)) = ((8 * k + j : Nat) : Int) := by push_cast; rfl
  rw [hdk]
  unfold term_numerator
  by_cases hbr : d - k ≤ 1000000
  · rw [if_pos (by exact_mod_cast hbr), if_pos hbr]
    rw [mod_pow_of_nonneg 16 _ _ (by norm_num) (by omega) (by omega) (by omega)]
    rw [Run.ok_bind, hm]
    congr 1
    rw [Int.toNat_ofNat]
    push_cast
    rfl
  · rw [if_neg (by exact_mod_cast hbr), if_neg hbr]
    have hj4 : 2 ≤ j := by
      by_contra h
      have h1 : j = 1 := by omega
      exact hbr (by have := hjd h1; omega)
    have hm1 : wrap64 (8 * (k : Int) + (j : Int) - 1) = ((8 * k + j - 1 : Nat) : Int) := by
      rw [wrap64_of_range (by omega) (by omega)]
      omega
    rw [hm1, c_rem_of_nonneg (by omega) (by omega), Run.ok_bind]
    have hr0 : (0 : Int) ≤ ((d - k : Nat) : Int) % ((8 * k + j - 1 : Nat) : Int) :=
      Int.emod_nonneg _ (by omega)
    rw [if_neg (by omega)]
    rw [mod_pow_of_nonneg 16 _ _ (by norm_num) hr0 (by omega) (by omega)]
    rw [Run.ok_bind, hm]
    congr 1
    have hcast : ((d - k : Nat) : Int) % ((8 * k + j - 1 : Nat) : Int) =
        (((d - k) % (8 * k + j - 1) : Nat) : Int) := by
      push_cast
      rfl
    rw [hcast, Int.toNat_ofNat]
    push_cast
    rfl

theorem bbp_lower_loop_binary64 (d j : Nat) (hj1 : 1 ≤ j) (hj2 : j ≤ 6)
    (hd : (d : Int) < 2 ^ 63) (hjd : j = 1 → d ≤ 1000000) :
    ∀ (count k s : Nat), k + count = min d 1000000 + 1 →
      bbp_lower_loop binary64 (d : Int) (j : Int) ((min d 1000000 : Nat) : Int) count (k : Int)
        (units_value s) = units_run (units_lower d j count k s) := by
  intro count
  induction count with
  | zero =>
    intro k s hk
    unfold bbp_lower_loop units_lower
    rw [if_neg (by omega)]
    rfl
  | succ count ih =>
    intro k s hk
    have hkd : k ≤ d := by omega
    have hk6 : k ≤ 1000000 := by omega
    have hm : wrap64 (wrap64 (8 * (k : Int)) + (j : Int)) = 8 * (k : Int) + (j : Int) :=
      modulus_eq k j (by omega) (by omega) (by omega) (by omega)
    have hk1 : wrap64 ((k : Int) + 1) = ((k + 1 : Nat) : Int) := by
      rw [wrap64_of_range (by omega) (by omega)]
      rfl
    unfold bbp_lower_loop units_lower
    simp only [hm, hk1]
    rw [if_pos (by omega), if_neg (by omega)]
    refine Eq.trans (lower_numerator_run d j k hj1 hj2 hkd hk6 hd hjd _) ?_
    have hp := term_numerator_lt d j k (by omega)
    have hmc : (8 * (k : Int) + (j : Int)) = ((8 * k + j : Nat) : Int) := by push_cast; rfl
    have h53 : 8 * k + j < 2 ^ 53 := by omega
    rw [hmc, f_of_int_binary64_nat _ (lt_trans hp h53), Run.ok_bind,
      f_of_int_binary64_nat _ h53, Run.ok_bind, f_div_binary64_nat _ _ (by omega)]
    cases hterm : round_units (term_numerator d j k) (8 * k + j) with
    | none => rfl
    | some term =>
      rw [units_run_bind_some, f_add_binary64_units]
      dsimp only
      cases hsum : round_units (s + term) one_in_units with
      | none => rfl
      | some sum1 =>
        rw [units_run_bind_some,
          f_sub_floor_binary64_units sum1 (round_units_fits _ _ _ one_in_units_pos hsum),
          Run.ok_bind]
        dsimp only
        exact ih (k + 1) (sum1 % one_in_units) (by omega)

theorem f_div_16_binary64_units (t : Nat) :
    f_div binary64 (units_value t) 16 = units_run (round_units t (16 * one_in_units)) := by
  unfold f_div
  rw [if_neg (by norm_num),
    ← f_round_binary64_div t (16 * one_in_units) (Nat.mul_pos (by norm_num) one_in_units_pos)]
  congr 1
  unfold units_value
  push_cast
  rw [div_div, mul_comm]

theorem f_mul_16_binary64_nat (m : Nat) (hm : 16 * m < 2 ^ 53) :
    f_mul binary64 16 (m : ℚ) = Run.ok ((16 * m : Nat) : ℚ) := by
  unfold f_mul
  have h : (16 : ℚ) * (m : ℚ) = ((16 * m : Nat) : ℚ) := by push_cast; rfl
  rw [h, f_round_binary64_nat _ hm]

theorem f_div_one_binary64_nat (m : Nat) (hm : 0 < m) :
    f_div binary64 1 (m : ℚ) = units_run (round_units 1 m) := by
  have h := f_div_binary64_nat 1 m hm
  rwa [Nat.cast_one] at h

theorem f_round_epsilon :
    f_round binary64 (1 / 10 ^ 15) = units_run (round_units 1 (10 ^ 15)) := by
  rw [← f_round_binary64_div 1 (10 ^ 15) (by norm_num)]
  congr 1

theorem bbp_tail_loop_binary64 (d j : Nat) (hd : d < 1000000) (hj1 : 1 ≤ j) (hj2 : j ≤ 6) :
    ∀ (fuel k t s : Nat), d < k → k - d + fuel = 102 → 0 < fuel →
      bbp_tail_loop binary64 (d : Int) (j : Int) fuel (k : Int) (units_value t) (units_value s) =
        units_run (units_tail d j fuel k t s) := by
  intro fuel
  induction fuel with
  | zero => intro k t s _ _ h; exact absurd h (by omega)
  | succ fuel ih =>
    intro k t s hk hkf _
    have hd1 : wrap64 ((d : Int) + 1) = ((d + 1 : Nat) : Int) := by
      rw [wrap64_of_range (by omega) (by omega)]
      rfl
    have hkd : wrap64 ((k : Int) - (d : Int)) = ((k - d : Nat) : Int) := by
      rw [wrap64_of_range (by omega) (by omega)]
      omega
    have hk1 : wrap64 ((k : Int) + 1) = ((k + 1 : Nat) : Int) := by
      rw [wrap64_of_range (by omega) (by omega)]
      rfl
    have hm : wrap64 (wrap64 (8 * (k : Int)) + (j : Int)) = ((8 * k + j : Nat) : Int) := by
      rw [wrap64_of_range (by omega : -(2 ^ 63) ≤ 8 * (k : Int)) (by omega),
        wrap64_of_range (by omega) (by omega)]
      push_cast
      rfl
    unfold bbp_tail_loop units_tail
    simp only [hd1, hkd, hk1, hm]
    rw [f_div_16_binary64_units]
    cases hterm1 : round_units t (16 * one_in_units) with
    | none => rfl
    | some term1 =>
      rw [units_run_bind_some]
      dsimp only
      by_cases hfirst : k = d + 1
      · rw [if_pos (by exact_mod_cast hfirst), if_pos hfirst,
          f_of_int_binary64_nat _ (by omega), Run.ok_bind,
          f_mul_16_binary64_nat _ (by omega), Run.ok_bind,
          f_div_one_binary64_nat _ (by omega)]
        cases hterm2 : round_units 1 (16 * (8 * k + j)) with
        | none => rfl
        | some term2 =>
          rw [units_run_bind_some, f_round_epsilon]
          dsimp only
          cases heps : round_units 1 (10 ^ 15) with
          | none => rfl
          | some eps =>
            rw [units_run_bind_some]
            dsimp only
            by_cases hlt : term2 < eps
            · rw [if_pos ((units_value_lt_iff _ _).mpr hlt), if_pos hlt]
              rfl
            · rw [if_neg (by rw [units_value_lt_iff]; exact hlt), if_neg hlt,
                f_add_binary64_units]
              cases hsum : round_units (s + term2) one_in_units with
              | none => rfl
              | some sum1 =>
                rw [units_run_bind_some]
                dsimp only
                rw [if_neg (by omega), if_neg (by omega)]
                exact ih (k + 1) term2 sum1 (by omega) (by omega) (by omega)
      · rw [if_neg (by exact_mod_cast hfirst), if_neg hfirst, Run.pure_eq, Run.ok_bind,
          f_round_epsilon]
        dsimp only
        cases heps : round_units 1 (10 ^ 15) with
        | none => rfl
        | some eps =>
          rw [units_run_bind_some]
          dsimp only
          by_cases hlt : term1 < eps
          · rw [if_pos ((units_value_lt_iff _ _).mpr hlt), if_pos hlt]
            rfl
          · rw [if_neg (by rw [units_value_lt_iff]; exact hlt), if_neg hlt,
              f_add_binary64_units]
            cases hsum : round_units (s + term1) one_in_units with
            | none => rfl
            | some sum1 =>
              rw [units_run_bind_some]
              dsimp only
              by_cases h100 : k - d > 100
              · rw [if_pos (by exact_mod_cast h100), if_pos h100]
                rfl
              · rw [if_neg (by exact_mod_cast h100), if_neg h100]
                exact ih (k + 1) term1 sum1 (by omega) (by omega) (by omega)

theorem fits_zero : fits_53_bits 0 := ⟨0, 0, by simp, by norm_num⟩

theorem units_value_zero : units_value 0 = 0 := by
  unfold units_value
  simp

theorem units_lower_fits (d j : Nat) :
    ∀ (count k s r : Nat), fits_53_bits s → units_lower d j count k s = some r →
      fits_53_bits r := by
  intro count
  induction count with
  | zero =>
    intro k s r hs h
    unfold units_lower at h
    cases h
    exact hs
  | succ count ih =>
    intro k s r hs h
    unfold units_lower at h
    cases hterm : round_units (term_numerator d j k) (8 * k + j) with
    | none => rw [hterm] at h; exact absurd h (by simp)
    | some term =>
      rw [hterm] at h
      dsimp only at h
      cases hsum : round_units (s + term) one_in_units with
      | none => rw [hsum] at h; exact absurd h (by simp)
      | some sum1 =>
        rw [hsum] at h
        dsimp only at h
        exact ih _ _ _ (fits_mod _ (round_units_fits _ _ _ one_in_units_pos hsum)) h

theorem units_tail_fits (d j : Nat) :
    ∀ (fuel k t s r : Nat), fits_53_bits s → units_tail d j fuel k t s = some r →
      fits_53_bits r := by
  intro fuel
  induction fuel with
  | zero =>
    intro k t s r hs h
    unfold units_tail at h
    cases h
    exact hs
  | succ fuel ih =>
    intro k t s r hs h
    unfold units_tail at h
    cases hterm1 : round_units t (16 * one_in_units) with
    | none => rw [hterm1] at h; exact absurd h (by simp)
    | some term1 =>
      rw [hterm1] at h
      dsimp only at h
      cases hterm2 : (if k = d + 1 then round_units 1 (16 * (8 * k + j)) else some term1) with
      | none => rw [hterm2] at h; exact absurd h (by simp)
      | some term2 =>
        rw [hterm2] at h
        dsimp only at h
        cases heps : round_units 1 (10 ^ 15) with
        | none => rw [heps] at h; exact absurd h (by simp)
        | some eps =>
          rw [heps] at h
          dsimp only at h
          by_cases hlt : term2 < eps
          · rw [if_pos hlt] at h
            cases h
            exact hs
          · rw [if_neg hlt] at h
            cases hsum : round_units (s + term2) one_in_units with
            | none => rw [hsum] at h; exact absurd h (by simp)
            | some sum1 =>
              rw [hsum] at h
              dsimp only at h
              have hf := round_units_fits _ _ _ one_in_units_pos hsum
              by_cases h100 : k - d > 100
              · rw [if_pos h100] at h
                cases h
                exact hf
              · rw [if_neg h100] at h
                exact ih _ _ _ _ hf h

/-- In double precision `bbp_sum(d, j)` is the sum in units. -/
theorem bbp_sum_binary64 (d j : Nat) (hj1 : 1 ≤ j) (hj2 : j ≤ 6) (hd : (d : Int) < 2 ^ 63)
    (hjd : j = 1 → d ≤ 1000000) :
    bbp_sum binary64 (d : Int) (j : Int) = units_run (units_sum d j) := by
  unfold bbp_sum units_sum
  have hkl : (if (d : Int) < 1000000 then (d : Int) else 1000000) =
      ((min d 1000000 : Nat) : Int) := by
    split <;> omega
  have hfuel : (((min d 1000000 : Nat) : Int) + 1).toNat = min d 1000000 + 1 := by omega
  rw [hkl]
  dsimp only
  rw [hfuel]
  have hlow := bbp_lower_loop_binary64 d j hj1 hj2 hd hjd (min d 1000000 + 1) 0 0 (by omega)
  rw [units_value_zero, Nat.cast_zero] at hlow
  rw [hlow]
  cases hl : units_lower d j (min d 1000000 + 1) 0 0 with
  | none => rfl
  | some sum =>
    rw [units_run_bind_some]
    dsimp only
    have hfs := units_lower_fits d j _ _ _ _ fits_zero hl
    by_cases hlt : d < 1000000
    · rw [if_pos (by exact_mod_cast hlt), if_pos hlt]
      have hw : wrap64 ((d : Int) + 1) = ((d + 1 : Nat) : Int) := by
        rw [wrap64_of_range (by omega) (by omega)]
        rfl
      have htail := bbp_tail_loop_binary64 d j hlt hj1 hj2 101 (d + 1) 0 sum (by omega)
        (by omega) (by norm_num)
      rw [units_value_zero] at htail
      rw [hw, htail]
      cases ht : units_tail d j 101 (d + 1) 0 sum with
      | none => rfl
      | some sum1 =>
        rw [units_run_bind_some]
        dsimp only
        rw [f_sub_floor_binary64_units sum1 (units_tail_fits d j _ _ _ _ _ hfs ht)]
        rfl
    · rw [if_neg (by exact_mod_cast hlt), if_neg hlt, Run.pure_eq, Run.ok_bind]
      dsimp only
      rw [f_sub_floor_binary64_units sum hfs]
      rfl

theorem get_pi_hex_digit_eq (A : Arith) (d : Int) (hd : 0 ≤ d) :
    get_pi_hex_digit A d =
      hex_digit_of_sums A (bbp_sum A d 1) (bbp_sum A d 4) (bbp_sum A d 5) (bbp_sum A d 6) := by
  unfold get_pi_hex_digit hex_digit_of_sums
  rw [if_neg (by omega)]

/-- In double precision `get_pi_hex_digit(d)`, up to position 1,000,000, combines the four
sums in units. -/
theorem get_pi_hex_digit_binary64 (d : Nat) (hd : d ≤ 1000000) :
    get_pi_hex_digit binary64 (d : Int) =
      hex_digit_of_sums binary64 (units_run (units_sum d 1)) (units_run (units_sum d 4))
        (units_run (units_sum d 5)) (units_run (units_sum d 6)) := by
  have h63 : (d : Int) < 2 ^ 63 := by omega
  rw [get_pi_hex_digit_eq binary64 (d : Int) (by omega)]
  have h1 := bbp_sum_binary64 d 1 (by norm_num) (by norm_num) h63 (fun _ => hd)
  have h4 := bbp_sum_binary64 d 4 (by norm_num) (by norm_num) h63 (by norm_num)
  have h5 := bbp_sum_binary64 d 5 (by norm_num) (by norm_num) h63 (by norm_num)
  have h6 := bbp_sum_binary64 d 6 (by norm_num) (by norm_num) h63 (by norm_num)
  simp only [Nat.cast_ofNat, Nat.cast_one] at h1 h4 h5 h6
  rw [h1, h4, h5, h6]

/-! ## Double precision: the sums are finite and lie in `[0, 1)` -/

/-- A quotient of at most `c` rounds to a double of at most `c`. -/
theorem round_units_bounded (p d c : Nat) (hd : 0 < d) (hc : c < 2 ^ 53) (hp : p ≤ c * d) :
    ∃ N, round_units p d = some N ∧ N ≤ c * one_in_units := by
  have hlt : p < d * 2 ^ 64 := by
    have h1 : c * d < 2 ^ 64 * d :=
      Nat.mul_lt_mul_of_pos_right (lt_trans hc (by norm_num)) hd
    rw [Nat.mul_comm d]
    exact lt_of_le_of_lt hp h1
  obtain ⟨N, hN⟩ := round_units_isSome p d hd hlt
  refine ⟨N, hN, round_units_le p d N (c * one_in_units) hd hN (fits_of_lt c hc) ?_⟩
  calc p * one_in_units ≤ c * d * one_in_units := Nat.mul_le_mul_right _ hp
    _ = c * one_in_units * d := by ring

theorem units_lower_total (d j : Nat) (hj : 0 < j) :
    ∀ (count k s : Nat), s < one_in_units →
      ∃ r, units_lower d j count k s = some r ∧ r < one_in_units := by
  intro count
  induction count with
  | zero =>
    intro k s hs
    exact ⟨s, by unfold units_lower; rfl, hs⟩
  | succ count ih =>
    intro k s hs
    unfold units_lower
    obtain ⟨term, hterm, hle⟩ := round_units_bounded (term_numerator d j k) (8 * k + j) 1
      (by omega) (by norm_num) (by rw [Nat.one_mul]; exact le_of_lt (term_numerator_lt d j k hj))
    rw [hterm]
    dsimp only
    obtain ⟨sum1, hsum, -⟩ := round_units_bounded (s + term) one_in_units 2 one_in_units_pos
      (by norm_num) (by omega)
    rw [hsum]
    dsimp only
    exact ih (k + 1) (sum1 % one_in_units) (Nat.mod_lt _ one_in_units_pos)

theorem units_tail_total (d j : Nat) (hj : 0 < j) :
    ∀ (fuel k t s c : Nat), t ≤ one_in_units → s ≤ c * one_in_units → c + fuel ≤ 1000 →
      ∃ r, units_tail d j fuel k t s = some r := by
  intro fuel
  induction fuel with
  | zero =>
    intro k t s c _ _ _
    exact ⟨s, by unfold units_tail; rfl⟩
  | succ fuel ih =>
    intro k t s c ht hs hc
    unfold units_tail
    obtain ⟨term1, hterm1, hle1⟩ := round_units_bounded t (16 * one_in_units) 1
      (by have := one_in_units_pos; omega) (by norm_num) (by omega)
    rw [hterm1]
    dsimp only
    have h2 : ∃ term2, (if k = d + 1 then round_units 1 (16 * (8 * k + j)) else some term1) =
        some term2 ∧ term2 ≤ one_in_units := by
      by_cases hk : k = d + 1
      · rw [if_pos hk]
        obtain ⟨N, hN, hNle⟩ := round_units_bounded 1 (16 * (8 * k + j)) 1 (by omega)
          (by norm_num) (by omega)
        exact ⟨N, hN, by omega⟩
      · rw [if_neg hk]
        exact ⟨term1, rfl, by omega⟩
    obtain ⟨term2, hterm2, hle2⟩ := h2
    rw [hterm2]
    dsimp only
    obtain ⟨eps, heps, -⟩ := round_units_bounded 1 (10 ^ 15) 1 (by norm_num) (by norm_num)
      (by norm_num)
    rw [heps]
    dsimp only
    by_cases hlt : term2 < eps
    · rw [if_pos hlt]
      exact ⟨s, rfl⟩
    · rw [if_neg hlt]
      obtain ⟨sum1, hsum, hles⟩ := round_units_bounded (s + term2) one_in_units (c + 1)
        one_in_units_pos (lt_of_le_of_lt (show c + 1 ≤ 1000 by omega) (by norm_num))
        (by rw [Nat.add_mul, Nat.one_mul]; omega)
      rw [hsum]
      dsimp only
      by_cases h100 : k - d > 100
      · rw [if_pos h100]
        exact ⟨sum1, rfl⟩
      · rw [if_neg h100]
        exact ih (k + 1) term2 sum1 (c + 1) hle2 hles (by omega)

/-- The sum in units is defined and below one. -/
theorem units_sum_total (d j : Nat) (hj : 0 < j) :
    ∃ N, units_sum d j = some N ∧ N < one_in_units := by
  unfold units_sum
  obtain ⟨s, hs, hslt⟩ := units_lower_total d j hj (min d 1000000 + 1) 0 0 one_in_units_pos
  rw [hs]
  dsimp only
  have h2 : ∃ s1, (if d < 1000000 then units_tail d j 101 (d + 1) 0 s else some s) = some s1 := by
    by_cases hd : d < 1000000
    · rw [if_pos hd]
      exact units_tail_total d j hj 101 (d + 1) 0 s 1 (Nat.zero_le _) (by omega) (by norm_num)
    · rw [if_neg hd]
      exact ⟨s, rfl⟩
  obtain ⟨s1, hs1⟩ := h2
  rw [hs1]
  exact ⟨s1 % one_in_units, rfl, Nat.mod_lt _ one_in_units_pos⟩

/-- In double precision `bbp_sum(d, j)` returns a value in `[0, 1)`, for `j = 1` up to
position 1,000,000. -/
theorem bbp_sum_binary64_range (d j : Nat) (hj1 : 1 ≤ j) (hj2 : j ≤ 6)
    (hd : (d : Int) < 2 ^ 63) (hjd : j = 1 → d ≤ 1000000) :
    ∃ N, bbp_sum binary64 (d : Int) (j : Int) = Run.ok (units_value N) ∧ N < one_in_units := by
  obtain ⟨N, hN, hlt⟩ := units_sum_total d j hj1
  exact ⟨N, by rw [bbp_sum_binary64 d j hj1 hj2 hd hjd, hN]; rfl, hlt⟩

/-- In double precision `bbp_sum(d, j)` returns a fraction in `[0, 1)` for every
d >= 0 and j in {1, 4, 5, 6}, for j = 1 up to position 1,000,000. -/
theorem bbp_sum_binary64_ok (d j : Int) (hd1 : 0 ≤ d) (hd2 : d < 2 ^ 63)
    (hj : j = 1 ∨ j = 4 ∨ j = 5 ∨ j = 6) (hjd : j = 1 → d ≤ 1000000) :
    ∃ x, bbp_sum binary64 d j = Run.ok x ∧ 0 ≤ x ∧ x < 1 := by
  obtain ⟨n, rfl⟩ := Int.eq_ofNat_of_zero_le hd1
  obtain ⟨m, rfl⟩ : ∃ m : Nat, j = (m : Int) := ⟨j.toNat, by omega⟩
  obtain ⟨N, hN, hlt⟩ := bbp_sum_binary64_range n m (by omega) (by omega) hd2
    (fun h => by omega)
  exact ⟨units_value N, hN, units_value_nonneg N, units_value_lt_one N hlt⟩

/-! ## Double precision: `get_pi_hex_digit` returns up to position 1,000,000 -/

theorem units_within_value (N c : Nat) (h : N ≤ c * one_in_units) :
    units_within c (units_value N) :=
  ⟨(N : Int), by unfold units_value; rw [Int.cast_natCast], by simpa using h⟩

theorem units_within_zero : units_within 1 0 :=
  ⟨0, by simp, by simp⟩

theorem units_within_mul (a c : Nat) (q : ℚ) (hq : units_within c q) :
    units_within (a * c) ((a : ℚ) * q) := by
  obtain ⟨z, rfl, hz⟩ := hq
  refine ⟨(a : Int) * z, by push_cast; ring, ?_⟩
  rw [Int.natAbs_mul, Int.natAbs_ofNat, Nat.mul_assoc]
  exact Nat.mul_le_mul_left a hz

theorem units_within_sub (c1 c2 : Nat) (q1 q2 : ℚ) (h1 : units_within c1 q1)
    (h2 : units_within c2 q2) : units_within (c1 + c2) (q1 - q2) := by
  obtain ⟨z1, rfl, hz1⟩ := h1
  obtain ⟨z2, rfl, hz2⟩ := h2
  refine ⟨z1 - z2, by push_cast; ring, ?_⟩
  have h := Int.natAbs_sub_le z1 z2
  rw [Nat.add_mul]
  omega

theorem units_within_sub_floor (c : Nat) (q : ℚ) (hq : units_within c q) :
    units_within 1 (q - f_floor q) := by
  obtain ⟨z, rfl, -⟩ := hq
  have h0 := sub_floor_nonneg ((z : ℚ) / (one_in_units : ℚ))
  have h1 := sub_floor_lt_one ((z : ℚ) / (one_in_units : ℚ))
  unfold f_floor at h0 h1 ⊢
  generalize Int.floor ((z : ℚ) / (one_in_units : ℚ)) = f at h0 h1 ⊢
  have hU := one_in_units_cast_pos
  have e : (z : ℚ) / (one_in_units : ℚ) - (f : ℚ) =
      ((z - f * (one_in_units : Int) : Int) : ℚ) / (one_in_units : ℚ) := by
    push_cast
    field_simp
    ring
  rw [e] at h0 h1 ⊢
  rw [div_lt_one hU] at h1
  have h0' : (0 : ℚ) ≤ ((z - f * (one_in_units : Int) : Int) : ℚ) := by
    by_contra hneg
    exact absurd h0 (not_le.mpr (div_neg_of_neg_of_pos (not_le.mp hneg) hU))
  have h0i : 0 ≤ z - f * (one_in_units : Int) := by exact_mod_cast h0'
  have h1i : z - f * (one_in_units : Int) < (one_in_units : Int) := by exact_mod_cast h1
  refine ⟨z - f * (one_in_units : Int), rfl, ?_⟩
  omega

/-- Rounding keeps a bounded number of units bounded, and finite. -/
theorem f_round_binary64_within (c : Nat) (q : ℚ) (hc : c < 2 ^ 53) (hq : units_within c q) :
    ∃ r, f_round binary64 q = Run.ok r ∧ units_within c r := by
  obtain ⟨z, rfl, hz⟩ := hq
  obtain ⟨N, hN, hle⟩ := round_units_bounded z.natAbs one_in_units c one_in_units_pos hc hz
  rcases le_or_lt 0 z with h0 | h0
  · obtain ⟨n, rfl⟩ := Int.eq_ofNat_of_zero_le h0
    rw [Int.natAbs_ofNat] at hN
    rw [Int.cast_natCast, f_round_binary64_div n one_in_units one_in_units_pos, hN]
    exact ⟨units_value N, rfl, units_within_value N c hle⟩
  · obtain ⟨n, rfl⟩ := Int.exists_eq_neg_ofNat (le_of_lt h0)
    rw [Int.natAbs_neg, Int.natAbs_ofNat] at hN
    have hq : ((-(n : Int) : Int) : ℚ) / (one_in_units : ℚ) =
        -((n : ℚ) / (one_in_units : ℚ)) := by
      push_cast
      ring
    have hr : round_binary64 (-((n : ℚ) / (one_in_units : ℚ))) = some (-units_value N) := by
      rw [round_binary64_neg, round_binary64_div n one_in_units one_in_units_pos, hN]
      rfl
    refine ⟨-units_value N, ?_, -(N : Int), ?_, ?_⟩
    · unfold f_round binary64
      simp only [hq, hr]
    · unfold units_value
      push_cast
      ring
    · simpa using hle

theorem f_mul_binary64_within (a c : Nat) (q : ℚ) (hc : a * c < 2 ^ 53)
    (hq : units_within c q) :
    ∃ r, f_mul binary64 (a : ℚ) q = Run.ok r ∧ units_within (a * c) r :=
  f_round_binary64_within (a * c) _ hc (units_within_mul a c q hq)

theorem f_sub_binary64_within (c1 c2 : Nat) (q1 q2 : ℚ) (hc : c1 + c2 < 2 ^ 53)
    (h1 : units_within c1 q1) (h2 : units_within c2 q2) :
    ∃ r, f_sub binary64 q1 q2 = Run.ok r ∧ units_within (c1 + c2) r :=
  f_round_binary64_within (c1 + c2) _ hc (units_within_sub c1 c2 q1 q2 h1 h2)

/-- A double of magnitude at most 16 converts to `int`. -/
theorem f_to_int_within (q : ℚ) (hq : units_within 16 q) :
    ∃ t, f_to_int q = Run.ok t := by
  obtain ⟨z, rfl, hz⟩ := hq
  have hU := one_in_units_cast_pos
  have hz1 : z ≤ 16 * (one_in_units : Int) := by omega
  have hz2 : -(16 * (one_in_units : Int)) ≤ z := by omega
  have hq1 : (z : ℚ) / (one_in_units : ℚ) ≤ 16 := by
    rw [div_le_iff₀ hU]
    exact_mod_cast hz1
  have hq2 : (-16 : ℚ) ≤ (z : ℚ) / (one_in_units : ℚ) := by
    rw [le_div_iff₀ hU]
    have : ((-(16 * (one_in_units : Int)) : Int) : ℚ) ≤ (z : ℚ) := by exact_mod_cast hz2
    push_cast at this
    linarith
  generalize (z : ℚ) / (one_in_units : ℚ) = q at hq1 hq2
  have hf1 : Int.floor q ≤ 16 := by
    have := Int.floor_le q
    have h : ((Int.floor q : Int) : ℚ) ≤ ((16 : Int) : ℚ) := by push_cast; linarith
    exact_mod_cast h
  have hf2 : -16 ≤ Int.floor q := by
    rw [Int.le_floor]
    push_cast
    exact hq2
  have hc1 : Int.ceil q ≤ 16 := by
    rw [Int.ceil_le]
    push_cast
    exact hq1
  have hc2 : -16 ≤ Int.ceil q := by
    have := Int.le_ceil q
    have h : ((-16 : Int) : ℚ) ≤ ((Int.ceil q : Int) : ℚ) := by push_cast; linarith
    exact_mod_cast h
  unfold f_to_int
  dsimp only
  by_cases hneg : q < 0
  · rw [if_pos hneg, if_pos ⟨by omega, by omega⟩]
    exact ⟨_, rfl⟩
  · rw [if_neg hneg, if_pos ⟨by omega, by omega⟩]
    exact ⟨_, rfl⟩

/-- The combination of four sums in `[0, 1)` returns a character, in double precision. -/
theorem hex_digit_of_sums_binary64_ok (N1 N4 N5 N6 : Nat) (h1 : N1 < one_in_units)
    (h4 : N4 < one_in_units) (h5 : N5 < one_in_units) (h6 : N6 < one_in_units) :
    ∃ c, hex_digit_of_sums binary64 (Run.ok (units_value N1)) (Run.ok (units_value N4))
      (Run.ok (units_value N5)) (Run.ok (units_value N6)) = Run.ok c := by
  obtain ⟨t1, ht1, hw1⟩ := f_mul_binary64_within 4 1 (units_value N1) (by norm_num)
    (units_within_value N1 1 (by omega))
  obtain ⟨t4, ht4, hw4⟩ := f_mul_binary64_within 2 1 (units_value N4) (by norm_num)
    (units_within_value N4 1 (by omega))
  obtain ⟨t5, ht5, hw5⟩ := f_mul_binary64_within 1 1 (units_value N5) (by norm_num)
    (units_within_value N5 1 (by omega))
  obtain ⟨t6, ht6, hw6⟩ := f_mul_binary64_within 1 1 (units_value N6) (by norm_num)
    (units_within_value N6 1 (by omega))
  obtain ⟨x1, hx1, hv1⟩ := f_sub_binary64_within _ _ t1 t4 (by norm_num) hw1 hw4
  obtain ⟨x2, hx2, hv2⟩ := f_sub_binary64_within _ _ x1 t5 (by norm_num) hv1 hw5
  obtain ⟨x3, hx3, hv3⟩ := f_sub_binary64_within _ _ x2 t6 (by norm_num) hv2 hw6
  obtain ⟨x4, hx4, hv4⟩ := f_round_binary64_within 1 _ (by norm_num)
    (units_within_sub_floor _ x3 hv3)
  have hv5 : units_within 1 (if x4 < 0 then 0 else x4) := by
    split
    · exact units_within_zero
    · exact hv4
  obtain ⟨y, hy, hvy⟩ := f_mul_binary64_within 16 1 _ (by norm_num) hv5
  obtain ⟨t, ht⟩ := f_to_int_within y hvy
  simp only [Nat.cast_ofNat, Nat.cast_one] at ht1 ht4 ht5 ht6 hy
  have hy' : f_mul binary64 (if x4 < 0 then 0 else x4) 16 = Run.ok y := by
    unfold f_mul at hy ⊢
    rw [mul_comm]
    exact hy
  have hx4' : f_sub binary64 x3 (f_floor x3) = Run.ok x4 := hx4
  unfold hex_digit_of_sums
  simp only [Run.ok_bind, ht1, ht4, ht5, ht6, hx1, hx2, hx3, hx4', hy', ht]
  have hlen : (if (if t < 0 then 0 else t) > 15 then 15 else if t < 0 then 0 else t).toNat <
      hex_alphabet.length := by
    have : hex_alphabet.length = 16 := rfl
    split <;> split <;> omega
  rw [List.get?_eq_get hlen]
  exact ⟨_, rfl⟩

/-- In double precision `get_pi_hex_digit(d)` returns a character of the alphabet for every
position from 0 to 1,000,000. -/
theorem get_pi_hex_digit_binary64_ok (d : Int) (hd1 : 0 ≤ d) (hd2 : d ≤ 1000000) :
    ∃ c, get_pi_hex_digit binary64 d = Run.ok c ∧ c ∈ hex_alphabet := by
  obtain ⟨n, rfl⟩ := Int.eq_ofNat_of_zero_le hd1
  have hn : n ≤ 1000000 := by omega
  obtain ⟨N1, e1, h1⟩ := units_sum_total n 1 (by norm_num)
  obtain ⟨N4, e4, h4⟩ := units_sum_total n 4 (by norm_num)
  obtain ⟨N5, e5, h5⟩ := units_sum_total n 5 (by norm_num)
  obtain ⟨N6, e6, h6⟩ := units_sum_total n 6 (by norm_num)
  obtain ⟨c, hc⟩ := hex_digit_of_sums_binary64_ok N1 N4 N5 N6 h1 h4 h5 h6
  have hrun : get_pi_hex_digit binary64 (n : Int) = Run.ok c := by
    rw [get_pi_hex_digit_binary64 n hn, e1, e4, e5, e6]
    exact hc
  exact ⟨c, hrun, get_pi_hex_digit_mem binary64 (n : Int) hd1 c hrun⟩

/-! ## `mod_pow` for a base of either sign -/

theorem neg_tmod (a b : Int) : Int.tmod (-a) b = -Int.tmod a b := by
  rw [Int.tmod_def, Int.tmod_def, Int.neg_tdiv]
  ring

theorem tmod_nonpos (a m : Int) (ha : a ≤ 0) : Int.tmod a m ≤ 0 := by
  have h := Int.tmod_nonneg m (show 0 ≤ -a by omega)
  rw [neg_tmod] at h
  omega

theorem tmod_lt (a m : Int) (hm : 0 < m) : Int.tmod a m < m := by
  rcases le_or_lt 0 a with h | h
  · exact Int.tmod_lt_of_pos a hm
  · have := tmod_nonpos a m (le_of_lt h)
    omega

theorem neg_lt_tmod (a m : Int) (hm : 0 < m) : -m < Int.tmod a m := by
  have h := tmod_lt (-a) m hm
  rw [neg_tmod] at h
  omega

theorem tmod_modEq (a m : Int) : Int.tmod a m ≡ a [ZMOD m] := by
  have h := Int.tmod_def a m
  rw [h]
  have h2 : a - m * a.tdiv m = a + m * (-(a.tdiv m)) := by ring
  rw [h2]
  exact Int.modEq_add_fac (-(a.tdiv m)) (Int.ModEq.refl a)

/-- The truncated remainder depends on the residue and on the side of zero only. -/
theorem tmod_eq_of_modEq (m x y : Int) (hm : 0 < m) (h : x ≡ y [ZMOD m])
    (hs : (0 ≤ x ∧ 0 ≤ y) ∨ (x ≤ 0 ∧ y ≤ 0)) : Int.tmod x m = Int.tmod y m := by
  rcases hs with ⟨hx, hy⟩ | ⟨hx, hy⟩
  · rw [Int.tmod_eq_emod hx (le_of_lt hm), Int.tmod_eq_emod hy (le_of_lt hm)]
    exact h
  · have hx' : 0 ≤ -x := by omega
    have hy' : 0 ≤ -y := by omega
    have e : Int.tmod (-x) m = Int.tmod (-y) m := by
      rw [Int.tmod_eq_emod hx' (le_of_lt hm), Int.tmod_eq_emod hy' (le_of_lt hm)]
      exact Int.ModEq.neg h
    rw [neg_tmod, neg_tmod] at e
    omega

theorem tmod_eq_self (a m : Int) (h1 : -m < a) (h2 : a < m) : Int.tmod a m = a := by
  rcases le_or_lt 0 a with h | h
  · exact Int.tmod_eq_of_lt h h2
  · have e := Int.tmod_eq_of_lt (show 0 ≤ -a by omega) (show -a < m by omega)
    rw [neg_tmod] at e
    omega

theorem c_rem_of_pos (a b : Int) (hb : 0 < b) : c_rem a b = Run.ok (Int.tmod a b) := by
  unfold c_rem
  have h1 : b ≠ 0 := by omega
  have h2 : ¬(a = INT64_MIN ∧ b = -1) := by omega
  simp only [h1, h2, if_false]

theorem same_side_mul (x y u v : Int) (h1 : (0 ≤ x ∧ 0 ≤ y) ∨ (x ≤ 0 ∧ y ≤ 0))
    (h2 : 0 ≤ u) (h3 : 0 ≤ v) : (0 ≤ x * u ∧ 0 ≤ y * v) ∨ (x * u ≤ 0 ∧ y * v ≤ 0) := by
  rcases h1 with ⟨hx, hy⟩ | ⟨hx, hy⟩
  · exact Or.inl ⟨mul_nonneg hx h2, mul_nonneg hy h3⟩
  · exact Or.inr ⟨mul_nonpos_of_nonpos_of_nonneg hx h2, mul_nonpos_of_nonpos_of_nonneg hy h3⟩

theorem same_side_tmod (a m : Int) :
    (0 ≤ Int.tmod a m ∧ 0 ≤ a) ∨ (Int.tmod a m ≤ 0 ∧ a ≤ 0) := by
  rcases le_or_lt 0 a with h | h
  · exact Or.inl ⟨Int.tmod_nonneg m h, h⟩
  · exact Or.inr ⟨tmod_nonpos a m (le_of_lt h), le_of_lt h⟩

theorem product_in_range (r b m : Int) (hr1 : -m < r) (hr2 : r < m) (hb1 : -m < b)
    (hb2 : b < m) (hm : m ≤ 3037000500) : -(2 ^ 63) ≤ r * b ∧ r * b < 2 ^ 63 := by
  have h1 : r * b ≤ (m - 1) * (m - 1) := by
    rcases le_or_lt 0 r with h | h <;> rcases le_or_lt 0 b with h' | h' <;> nlinarith
  have h2 : -((m - 1) * (m - 1)) ≤ r * b := by
    rcases le_or_lt 0 r with h | h <;> rcases le_or_lt 0 b with h' | h' <;> nlinarith
  have h3 : (m - 1) * (m - 1) < 2 ^ 63 := by nlinarith
  constructor <;> omega

/-- The loop of `mod_pow` for running values of either sign: the truncated remainder of
`result * base ^ exp`. -/
theorem mod_pow_loop_tmod (m : Int) (hm1 : 2 ≤ m) (hm2 : m ≤ 3037000500) :
    ∀ (fuel : Nat) (result base exp : Int), -m < result → result < m → -m < base → base < m →
      0 ≤ exp → exp.toNat ≤ fuel →
      mod_pow_loop fuel result base exp m = Run.ok (Int.tmod (result * base ^ exp.toNat) m) := by
  have hm0 : 0 < m := by omega
  intro fuel
  induction fuel with
  | zero =>
    intro result base exp hr1 hr2 _ _ he hf
    have : exp = 0 := by omega
    subst this
    simp [mod_pow_loop, tmod_eq_self result m hr1 hr2]
  | succ fuel ih =>
    intro result base exp hr1 hr2 hb1 hb2 he hf
    unfold mod_pow_loop
    by_cases hpos : exp > 0
    · have hrb := product_in_range result base m hr1 hr2 hb1 hb2 hm2
      have hbb := product_in_range base base m hb1 hb2 hb1 hb2 hm2
      simp only [hpos, if_true, c_rem_of_nonneg he (by norm_num : (0 : Int) < 2), Run.ok_bind,
        wrap64_of_range hrb.1 hrb.2, wrap64_of_range hbb.1 hbb.2, c_rem_of_pos _ m hm0,
        shiftRight_one]
      have hdiv : (exp / 2).toNat ≤ fuel := by omega
      have hdiv0 : 0 ≤ exp / 2 := by omega
      have hq0 : 0 ≤ Int.tmod (base * base) m := Int.tmod_nonneg m (mul_self_nonneg base)
      have hq1 := tmod_lt (base * base) m hm0
      have hexp : exp.toNat = 2 * (exp / 2).toNat + (exp % 2).toNat := by omega
      have hpw : (Int.tmod (base * base) m) ^ (exp / 2).toNat ≡
          (base * base) ^ (exp / 2).toNat [ZMOD m] := Int.ModEq.pow _ (tmod_modEq _ _)
      have hpw0 : 0 ≤ (Int.tmod (base * base) m) ^ (exp / 2).toNat := pow_nonneg hq0 _
      have hpw1 : 0 ≤ (base * base) ^ (exp / 2).toNat := pow_nonneg (mul_self_nonneg base) _
      by_cases hodd : exp % 2 = 1
      · simp only [hodd, if_true, Run.ok_bind]
        rw [ih _ _ _ (neg_lt_tmod _ m hm0) (tmod_lt _ m hm0) (by omega) hq1 hdiv0 hdiv]
        congr 1
        have e2 : result * base ^ exp.toNat =
            result * base * (base * base) ^ (exp / 2).toNat := by
          rw [hexp, hodd]
          have : (1 : Int).toNat = 1 := rfl
          rw [this, pow_add, pow_mul, pow_one]
          ring
        rw [e2]
        exact tmod_eq_of_modEq m _ _ hm0 (Int.ModEq.mul (tmod_modEq _ _) hpw)
          (same_side_mul _ _ _ _ (same_side_tmod _ m) hpw0 hpw1)
      · have hev : exp % 2 = 0 := by omega
        simp only [hev, Run.pure_eq, Run.ok_bind, if_neg (by norm_num : ¬ ((0 : Int) = 1))]
        rw [ih _ _ _ hr1 hr2 (by omega) hq1 hdiv0 hdiv]
        congr 1
        have e2 : result * base ^ exp.toNat = result * (base * base) ^ (exp / 2).toNat := by
          rw [hexp, hev]
          have : (0 : Int).toNat = 0 := rfl
          rw [this, add_zero, pow_mul]
          ring
        rw [e2]
        exact tmod_eq_of_modEq m _ _ hm0 (Int.ModEq.mul rfl hpw)
          (same_side_mul _ _ _ _ (by omega) hpw0 hpw1)
    · have : exp = 0 := by omega
      subst this
      simp [tmod_eq_self result m hr1 hr2]

theorem same_side_pow (x y : Int) (h : (0 ≤ x ∧ 0 ≤ y) ∨ (x ≤ 0 ∧ y ≤ 0)) (n : Nat) :
    (0 ≤ x ^ n ∧ 0 ≤ y ^ n) ∨ (x ^ n ≤ 0 ∧ y ^ n ≤ 0) := by
  rcases h with ⟨hx, hy⟩ | ⟨hx, hy⟩
  · exact Or.inl ⟨pow_nonneg hx n, pow_nonneg hy n⟩
  · rcases Nat.even_or_odd n with hn | hn
    · exact Or.inl ⟨hn.pow_nonneg x, hn.pow_nonneg y⟩
    · exact Or.inr ⟨hn.pow_nonpos hx, hn.pow_nonpos hy⟩

/-- For a base of either sign `mod_pow` returns the truncated remainder of the power. -/
theorem mod_pow_tmod (base e m : Int) (he : 0 ≤ e) (hm1 : 2 ≤ m) (hm2 : m ≤ 3037000500) :
    mod_pow base e m = Run.ok (Int.tmod (base ^ e.toNat) m) := by
  have hm0 : 0 < m := by omega
  unfold mod_pow
  rw [if_neg (by omega), c_rem_of_pos base m hm0]
  simp only [Run.ok_bind]
  rw [mod_pow_loop_tmod m hm1 hm2 _ 1 (Int.tmod base m) e (by omega) (by omega)
    (neg_lt_tmod base m hm0) (tmod_lt base m hm0) he (le_refl _)]
  congr 1
  rw [one_mul]
  exact tmod_eq_of_modEq m _ _ hm0 (Int.ModEq.pow _ (tmod_modEq _ _))
    (same_side_pow _ _ (same_side_tmod base m) _)

/-! ## The range of `mod_pow` and of the terms of the first loop -/

theorem mod_pow_result_range (base e m : Int) (hb : 0 ≤ base) (he : 0 ≤ e)
    (hm1 : 1 ≤ m) (hm2 : m ≤ 3037000500) :
    ∃ r, mod_pow base e m = Run.ok r ∧ 0 ≤ r ∧ r < m :=
  ⟨_, mod_pow_of_nonneg base e m hb he hm1 hm2, Int.emod_nonneg _ (by omega),
    Int.emod_lt_of_pos _ (by omega)⟩

set_option exponentiation.threshold 5000 in
/-- A quotient `p / m` with `p < m <= 2^32` rounds to a double below one. -/
theorem round_units_lt_one (p m : Nat) (hp : p < m) (hm : m ≤ 2 ^ 32) :
    ∃ N, round_units p m = some N ∧ N < one_in_units := by
  have hm0 : 0 < m := by omega
  obtain ⟨N, hN, -⟩ := round_units_bounded p m 1 hm0 (by norm_num) (by omega)
  have hU : one_in_units = 2 ^ 32 * 2 ^ 1042 := by
    rw [one_in_units_eq, ← pow_add]
  have hfit : fits_53_bits ((2 ^ 32 - 1) * 2 ^ 1042) := ⟨2 ^ 32 - 1, 1042, rfl, by norm_num⟩
  have hV : 0 < 2 ^ 1042 := Nat.two_pow_pos 1042
  have hle : N ≤ (2 ^ 32 - 1) * 2 ^ 1042 := by
    refine round_units_le p m N _ hm0 hN hfit ?_
    rw [hU]
    generalize 2 ^ 1042 = V at hV
    have h1 : p * 2 ^ 32 ≤ (2 ^ 32 - 1) * m := by omega
    calc p * (2 ^ 32 * V) = p * 2 ^ 32 * V := by ring
      _ ≤ (2 ^ 32 - 1) * m * V := Nat.mul_le_mul_right V h1
      _ = (2 ^ 32 - 1) * V * m := by ring
  refine ⟨N, hN, lt_of_le_of_lt hle ?_⟩
  rw [hU]
  exact Nat.mul_lt_mul_of_pos_right (by norm_num) hV

/-- The term `(double)mod_pow(16, e, m) / m` (lines 39 and 46) in double precision. -/
theorem term_binary64_range (e m : Int) (he : 0 ≤ e) (hm1 : 1 ≤ m) (hm2 : m ≤ 3037000500) :
    ∃ t, (do
      let p ← mod_pow 16 e m
      f_div binary64 (← f_of_int binary64 p) (← f_of_int binary64 m)) = Run.ok t ∧
      0 ≤ t ∧ t < 1 := by
  obtain ⟨mn, rfl⟩ := Int.eq_ofNat_of_zero_le (show 0 ≤ m by omega)
  have hmn : mn ≤ 3037000500 := by omega
  have hmn1 : 1 ≤ mn := by omega
  have hpn : (16 : Int) ^ e.toNat % (mn : Int) = ((16 ^ e.toNat % mn : Nat) : Int) := by
    push_cast
    rfl
  have hplt : 16 ^ e.toNat % mn < mn := Nat.mod_lt _ hmn1
  obtain ⟨N, hN, hlt⟩ := round_units_lt_one _ mn hplt (by omega)
  refine ⟨units_value N, ?_, units_value_nonneg N, units_value_lt_one N hlt⟩
  rw [mod_pow_of_nonneg 16 e _ (by norm_num) he hm1 hm2, Run.ok_bind, hpn,
    f_of_int_binary64_nat _ (by omega), Run.ok_bind, f_of_int_binary64_nat _ (by omega),
    Run.ok_bind, f_div_binary64_nat _ _ hmn1, hN]
  rfl

/-- The term `(double)mod_pow(16, e, m) / m` (lines 39 and 46) in exact arithmetic. -/
theorem term_exact_range (e m : Int) (he : 0 ≤ e) (hm1 : 1 ≤ m) (hm2 : m ≤ 3037000500) :
    ∃ t, (do
      let p ← mod_pow 16 e m
      f_div exact_arith (← f_of_int exact_arith p) (← f_of_int exact_arith m)) = Run.ok t ∧
      0 ≤ t ∧ t < 1 := by
  have hmq : (0 : ℚ) < (m : ℚ) := by exact_mod_cast (show 0 < m by omega)
  have h0 : 0 ≤ (16 : Int) ^ e.toNat % m := Int.emod_nonneg _ (by omega)
  have h1 : (16 : Int) ^ e.toNat % m < m := Int.emod_lt_of_pos _ (by omega)
  refine ⟨(((16 : Int) ^ e.toNat % m : Int) : ℚ) / (m : ℚ), ?_, ?_, ?_⟩
  · rw [mod_pow_of_nonneg 16 e _ (by norm_num) he hm1 hm2]
    simp only [Run.ok_bind, f_of_int_exact]
    exact f_div_exact _ _ hmq.ne'
  · exact div_nonneg (by exact_mod_cast h0) hmq.le
  · rw [div_lt_one hmq]
    exact_mod_cast h1

/-! ## The exponent reduction modulo `m - 1` for a prime modulus -/

/-- Fermat: modulo an odd prime `p` the powers of 16 depend on the exponent modulo
`p - 1` only. -/
theorem pow_mod_of_prime (p e : Nat) (hp : p.Prime) (h3 : 3 ≤ p) :
    16 ^ (e % (p - 1)) % p = 16 ^ e % p := by
  have h2 : Nat.Coprime 2 p := (Nat.coprime_primes Nat.prime_two hp).mpr (by omega)
  have hcop : Nat.Coprime 16 p := by
    have h := Nat.Coprime.pow_left 4 h2
    norm_num at h
    exact h
  have h1 : 16 ^ (p - 1) ≡ 1 [MOD p] := by
    have h := Nat.ModEq.pow_totient hcop
    rwa [Nat.totient_prime hp] at h
  have he : 16 ^ e = (16 ^ (p - 1)) ^ (e / (p - 1)) * 16 ^ (e % (p - 1)) := by
    rw [← pow_mul, ← pow_add, Nat.div_add_mod]
  have h4 : (16 ^ (p - 1)) ^ (e / (p - 1)) * 16 ^ (e % (p - 1)) ≡
      1 ^ (e / (p - 1)) * 16 ^ (e % (p - 1)) [MOD p] :=
    Nat.ModEq.mul_right _ (Nat.ModEq.pow _ h1)
  rw [one_pow, one_mul, ← he] at h4
  exact h4.symm

/-- The reduction branch (lines 44-46) on a prime modulus `m >= 3`: `mod_pow` of the
reduced exponent is the remainder of the full power. -/
theorem reduced_mod_pow_of_prime (e m : Int) (he : 0 ≤ e) (h3 : 3 ≤ m) (hm : m ≤ 8000006)
    (hp : Nat.Prime m.toNat) :
    (do
      let reduced_exp ← c_rem e (wrap64 (m - 1))
      let reduced_exp :=
        if reduced_exp < 0 then wrap64 (reduced_exp + wrap64 (m - 1)) else reduced_exp
      mod_pow 16 reduced_exp m) = Run.ok (16 ^ e.toNat % m) := by
  obtain ⟨p, rfl⟩ := Int.eq_ofNat_of_zero_le (show 0 ≤ m by omega)
  obtain ⟨n, rfl⟩ := Int.eq_ofNat_of_zero_le he
  rw [Int.toNat_ofNat] at hp ⊢
  have hp3 : 3 ≤ p := by omega
  have hw : wrap64 ((p : Int) - 1) = ((p - 1 : Nat) : Int) := by
    rw [wrap64_of_range (by omega) (by omega)]
    omega
  have hr : (n : Int) % ((p - 1 : Nat) : Int) = ((n % (p - 1) : Nat) : Int) := by
    push_cast
    rfl
  rw [hw, c_rem_of_nonneg (by omega) (by omega), Run.ok_bind, hr]
  dsimp only
  rw [if_neg (by omega), mod_pow_of_nonneg 16 _ _ (by norm_num) (by omega) (by omega) (by omega),
    Int.toNat_ofNat]
  congr 1
  have h := pow_mod_of_prime p n hp hp3
  have hc : (((16 ^ (n % (p - 1)) % p : Nat)) : Int) = ((16 ^ n % p : Nat) : Int) := by rw [h]
  push_cast at hc
  exact hc

/-! ## The digit index in exact arithmetic -/

/-- In exact arithmetic the combination of the four sums selects the character of index
`floor(16 * frac(4 S1 - 2 S4 - S5 - S6))`, and no clamp is active. -/
theorem hex_digit_of_sums_exact (S1 S4 S5 S6 : ℚ) :
    ∃ (n : Int) (c : Char),
      n = Int.floor (16 * Int.fract (4 * S1 - 2 * S4 - S5 - S6)) ∧ 0 ≤ n ∧ n ≤ 15 ∧
      hex_alphabet.get? n.toNat = some c ∧
      hex_digit_of_sums exact_arith (Run.ok S1) (Run.ok S4) (Run.ok S5) (Run.ok S6) =
        Run.ok c ∧
      (let x := 4 * S1 - 2 * S4 - 1 * S5 - 1 * S6
       let y := x - f_floor x
       ¬ y < 0 ∧ f_to_int (y * 16) = Run.ok n ∧ ¬ n < 0 ∧ ¬ n > 15) := by
  have hx : 4 * S1 - 2 * S4 - 1 * S5 - 1 * S6 = 4 * S1 - 2 * S4 - S5 - S6 := by ring
  have hfr : ∀ x : ℚ, x - f_floor x = Int.fract x := fun x => rfl
  have h0 := Int.fract_nonneg (4 * S1 - 2 * S4 - S5 - S6)
  have h1 := Int.fract_lt_one (4 * S1 - 2 * S4 - S5 - S6)
  generalize hy : Int.fract (4 * S1 - 2 * S4 - S5 - S6) = y at h0 h1
  have hn0 : 0 ≤ Int.floor (16 * y) := Int.floor_nonneg.mpr (by linarith)
  have hn1 : Int.floor (16 * y) ≤ 15 := by
    have h : Int.floor (16 * y) < 16 := by
      rw [Int.floor_lt]
      push_cast
      linarith
    omega
  have hlen : (Int.floor (16 * y)).toNat < hex_alphabet.length := by
    have : hex_alphabet.length = 16 := rfl
    omega
  have hto : f_to_int (y * 16) = Run.ok (Int.floor (16 * y)) := by
    unfold f_to_int
    simp only [if_neg (by linarith : ¬ (y * 16 < 0))]
    rw [mul_comm y 16, if_pos ⟨by omega, by omega⟩]
  refine ⟨Int.floor (16 * y), hex_alphabet.get ⟨_, hlen⟩, rfl, hn0, hn1,
    List.get?_eq_get hlen, ?_, ?_⟩
  · unfold hex_digit_of_sums
    simp only [Run.ok_bind, f_mul_exact, f_sub_exact, hx, hfr, hy]
    rw [if_neg (by linarith), hto]
    simp only [Run.ok_bind]
    rw [if_neg (by omega), if_neg (by omega), List.get?_eq_get hlen]
  · simp only [hx, hfr, hy]
    exact ⟨by linarith, hto, by omega, by omega⟩

/-! ## The recorded loops run as the loops of the program -/

theorem Run.bind_assoc {α β γ : Type} (x : Run α) (f : α → Run β) (g : β → Run γ) :
    (x >>= f >>= g) = (x >>= fun a => f a >>= g) := by
  cases x <;> rfl

theorem Run.bind_congr {α β : Type} (x : Run α) (f g : α → Run β) (h : ∀ a, f a = g a) :
    (x >>= f) = (x >>= g) := by
  cases x
  · exact h _
  · rfl

/-- One iteration of the first loop is its body followed by the rest of the loop. -/
theorem bbp_lower_loop_succ (A : Arith) (d j k_limit : Int) (fuel : Nat) (k : Int) (sum : ℚ) :
    bbp_lower_loop A d j k_limit (fuel + 1) k sum =
      if k ≤ k_limit then
        bbp_lower_body A d j k sum >>= fun s =>
          bbp_lower_loop A d j k_limit fuel (wrap64 (k + 1)) s
      else Run.ok sum := by
  rw [bbp_lower_loop]
  unfold bbp_lower_body
  by_cases hk : k ≤ k_limit
  · rw [if_pos hk, if_pos hk]
    dsimp only
    by_cases hm : wrap64 (wrap64 (8 * k) + j) = 0
    · rw [if_pos hm, if_pos hm]
      rfl
    · rw [if_neg hm, if_neg hm]
      by_cases hbr : wrap64 (d - k) ≤ 1000000
      · simp only [if_pos hbr, Run.bind_assoc]
      · simp only [if_neg hbr, Run.bind_assoc]
  · rw [if_neg hk, if_neg hk]

/-- The first loop returns the last running value of its record. -/
theorem bbp_lower_loop_record (A : Arith) (d j k_limit : Int) :
    ∀ (fuel : Nat) (k : Int) (sum : ℚ),
      bbp_lower_loop A d j k_limit fuel k sum =
        (bbp_lower_record A d j k_limit fuel k sum >>= fun l => Run.ok (l.getLastD sum)) := by
  intro fuel
  induction fuel with
  | zero =>
    intro k sum
    unfold bbp_lower_loop bbp_lower_record
    split <;> rfl
  | succ fuel ih =>
    intro k sum
    rw [bbp_lower_loop_succ, bbp_lower_record]
    by_cases hk : k ≤ k_limit
    · rw [if_pos hk, if_pos hk]
      simp only [Run.bind_assoc]
      apply Run.bind_congr
      intro s
      rw [ih]
      apply Run.bind_congr
      intro l
      simp only [Run.pure_eq, Run.ok_bind]
      rw [List.getLastD_cons]
    · rw [if_neg hk, if_neg hk]
      rfl

/-- One iteration of the second loop is its body followed by the exit test and the rest
of the loop. -/
theorem bbp_tail_loop_succ (A : Arith) (d j : Int) (fuel : Nat) (k : Int) (term sum : ℚ) :
    bbp_tail_loop A d j (fuel + 1) k term sum =
      (bbp_tail_body A d j k term sum >>= fun step =>
        match step with
        | (_, none) => Run.ok sum
        | (t, some s) =>
          if wrap64 (k - d) > 100 then Run.ok s
          else bbp_tail_loop A d j fuel (wrap64 (k + 1)) t s) := by
  rw [bbp_tail_loop]
  unfold bbp_tail_body
  simp only [Run.bind_assoc]
  apply Run.bind_congr
  intro t1
  by_cases hk1 : k = wrap64 (d + 1)
  · simp only [if_pos hk1, Run.bind_assoc]
    apply Run.bind_congr
    intro m1
    apply Run.bind_congr
    intro m2
    apply Run.bind_congr
    intro t2
    apply Run.bind_congr
    intro eps
    by_cases hlt : t2 < eps
    · simp only [if_pos hlt, Run.ok_bind]
    · simp only [if_neg hlt, Run.bind_assoc, Run.ok_bind]
  · simp only [if_neg hk1, Run.bind_assoc, Run.pure_eq, Run.ok_bind]
    apply Run.bind_congr
    intro eps
    by_cases hlt : t1 < eps
    · simp only [if_pos hlt, Run.ok_bind]
    · simp only [if_neg hlt, Run.bind_assoc, Run.ok_bind]

/-- The second loop returns the last running sum of its record. -/
theorem bbp_tail_loop_record (A : Arith) (d j : Int) :
    ∀ (fuel : Nat) (k : Int) (term sum : ℚ),
      bbp_tail_loop A d j fuel k term sum =
        (bbp_tail_record A d j fuel k term sum >>= fun l => Run.ok (last_sum sum l)) := by
  intro fuel
  induction fuel with
  | zero =>
    intro k term sum
    rfl
  | succ fuel ih =>
    intro k term sum
    rw [bbp_tail_loop_succ, bbp_tail_record]
    simp only [Run.bind_assoc]
    apply Run.bind_congr
    rintro ⟨t, _ | s⟩
    · simp [last_sum]
    · dsimp only
      by_cases h100 : wrap64 (k - d) > 100
      · simp [h100, last_sum]
      · simp only [if_neg h100, Run.bind_assoc]
        rw [ih]
        apply Run.bind_congr
        intro l
        simp [last_sum]

/-! ## The first loop: its body, its record, its value in exact arithmetic -/

/-- The body of the first loop divides `term_numerator` by `m = 8k + j`, adds the
quotient and subtracts the floor. -/
theorem bbp_lower_body_eq (A : Arith) (d j k : Nat) (hj1 : 1 ≤ j) (hj2 : j ≤ 6) (hk : k ≤ d)
    (hk2 : k ≤ 1000000) (hd : (d : Int) < 2 ^ 63) (hjd : j = 1 → d ≤ 1000000) (sum : ℚ) :
    bbp_lower_body A (d : Int) (j : Int) (k : Int) sum =
      (f_of_int A ((term_numerator d j k : Nat) : Int) >>= fun a =>
        f_of_int A ((8 * k + j : Nat) : Int) >>= fun b =>
          f_div A a b >>= fun t =>
            f_add A sum t >>= fun s => f_sub A s (f_floor s)) := by
  have hm : wrap64 (wrap64 (8 * (k : Int)) + (j : Int)) = 8 * (k : Int) + (j : Int) :=
    modulus_eq k j (by omega) (by omega) (by omega) (by omega)
  have hmc : (8 * (k : Int) + (j : Int)) = ((8 * k + j : Nat) : Int) := by push_cast; rfl
  unfold bbp_lower_body
  simp only [hm]
  rw [if_neg (by omega)]
  refine Eq.trans (lower_numerator_run d j k hj1 hj2 hk hk2 hd hjd _) ?_
  rw [hmc]

/-- The body of the first loop in exact arithmetic. -/
theorem bbp_lower_body_exact (d j k : Nat) (hj1 : 1 ≤ j) (hj2 : j ≤ 6) (hk : k ≤ d)
    (hk2 : k ≤ 1000000) (hd : (d : Int) < 2 ^ 63) (hjd : j = 1 → d ≤ 1000000) (sum : ℚ) :
    bbp_lower_body exact_arith (d : Int) (j : Int) (k : Int) sum =
      Run.ok (Int.fract (sum + ((term_numerator d j k : Nat) : ℚ) / ((8 * k + j : Nat) : ℚ))) := by
  rw [bbp_lower_body_eq exact_arith d j k hj1 hj2 hk hk2 hd hjd]
  have hm : ((8 * k + j : Nat) : ℚ) ≠ 0 := by
    have : 0 < 8 * k + j := by omega
    exact_mod_cast this.ne'
  simp only [f_of_int_exact, Run.ok_bind, Int.cast_natCast, f_div_exact _ _ hm, f_add_exact,
    f_sub_exact]
  rfl

/-- The body of the first loop in double precision keeps the running sum a double below
one. -/
theorem bbp_lower_body_binary64 (d j k : Nat) (hj1 : 1 ≤ j) (hj2 : j ≤ 6) (hk : k ≤ d)
    (hk2 : k ≤ 1000000) (hd : (d : Int) < 2 ^ 63) (hjd : j = 1 → d ≤ 1000000) (s : Nat)
    (hs : s < one_in_units) :
    ∃ r, bbp_lower_body binary64 (d : Int) (j : Int) (k : Int) (units_value s) =
      Run.ok (units_value r) ∧ r < one_in_units := by
  rw [bbp_lower_body_eq binary64 d j k hj1 hj2 hk hk2 hd hjd]
  have hp := term_numerator_lt d j k (by omega)
  have h53 : 8 * k + j < 2 ^ 53 := by omega
  obtain ⟨term, hterm, hle⟩ := round_units_bounded (term_numerator d j k) (8 * k + j) 1
    (by omega) (by norm_num) (by omega)
  obtain ⟨sum1, hsum, -⟩ := round_units_bounded (s + term) one_in_units 2 one_in_units_pos
    (by norm_num) (by omega)
  refine ⟨sum1 % one_in_units, ?_, Nat.mod_lt _ one_in_units_pos⟩
  rw [f_of_int_binary64_nat _ (lt_trans hp h53), Run.ok_bind, f_of_int_binary64_nat _ h53,
    Run.ok_bind, f_div_binary64_nat _ _ (by omega), hterm, units_run_bind_some,
    f_add_binary64_units, hsum, units_run_bind_some,
    f_sub_floor_binary64_units sum1 (round_units_fits _ _ _ one_in_units_pos hsum)]

/-- The record of the first loop has one entry per index `k` up to `k_limit`, each
satisfying an invariant that the body maintains. -/
theorem bbp_lower_record_invariant (A : Arith) (d j k_limit : Int) (I : ℚ → Prop)
    (hkl : k_limit < 2 ^ 62)
    (hbody : ∀ (k : Int) (s : ℚ), 0 ≤ k → k ≤ k_limit → I s →
      ∃ r, bbp_lower_body A d j k s = Run.ok r ∧ I r) :
    ∀ (count fuel : Nat) (k : Int) (s : ℚ), k + count = k_limit + 1 → count ≤ fuel → 0 ≤ k →
      I s → ∃ l, bbp_lower_record A d j k_limit fuel k s = Run.ok l ∧ l.length = count ∧
        ∀ x ∈ l, I x := by
  intro count
  induction count with
  | zero =>
    intro fuel k s hk _ _ _
    refine ⟨[], ?_, rfl, by simp⟩
    cases fuel with
    | zero => unfold bbp_lower_record; rw [if_neg (by omega)]
    | succ fuel => unfold bbp_lower_record; rw [if_neg (by omega)]
  | succ count ih =>
    intro fuel k s hk hf hk0 hs
    obtain ⟨fuel, rfl⟩ : ∃ f, fuel = f + 1 := ⟨fuel - 1, by omega⟩
    obtain ⟨r, hr, hIr⟩ := hbody k s hk0 (by omega) hs
    have hw : wrap64 (k + 1) = k + 1 := wrap64_of_range (by omega) (by omega)
    obtain ⟨l, hl, hlen, hall⟩ := ih fuel (k + 1) r (by push_cast at hk ⊢; omega) (by omega)
      (by omega) hIr
    refine ⟨r :: l, ?_, by simp [hlen], ?_⟩
    · unfold bbp_lower_record
      rw [if_pos (by omega), hr, Run.ok_bind, hw, hl]
      rfl
    · intro x hx
      rcases List.mem_cons.mp hx with rfl | hx
      · exact hIr
      · exact hall x hx

theorem fract_add_mod (a : ℚ) (x m : Nat) (hm : 0 < m) :
    Int.fract (Int.fract a + ((x % m : Nat) : ℚ) / (m : ℚ)) =
      Int.fract (a + (x : ℚ) / (m : ℚ)) := by
  have hmq : (m : ℚ) ≠ 0 := by exact_mod_cast hm.ne'
  have hx : (x : ℚ) = (m : ℚ) * ((x / m : Nat) : ℚ) + ((x % m : Nat) : ℚ) := by
    exact_mod_cast (Nat.div_add_mod x m).symm
  have hxm : (x : ℚ) / (m : ℚ) = ((x / m : Nat) : ℚ) + ((x % m : Nat) : ℚ) / (m : ℚ) := by
    rw [hx]
    field_simp
    ring
  have hq : ((Int.floor a + ((x / m : Nat) : Int) : Int) : ℚ) =
      (Int.floor a : ℚ) + ((x / m : Nat) : ℚ) := by
    rw [Int.cast_add, Int.cast_natCast]
  have e : a + (x : ℚ) / (m : ℚ) =
      Int.fract a + ((x % m : Nat) : ℚ) / (m : ℚ) +
        ((Int.floor a + ((x / m : Nat) : Int) : Int) : ℚ) := by
    have hfl : a = Int.fract a + (Int.floor a : ℚ) := (Int.fract_add_floor a).symm
    rw [hq]
    linear_combination hfl + hxm
  rw [e, Int.fract_add_int]

/-- The partial sum `sum_{i < k} 16^(d-i) / (8i+j)`. -/
theorem lower_series_succ (d j k : Nat) :
    ∑ i ∈ Finset.range (k + 1), (16 : ℚ) ^ (d - i) / ((8 * i + j : Nat) : ℚ) =
      ∑ i ∈ Finset.range k, (16 : ℚ) ^ (d - i) / ((8 * i + j : Nat) : ℚ) +
        (16 : ℚ) ^ (d - k) / ((8 * k + j : Nat) : ℚ) :=
  Finset.sum_range_succ _ k

/-- In exact arithmetic, up to position 1,000,000, the first loop entered at `k` with the
fractional part of the series up to `k` returns the fractional part of the whole series. -/
theorem bbp_lower_loop_series (d j : Nat) (hj1 : 1 ≤ j) (hj2 : j ≤ 6) (hd : d ≤ 1000000) :
    ∀ (count fuel k : Nat), k + count = d + 1 → count ≤ fuel →
      bbp_lower_loop exact_arith (d : Int) (j : Int) (d : Int) fuel (k : Int)
        (Int.fract (∑ i ∈ Finset.range k, (16 : ℚ) ^ (d - i) / ((8 * i + j : Nat) : ℚ))) =
      Run.ok (Int.fract (lower_series d j)) := by
  intro count
  induction count with
  | zero =>
    intro fuel k hk _
    have hkd : k = d + 1 := by omega
    subst hkd
    cases fuel with
    | zero => unfold bbp_lower_loop; rw [if_neg (by omega)]; rfl
    | succ fuel => unfold bbp_lower_loop; rw [if_neg (by omega)]; rfl
  | succ count ih =>
    intro fuel k hk hf
    obtain ⟨fuel, rfl⟩ : ∃ f, fuel = f + 1 := ⟨fuel - 1, by omega⟩
    have hw : wrap64 ((k : Int) + 1) = ((k + 1 : Nat) : Int) := by
      rw [wrap64_of_range (by omega) (by omega)]
      rfl
    rw [bbp_lower_loop_succ, if_pos (by omega),
      bbp_lower_body_exact d j k hj1 hj2 (by omega) (by omega) (by omega) (fun _ => hd),
      Run.ok_bind, hw]
    have hnum : term_numerator d j k = 16 ^ (d - k) % (8 * k + j) := by
      unfold term_numerator
      rw [if_pos (by omega)]
    have hstep := fract_add_mod
      (∑ i ∈ Finset.range k, (16 : ℚ) ^ (d - i) / ((8 * i + j : Nat) : ℚ))
      (16 ^ (d - k)) (8 * k + j) (by omega)
    rw [hnum, hstep]
    have hcast : ((16 ^ (d - k) : Nat) : ℚ) = (16 : ℚ) ^ (d - k) := by push_cast; rfl
    rw [hcast, ← lower_series_succ]
    exact ih fuel (k + 1) (by omega) (by omega)

/-! ## The second loop in exact arithmetic -/

theorem tail_term_pos (d j i : Nat) : 0 < tail_term d j i := by
  unfold tail_term
  have h : (0 : ℚ) < ((8 * (d + 1) + j : Nat) : ℚ) := by
    have : 0 < 8 * (d + 1) + j := by omega
    exact_mod_cast this
  positivity

theorem tail_term_succ (d j i : Nat) : tail_term d j (i + 1) = tail_term d j i / 16 := by
  unfold tail_term
  rw [pow_succ, div_div]
  congr 1
  ring

theorem tail_term_anti (d j i l : Nat) : tail_term d j (i + l) ≤ tail_term d j i := by
  induction l with
  | zero => exact le_refl _
  | succ l ih =>
    rw [← Nat.add_assoc, tail_term_succ]
    have h := tail_term_pos d j (i + l)
    linarith

/-- From the twelfth on, every term is below `1e-15`. -/
theorem tail_term_small (d j i : Nat) (hi : 12 ≤ i) : tail_term d j i < 1 / 10 ^ 15 := by
  have h12 : tail_term d j 12 < 1 / 10 ^ 15 := by
    unfold tail_term
    have hm : (8 : ℚ) ≤ ((8 * (d + 1) + j : Nat) : ℚ) := by
      have h8 : 8 ≤ 8 * (d + 1) + j := by omega
      exact_mod_cast h8
    apply one_div_lt_one_div_of_lt (by norm_num)
    nlinarith
  obtain ⟨l, rfl⟩ : ∃ l, i = 12 + l := ⟨i - 12, by omega⟩
  exact lt_of_le_of_lt (tail_term_anti d j 12 l) h12

/-- The body of the second loop in exact arithmetic, at the `i`-th iteration: the term
considered is `tail_term d j i`, added when it is not below `1e-15`. -/
theorem bbp_tail_body_exact (d j i : Nat) (hd : d < 1000000) (hj : j ≤ 6) (hi1 : 1 ≤ i)
    (hi2 : i ≤ 101) (tin s : ℚ) (hin : i = 1 ∨ tin = tail_term d j (i - 1)) :
    bbp_tail_body exact_arith (d : Int) (j : Int) ((d + i : Nat) : Int) tin s =
      Run.ok (tail_term d j i,
        if tail_term d j i < 1 / 10 ^ 15 then none else some (s + tail_term d j i)) := by
  have hd1 : wrap64 ((d : Int) + 1) = ((d + 1 : Nat) : Int) := by
    rw [wrap64_of_range (by omega) (by omega)]
    rfl
  have hm : wrap64 (wrap64 (8 * ((d + i : Nat) : Int)) + (j : Int)) =
      ((8 * (d + i) + j : Nat) : Int) := by
    rw [wrap64_of_range (by omega : -(2 ^ 63) ≤ 8 * ((d + i : Nat) : Int)) (by omega),
      wrap64_of_range (by omega) (by omega)]
    push_cast
    rfl
  unfold bbp_tail_body
  simp only [hd1, hm, f_div_exact _ _ (by norm_num : (16 : ℚ) ≠ 0), Run.ok_bind,
    f_round_exact, f_of_int_exact, f_mul_exact, f_add_exact, Int.cast_natCast]
  by_cases h1 : i = 1
  · subst h1
    have hmq : (16 : ℚ) * ((8 * (d + 1) + j : Nat) : ℚ) ≠ 0 := by
      have : 0 < 8 * (d + 1) + j := by omega
      have h' : (0 : ℚ) < ((8 * (d + 1) + j : Nat) : ℚ) := by exact_mod_cast this
      positivity
    have ht : (1 : ℚ) / (16 * ((8 * (d + 1) + j : Nat) : ℚ)) = tail_term d j 1 := by
      unfold tail_term
      rw [pow_one]
    rw [if_pos rfl, f_div_exact _ _ hmq, Run.ok_bind, ht]
    split <;> rfl
  · have hne : ¬ ((d + i : Nat) : Int) = ((d + 1 : Nat) : Int) := by omega
    have hprev : tin = tail_term d j (i - 1) := by
      rcases hin with h | h
      · exact absurd h h1
      · exact h
    have ht : tin / 16 = tail_term d j i := by
      obtain ⟨l, rfl⟩ : ∃ l, i = l + 1 := ⟨i - 1, by omega⟩
      rw [hprev, tail_term_succ]
      rfl
    rw [if_neg hne, Run.pure_eq, Run.ok_bind, ht]
    split <;> rfl

/-- In exact arithmetic the second loop considers and adds the terms as `tail_spec` says,
as long as a term below `1e-15` comes within the iterations allowed. -/
theorem bbp_tail_record_exact (d j : Nat) (hd : d < 1000000) (hj : j ≤ 6) :
    ∀ (n i : Nat) (tin s : ℚ), 1 ≤ n → 1 ≤ i → i + n ≤ 102 →
      (i = 1 ∨ tin = tail_term d j (i - 1)) → tail_term d j (i + n - 1) < 1 / 10 ^ 15 →
      bbp_tail_record exact_arith (d : Int) (j : Int) n ((d + i : Nat) : Int) tin s =
        Run.ok (tail_spec d j n i s) := by
  intro n
  induction n with
  | zero => intro i tin s h; exact absurd h (by omega)
  | succ n ih =>
    intro i tin s _ hi hin2 hin hsmall
    unfold bbp_tail_record tail_spec
    rw [bbp_tail_body_exact d j i hd hj hi (by omega) tin s hin, Run.ok_bind]
    by_cases hlt : tail_term d j i < 1 / 10 ^ 15
    · rw [if_pos hlt, if_pos hlt]
    · rw [if_neg hlt, if_neg hlt]
      have hn : 1 ≤ n := by
        by_contra h0
        have : n = 0 := by omega
        subst this
        exact hlt hsmall
      have hkd : wrap64 (((d + i : Nat) : Int) - (d : Int)) = (i : Int) := by
        rw [wrap64_of_range (by omega) (by omega)]
        omega
      have hk1 : wrap64 (((d + i : Nat) : Int) + 1) = ((d + (i + 1) : Nat) : Int) := by
        rw [wrap64_of_range (by omega) (by omega)]
        omega
      have hs1 : tail_term d j (i + 1 + n - 1) < 1 / 10 ^ 15 := by
        have e : i + 1 + n - 1 = i + (n + 1) - 1 := by omega
        rw [e]
        exact hsmall
      have hprev : tail_term d j i = tail_term d j (i + 1 - 1) := by
        rw [Nat.add_sub_cancel]
      dsimp only
      rw [hkd, if_neg (by omega), hk1,
        ih (i + 1) (tail_term d j i) (s + tail_term d j i) hn (by omega) (by omega)
          (Or.inr hprev) hs1]
      rfl

/-- The record that the specification describes has at most 12 entries. -/
theorem tail_spec_length (d j : Nat) :
    ∀ (n i : Nat) (s : ℚ), 1 ≤ i → i ≤ 12 → (tail_spec d j n i s).length ≤ 13 - i := by
  intro n
  induction n with
  | zero => intro i s _ _; simp [tail_spec]
  | succ n ih =>
    intro i s hi1 hi2
    unfold tail_spec
    by_cases hlt : tail_term d j i < 1 / 10 ^ 15
    · rw [if_pos hlt]
      simp
      omega
    · rw [if_neg hlt]
      have hi : i < 12 := by
        by_contra h
        exact hlt (tail_term_small d j i (by omega))
      have h := ih (i + 1) (s + tail_term d j i) (by omega) (by omega)
      simp only [List.length_cons]
      omega

/-- Every sum that the specification's record holds exceeds the sum at entry by less
than 16/15 of the first term. -/
theorem tail_spec_sums (d j : Nat) :
    ∀ (n i : Nat) (s : ℚ) (e : ℚ × Option ℚ), e ∈ tail_spec d j n i s → ∀ x, e.2 = some x →
      s ≤ x ∧ x ≤ s + 16 / 15 * tail_term d j i := by
  intro n
  induction n with
  | zero => intro i s e he; simp [tail_spec] at he
  | succ n ih =>
    intro i s e he x hx
    have hpos := tail_term_pos d j i
    unfold tail_spec at he
    by_cases hlt : tail_term d j i < 1 / 10 ^ 15
    · rw [if_pos hlt] at he
      rw [List.mem_singleton] at he
      subst he
      simp at hx
    · rw [if_neg hlt] at he
      rcases List.mem_cons.mp he with rfl | he
      · simp only [Option.some.injEq] at hx
        subst hx
        constructor <;> linarith
      · obtain ⟨h1, h2⟩ := ih (i + 1) _ e he x hx
        rw [tail_term_succ] at h2
        constructor <;> linarith

/-- The last sum of the specification's record: the sum at entry plus the terms, among
the `n` considered, that are not below `1e-15`. -/
theorem last_sum_tail_spec (d j : Nat) :
    ∀ (n i : Nat) (s : ℚ), last_sum s (tail_spec d j n i s) =
      s + ∑ l ∈ Finset.range n,
        (if tail_term d j (i + l) < 1 / 10 ^ 15 then 0 else tail_term d j (i + l)) := by
  intro n
  induction n with
  | zero => intro i s; simp [tail_spec, last_sum]
  | succ n ih =>
    intro i s
    unfold tail_spec
    rw [Finset.sum_range_succ']
    by_cases hlt : tail_term d j i < 1 / 10 ^ 15
    · have hzero : ∀ l ∈ Finset.range n,
          (if tail_term d j (i + (l + 1)) < 1 / 10 ^ 15 then 0
            else tail_term d j (i + (l + 1))) = 0 := by
        intro l _
        rw [if_pos (lt_of_le_of_lt (tail_term_anti d j i (l + 1)) hlt)]
      rw [Finset.sum_eq_zero hzero]
      simp only [Nat.add_zero, if_pos hlt]
      simp [last_sum]
    · simp only [Nat.add_zero, if_neg hlt]
      have h := ih (i + 1) (s + tail_term d j i)
      have hidx : ∀ l, i + 1 + l = i + (l + 1) := fun l => by omega
      simp only [hidx] at h
      have hl : last_sum s ((tail_term d j i, some (s + tail_term d j i)) ::
          tail_spec d j n (i + 1) (s + tail_term d j i)) =
          last_sum (s + tail_term d j i) (tail_spec d j n (i + 1) (s + tail_term d j i)) := by
        simp [last_sum]
      rw [hl, h]
      ring

/-! ## The second loop in double precision -/

/-- The double `1e-15`, in units of `2^-1074`. -/
theorem epsilon_units : round_units 1 (10 ^ 15) = some (5070602400912918 * 2 ^ 972) := by
  decide!

set_option exponentiation.threshold 5000 in
/-- The unit `W = 2^972` in which `1e-15` is a whole number: `1.0` is `2^102 * W`. -/
theorem units_scale :
    ∃ W : Nat, 0 < W ∧ one_in_units = 2 ^ 102 * W ∧
      round_units 1 (10 ^ 15) = some (5070602400912918 * W) ∧
      ∀ c a : Nat, c < 2 ^ 53 → fits_53_bits (c * 2 ^ a * W) := by
  have h := epsilon_units
  have hU : one_in_units = 2 ^ 102 * 2 ^ 972 := by rw [one_in_units_eq, ← pow_add]
  have hpos : 0 < 2 ^ 972 := Nat.two_pow_pos 972
  have hfit : ∀ c a : Nat, c < 2 ^ 53 → fits_53_bits (c * 2 ^ a * 2 ^ 972) := by
    intro c a hc
    exact ⟨c, a + 972, by rw [pow_add, Nat.mul_assoc], hc⟩
  generalize 2 ^ 972 = W at h hU hpos hfit
  exact ⟨W, hpos, hU, h, hfit⟩

/-- The body of the second loop in double precision, in units: the term considered is
the rounded `1 / (16 m)` in the first iteration and the rounded sixteenth of the running
term afterwards; it is added unless it is below the double `1e-15`. -/
theorem bbp_tail_body_binary64 (d j i : Nat) (hd : d < 1000000) (hj1 : 1 ≤ j) (hj2 : j ≤ 6)
    (hi1 : 1 ≤ i) (hi2 : i ≤ 101) (T S T2 E : Nat) (hT : T ≤ one_in_units)
    (hT2 : (if i = 1 then round_units 1 (16 * (8 * (d + i) + j))
      else round_units T (16 * one_in_units)) = some T2)
    (hE : round_units 1 (10 ^ 15) = some E) :
    (T2 < E → bbp_tail_body binary64 (d : Int) (j : Int) ((d + i : Nat) : Int)
        (units_value T) (units_value S) = Run.ok (units_value T2, none)) ∧
    (¬ T2 < E → ∀ S2, round_units (S + T2) one_in_units = some S2 →
      bbp_tail_body binary64 (d : Int) (j : Int) ((d + i : Nat) : Int)
        (units_value T) (units_value S) = Run.ok (units_value T2, some (units_value S2))) := by
  have hd1 : wrap64 ((d : Int) + 1) = ((d + 1 : Nat) : Int) := by
    rw [wrap64_of_range (by omega) (by omega)]
    rfl
  have hm : wrap64 (wrap64 (8 * ((d + i : Nat) : Int)) + (j : Int)) =
      ((8 * (d + i) + j : Nat) : Int) := by
    rw [wrap64_of_range (by omega : -(2 ^ 63) ≤ 8 * ((d + i : Nat) : Int)) (by omega),
      wrap64_of_range (by omega) (by omega)]
    push_cast
    rfl
  have hbody : bbp_tail_body binary64 (d : Int) (j : Int) ((d + i : Nat) : Int)
      (units_value T) (units_value S) =
      (if units_value T2 < units_value E then Run.ok (units_value T2, none)
        else f_add binary64 (units_value S) (units_value T2) >>= fun s =>
          Run.ok (units_value T2, some s)) := by
    unfold bbp_tail_body
    simp only [hd1, hm]
    rw [f_div_16_binary64_units]
    by_cases h1 : i = 1
    · rw [if_pos h1] at hT2
      subst h1
      obtain ⟨T1, hT1, -⟩ := round_units_bounded T (16 * one_in_units) 1
        (Nat.mul_pos (by norm_num) one_in_units_pos) (by norm_num) (by omega)
      rw [hT1, units_run_bind_some, if_pos rfl, f_of_int_binary64_nat _ (by omega), Run.ok_bind,
        f_mul_16_binary64_nat _ (by omega), Run.ok_bind, f_div_one_binary64_nat _ (by omega),
        hT2, units_run_bind_some, f_round_epsilon, hE, units_run_bind_some]
    · rw [if_neg h1] at hT2
      rw [hT2, units_run_bind_some, if_neg (by omega), Run.pure_eq, Run.ok_bind,
        f_round_epsilon, hE, units_run_bind_some]
  rw [hbody]
  constructor
  · intro hlt
    rw [if_pos ((units_value_lt_iff _ _).mpr hlt)]
  · intro hlt S2 hS2
    rw [if_neg (by rw [units_value_lt_iff]; exact hlt), f_add_binary64_units, hS2,
      units_run_bind_some]

theorem units_value_lt_two (N : Nat) (h : N < 2 * one_in_units) : units_value N < 2 := by
  unfold units_value
  rw [div_lt_iff₀ one_in_units_cast_pos]
  exact_mod_cast h

/-- One iteration of the second loop in double precision, with bounds: at the `i`-th
iteration (`i + n = 12`) the term considered is at most `2^(51 + 4n) W`, that is
`2^(-3 - 4i)`, and a sum of at most `1 + (i - 1) / 128` grows to at most `1 + i / 128`. -/
theorem bbp_tail_step_binary64 (d j : Nat) (hd : d < 1000000) (hj1 : 1 ≤ j) (hj2 : j ≤ 6)
    (W : Nat) (hW : 0 < W) (hU : one_in_units = 2 ^ 102 * W)
    (hE : round_units 1 (10 ^ 15) = some (5070602400912918 * W))
    (hfit : ∀ c a : Nat, c < 2 ^ 53 → fits_53_bits (c * 2 ^ a * W))
    (n i T S : Nat) (hi1 : 1 ≤ i) (hin : i + n = 12)
    (hT : T ≤ 2 ^ (55 + 4 * n) * W) (hS : S ≤ (127 + i) * 2 ^ 95 * W) :
    ∃ T2, T2 ≤ 2 ^ (51 + 4 * n) * W ∧
      ((T2 < 5070602400912918 * W ∧
          bbp_tail_body binary64 (d : Int) (j : Int) ((d + i : Nat) : Int)
            (units_value T) (units_value S) = Run.ok (units_value T2, none)) ∨
        (0 < n ∧ ∃ S2, S2 ≤ (128 + i) * 2 ^ 95 * W ∧
          bbp_tail_body binary64 (d : Int) (j : Int) ((d + i : Nat) : Int)
            (units_value T) (units_value S) =
              Run.ok (units_value T2, some (units_value S2)))) := by
  have hn : n ≤ 11 := by omega
  have h16U : 0 < 16 * one_in_units := Nat.mul_pos (by norm_num) one_in_units_pos
  have hpow1 : 2 ^ (55 + 4 * n) = 16 * 2 ^ (51 + 4 * n) := by
    rw [show 55 + 4 * n = 4 + (51 + 4 * n) by omega, pow_add]
    norm_num
  have hpow2 : 2 ^ (51 + 4 * n) ≤ 2 ^ 95 := Nat.pow_le_pow_right (by norm_num) (by omega)
  have hpow3 : 2 ^ (55 + 4 * n) ≤ 2 ^ 102 := Nat.pow_le_pow_right (by norm_num) (by omega)
  have hTU : T ≤ one_in_units := by
    rw [hU]
    exact le_trans hT (Nat.mul_le_mul_right W hpow3)
  have hfitB : fits_53_bits (2 ^ (51 + 4 * n) * W) := by
    have h := hfit 1 (51 + 4 * n) (by norm_num)
    rwa [Nat.one_mul] at h
  -- the term considered
  have hterm : ∃ T2, (if i = 1 then round_units 1 (16 * (8 * (d + i) + j))
      else round_units T (16 * one_in_units)) = some T2 ∧ T2 ≤ 2 ^ (51 + 4 * n) * W := by
    by_cases h1 : i = 1
    · rw [if_pos h1]
      have hn11 : n = 11 := by omega
      subst hn11
      obtain ⟨T2, hT2, -⟩ := round_units_bounded 1 (16 * (8 * (d + i) + j)) 1 (by omega)
        (by norm_num) (by omega)
      refine ⟨T2, hT2, round_units_le _ _ _ _ (by omega) hT2 hfitB ?_⟩
      rw [hU]
      have h8 : 8 ≤ 8 * (d + i) + j := by omega
      calc 1 * (2 ^ 102 * W) = 2 ^ 95 * W * (16 * 8) := by ring
        _ ≤ 2 ^ 95 * W * (16 * (8 * (d + i) + j)) :=
          Nat.mul_le_mul_left _ (Nat.mul_le_mul_left 16 h8)
    · rw [if_neg h1]
      obtain ⟨T2, hT2, -⟩ := round_units_bounded T (16 * one_in_units) 1 h16U
        (by norm_num) (by omega)
      refine ⟨T2, hT2, round_units_le _ _ _ _ h16U hT2 hfitB ?_⟩
      calc T * one_in_units ≤ 2 ^ (55 + 4 * n) * W * one_in_units :=
            Nat.mul_le_mul_right _ hT
        _ = 2 ^ (51 + 4 * n) * W * (16 * one_in_units) := by rw [hpow1]; ring
  obtain ⟨T2, hT2, hT2le⟩ := hterm
  have hbody := bbp_tail_body_binary64 d j i hd hj1 hj2 hi1 (by omega) T S T2 _ hTU hT2 hE
  refine ⟨T2, hT2le, ?_⟩
  by_cases hlt : T2 < 5070602400912918 * W
  · exact Or.inl ⟨hlt, hbody.1 hlt⟩
  · right
    have hn0 : 0 < n := by
      by_contra h0
      have hz : n = 0 := by omega
      subst hz
      apply hlt
      calc T2 ≤ 2 ^ 51 * W := hT2le
        _ < 5070602400912918 * W := Nat.mul_lt_mul_of_pos_right (by norm_num) hW
    have hfitS : fits_53_bits ((128 + i) * 2 ^ 95 * W) := hfit (128 + i) 95 (by omega)
    have hsum : S + T2 ≤ (128 + i) * 2 ^ 95 * W := by
      have h2 : T2 ≤ 2 ^ 95 * W := le_trans hT2le (Nat.mul_le_mul_right W hpow2)
      calc S + T2 ≤ (127 + i) * 2 ^ 95 * W + 2 ^ 95 * W := Nat.add_le_add hS h2
        _ = (128 + i) * 2 ^ 95 * W := by ring
    have hex : ∃ S2, round_units (S + T2) one_in_units = some S2 := by
      apply round_units_isSome _ _ one_in_units_pos
      rw [hU]
      calc S + T2 ≤ (128 + i) * 2 ^ 95 * W := hsum
        _ < 2 ^ 102 * W * 2 ^ 64 := by
          have : (128 + i) * 2 ^ 95 < 2 ^ 102 * 2 ^ 64 := by omega
          calc (128 + i) * 2 ^ 95 * W < 2 ^ 102 * 2 ^ 64 * W :=
                Nat.mul_lt_mul_of_pos_right this hW
            _ = 2 ^ 102 * W * 2 ^ 64 := by ring
    obtain ⟨S2, hS2⟩ := hex
    refine ⟨hn0, S2, round_units_le _ _ _ _ one_in_units_pos hS2 hfitS
      (Nat.mul_le_mul_right _ hsum), hbody.2 hlt S2 hS2⟩

/-- In double precision the second loop ends within twelve iterations, and its running
sum stays below 2. -/
theorem bbp_tail_record_binary64 (d j : Nat) (hd : d < 1000000) (hj1 : 1 ≤ j) (hj2 : j ≤ 6)
    (W : Nat) (hW : 0 < W) (hU : one_in_units = 2 ^ 102 * W)
    (hE : round_units 1 (10 ^ 15) = some (5070602400912918 * W))
    (hfit : ∀ c a : Nat, c < 2 ^ 53 → fits_53_bits (c * 2 ^ a * W)) :
    ∀ (n i fuel T S : Nat), 1 ≤ i → i + n = 12 → n + 1 ≤ fuel →
      T ≤ 2 ^ (55 + 4 * n) * W → S ≤ (127 + i) * 2 ^ 95 * W →
      ∃ l, bbp_tail_record binary64 (d : Int) (j : Int) fuel ((d + i : Nat) : Int)
          (units_value T) (units_value S) = Run.ok l ∧ l.length ≤ n + 1 ∧
        ∀ e ∈ l, ∀ x, e.2 = some x → 0 ≤ x ∧ x < 2 := by
  intro n
  induction n with
  | zero =>
    intro i fuel T S hi1 hin hf hT hS
    obtain ⟨fuel, rfl⟩ : ∃ f, fuel = f + 1 := ⟨fuel - 1, by omega⟩
    obtain ⟨T2, -, h | h⟩ :=
      bbp_tail_step_binary64 d j hd hj1 hj2 W hW hU hE hfit 0 i T S hi1 hin hT hS
    · refine ⟨[(units_value T2, none)], ?_, by simp, ?_⟩
      · unfold bbp_tail_record
        rw [h.2]
        rfl
      · intro e he x hx
        rw [List.mem_singleton] at he
        subst he
        simp at hx
    · exact absurd h.1 (by omega)
  | succ n ih =>
    intro i fuel T S hi1 hin hf hT hS
    obtain ⟨fuel, rfl⟩ : ∃ f, fuel = f + 1 := ⟨fuel - 1, by omega⟩
    obtain ⟨T2, hT2le, h | h⟩ :=
      bbp_tail_step_binary64 d j hd hj1 hj2 W hW hU hE hfit (n + 1) i T S hi1 hin hT hS
    · refine ⟨[(units_value T2, none)], ?_, by simp, ?_⟩
      · unfold bbp_tail_record
        rw [h.2]
        rfl
      · intro e he x hx
        rw [List.mem_singleton] at he
        subst he
        simp at hx
    · obtain ⟨-, S2, hS2le, hbody⟩ := h
      have hkd : wrap64 (((d + i : Nat) : Int) - (d : Int)) = (i : Int) := by
        rw [wrap64_of_range (by omega) (by omega)]
        omega
      have hk1 : wrap64 (((d + i : Nat) : Int) + 1) = ((d + (i + 1) : Nat) : Int) := by
        rw [wrap64_of_range (by omega) (by omega)]
        omega
      obtain ⟨l, hl, hlen, hall⟩ := ih (i + 1) fuel T2 S2 (by omega) (by omega) (by omega)
        (by rw [show 55 + 4 * n = 51 + 4 * (n + 1) by omega]; exact hT2le)
        (by rw [show 127 + (i + 1) = 128 + i by omega]; exact hS2le)
      refine ⟨(units_value T2, some (units_value S2)) :: l, ?_, by simp; omega, ?_⟩
      · unfold bbp_tail_record
        rw [hbody, Run.ok_bind]
        dsimp only
        rw [hkd, if_neg (by omega), hk1, hl]
        rfl
      · intro e he x hx
        rcases List.mem_cons.mp he with rfl | he
        · simp only [Option.some.injEq] at hx
          subst hx
          refine ⟨units_value_nonneg S2, units_value_lt_two S2 ?_⟩
          rw [hU]
          calc S2 ≤ (128 + i) * 2 ^ 95 * W := hS2le
            _ < 2 * (2 ^ 102 * W) := by
              have : (128 + i) * 2 ^ 95 < 2 * 2 ^ 102 := by omega
              calc (128 + i) * 2 ^ 95 * W < 2 * 2 ^ 102 * W :=
                    Nat.mul_lt_mul_of_pos_right this hW
                _ = 2 * (2 ^ 102 * W) := by ring
        · exact hall e he x hx

/-! ## The 64-bit integer computations agree with the unbounded ones -/

theorem c_rem_eq_unbounded (a b : Int) (h : ¬(a = INT64_MIN ∧ b = -1)) :
    c_rem a b = rem_unbounded a b := by
  unfold c_rem rem_unbounded
  by_cases hb : b = 0
  · rw [if_pos hb, if_pos hb]
  · rw [if_neg hb, if_neg hb, if_neg h]

theorem rem_unbounded_of_nonneg {a b : Int} (ha : 0 ≤ a) (hb : 0 < b) :
    rem_unbounded a b = Run.ok (a % b) := by
  rw [← c_rem_eq_unbounded a b (by omega)]
  exact c_rem_of_nonneg ha hb

/-- The loop of `mod_pow`, on reduced non-negative running values and a modulus up to
3037000500, never wraps around: it runs as over unbounded integers. -/
theorem mod_pow_loop_eq_unbounded (m : Int) (hm1 : 2 ≤ m) (hm2 : m ≤ 3037000500) :
    ∀ (fuel : Nat) (result base exp : Int), 0 ≤ result → result < m → 0 ≤ base → base < m →
      mod_pow_loop fuel result base exp m = mod_pow_loop_unbounded fuel result base exp m := by
  intro fuel
  induction fuel with
  | zero =>
    intro result base exp _ _ _ _
    rfl
  | succ fuel ih =>
    intro result base exp hr1 hr2 hb1 hb2
    unfold mod_pow_loop mod_pow_loop_unbounded
    by_cases hpos : exp > 0
    · have hrb : result * base < 2 ^ 63 := by nlinarith
      have hrb0 : 0 ≤ result * base := Int.mul_nonneg hr1 hb1
      have hbb : base * base < 2 ^ 63 := by nlinarith
      have hbb0 : 0 ≤ base * base := Int.mul_nonneg hb1 hb1
      have hm0 : 0 < m := by omega
      have he : 0 ≤ exp := by omega
      simp only [hpos, if_true, c_rem_of_nonneg he (by norm_num : (0 : Int) < 2), Run.ok_bind,
        rem_unbounded_of_nonneg he (by norm_num : (0 : Int) < 2),
        wrap64_of_range (by omega : -(2 ^ 63) ≤ result * base) hrb,
        wrap64_of_range (by omega : -(2 ^ 63) ≤ base * base) hbb,
        c_rem_of_nonneg hbb0 hm0, c_rem_of_nonneg hrb0 hm0,
        rem_unbounded_of_nonneg hbb0 hm0, rem_unbounded_of_nonneg hrb0 hm0]
      have hb' : 0 ≤ base * base % m := Int.emod_nonneg _ (by omega)
      have hb'' : base * base % m < m := Int.emod_lt_of_pos _ hm0
      by_cases hodd : exp % 2 = 1
      · simp only [hodd, if_true, Run.ok_bind]
        exact ih _ _ _ (Int.emod_nonneg _ (by omega)) (Int.emod_lt_of_pos _ hm0) hb' hb''
      · simp only [hodd, if_false, Run.pure_eq, Run.ok_bind]
        exact ih _ _ _ hr1 hr2 hb' hb''
    · simp only [hpos, if_false]

/-- For a non-negative base and a modulus up to 3037000500, `mod_pow` runs as over
unbounded integers. -/
theorem mod_pow_eq_unbounded (base e m : Int) (hb : 0 ≤ base) (hm1 : 1 ≤ m)
    (hm2 : m ≤ 3037000500) : mod_pow base e m = mod_pow_unbounded base e m := by
  unfold mod_pow mod_pow_unbounded
  by_cases h1 : m = 1
  · rw [if_pos h1, if_pos h1]
  · have hm0 : 0 < m := by omega
    rw [if_neg h1, if_neg h1, c_rem_of_nonneg hb hm0, rem_unbounded_of_nonneg hb hm0]
    simp only [Run.ok_bind]
    exact mod_pow_loop_eq_unbounded m (by omega) hm2 _ 1 _ _ (by norm_num) (by omega)
      (Int.emod_nonneg _ (by omega)) (Int.emod_lt_of_pos _ hm0)

/-- The first loop of `bbp_sum` runs as over unbounded integers. -/
theorem bbp_lower_loop_eq_unbounded (A : Arith) (d j k_limit : Int) (hd : d < 2 ^ 63)
    (hj1 : 1 ≤ j) (hj2 : j ≤ 6) (hk1 : k_limit ≤ d) (hk2 : k_limit ≤ 1000000) :
    ∀ (fuel : Nat) (k : Int) (sum : ℚ), 0 ≤ k →
      bbp_lower_loop A d j k_limit fuel k sum =
        bbp_lower_loop_unbounded A d j k_limit fuel k sum := by
  intro fuel
  induction fuel with
  | zero =>
    intro k sum _
    rfl
  | succ fuel ih =>
    intro k sum hk0
    unfold bbp_lower_loop bbp_lower_loop_unbounded
    by_cases hk : k ≤ k_limit
    · have hm : wrap64 (wrap64 (8 * k) + j) = 8 * k + j :=
        modulus_eq k j hk0 (by omega) (by omega) hj2
      have hdk : wrap64 (d - k) = d - k := wrap64_of_range (by omega) (by omega)
      have hk1' : wrap64 (k + 1) = k + 1 := wrap64_of_range (by omega) (by omega)
      have hm1 : wrap64 (8 * k + j - 1) = 8 * k + j - 1 :=
        wrap64_of_range (by omega) (by omega)
      have ih' : ∀ s, bbp_lower_loop A d j k_limit fuel (k + 1) s =
          bbp_lower_loop_unbounded A d j k_limit fuel (k + 1) s := fun s => ih (k + 1) s (by omega)
      have hmp : ∀ e, mod_pow 16 e (8 * k + j) = mod_pow_unbounded 16 e (8 * k + j) :=
        fun e => mod_pow_eq_unbounded 16 e _ (by norm_num) (by omega) (by omega)
      have hmz : ¬ (8 * k + j = 0) := by omega
      rw [if_pos hk, if_pos hk]
      simp only [hm, hdk, hk1', hm1, if_neg hmz]
      by_cases hbr : d - k ≤ 1000000
      · simp only [if_pos hbr, hmp, ih']
      · simp only [if_neg hbr]
        by_cases hz : 8 * k + j - 1 = 0
        · have hc : c_rem (d - k) (8 * k + j - 1) = Run.fault Fault.rem_by_zero := by
            unfold c_rem
            rw [if_pos hz]
          have hu : rem_unbounded (d - k) (8 * k + j - 1) = Run.fault Fault.rem_by_zero := by
            unfold rem_unbounded
            rw [if_pos hz]
          rw [hc, hu]
          rfl
        · have hr0 : 0 ≤ (d - k) % (8 * k + j - 1) := Int.emod_nonneg _ hz
          rw [c_rem_of_nonneg (by omega) (by omega), rem_unbounded_of_nonneg (by omega) (by omega)]
          simp only [Run.ok_bind, if_neg (not_lt.mpr hr0), hmp, ih']
    · rw [if_neg hk, if_neg hk]

/-- The second loop of `bbp_sum` runs as over unbounded integers. -/
theorem bbp_tail_loop_eq_unbounded (A : Arith) (d j : Int) (hd1 : 0 ≤ d) (hd2 : d < 1000000)
    (hj1 : 1 ≤ j) (hj2 : j ≤ 6) :
    ∀ (fuel : Nat) (k : Int) (term sum : ℚ), d < k → k + fuel ≤ d + 102 →
      bbp_tail_loop A d j fuel k term sum = bbp_tail_loop_unbounded A d j fuel k term sum := by
  intro fuel
  induction fuel with
  | zero =>
    intro k term sum _ _
    rfl
  | succ fuel ih =>
    intro k term sum hk hkf
    have hm : wrap64 (wrap64 (8 * k) + j) = 8 * k + j := by
      rw [wrap64_of_range (by omega : -(2 ^ 63) ≤ 8 * k) (by omega)]
      exact wrap64_of_range (by omega) (by omega)
    have hd1' : wrap64 (d + 1) = d + 1 := wrap64_of_range (by omega) (by omega)
    have hkd : wrap64 (k - d) = k - d := wrap64_of_range (by omega) (by omega)
    have hk1 : wrap64 (k + 1) = k + 1 := wrap64_of_range (by omega) (by omega)
    have ih' : ∀ t s, bbp_tail_loop A d j fuel (k + 1) t s =
        bbp_tail_loop_unbounded A d j fuel (k + 1) t s :=
      fun t s => ih (k + 1) t s (by omega) (by push_cast at hkf ⊢; omega)
    unfold bbp_tail_loop bbp_tail_loop_unbounded
    simp only [hm, hd1', hkd, hk1, ih']

/-- The function `bbp_sum` runs as over unbounded integers: no 64-bit operation in it
wraps around. -/
theorem bbp_sum_eq_unbounded (A : Arith) (d j : Int) (hd1 : 0 ≤ d) (hd2 : d < 2 ^ 63)
    (hj1 : 1 ≤ j) (hj2 : j ≤ 6) : bbp_sum A d j = bbp_sum_unbounded A d j := by
  unfold bbp_sum bbp_sum_unbounded
  by_cases hd : d < 1000000
  · have hl := bbp_lower_loop_eq_unbounded A d j d hd2 hj1 hj2 (le_refl d) (by omega)
    have ht : ∀ s, bbp_tail_loop A d j 101 (wrap64 (d + 1)) 0 s =
        bbp_tail_loop_unbounded A d j 101 (d + 1) 0 s := by
      intro s
      rw [wrap64_of_range (by omega) (by omega)]
      exact bbp_tail_loop_eq_unbounded A d j hd1 hd hj1 hj2 101 (d + 1) 0 s (by omega)
        (by push_cast; omega)
    simp only [if_pos hd, hl _ _ _ (le_refl 0), ht]
  · have hl := bbp_lower_loop_eq_unbounded A d j 1000000 hd2 hj1 hj2 (by omega) (le_refl _)
    simp only [if_neg hd, hl _ _ _ (le_refl 0)]

/-! ## The records of `bbp_sum` in double precision and in exact arithmetic -/

theorem getLastD_of_forall {α : Type} (P : α → Prop) (l : List α) (a : α) (ha : P a)
    (hl : ∀ x ∈ l, P x) : P (l.getLastD a) := by
  induction l generalizing a with
  | nil => exact ha
  | cons b l ih =>
    rw [List.getLastD_cons]
    exact ih b (hl b (List.mem_cons_self b l)) (fun x hx => hl x (List.mem_cons_of_mem b hx))

/-- The record of the first loop in exact arithmetic: one entry per index up to the
limit, each in `[0, 1)`. -/
theorem bbp_lower_record_exact (d j : Nat) (hj1 : 1 ≤ j) (hj2 : j ≤ 6)
    (hd : (d : Int) < 2 ^ 63) (hjd : j = 1 → d ≤ 1000000) (fuel : Nat)
    (hf : min d 1000000 + 1 ≤ fuel) :
    ∃ l, bbp_lower_record exact_arith (d : Int) (j : Int) ((min d 1000000 : Nat) : Int) fuel
        0 0 = Run.ok l ∧ l.length = min d 1000000 + 1 ∧ ∀ x ∈ l, 0 ≤ x ∧ x < 1 := by
  have h := bbp_lower_record_invariant exact_arith (d : Int) (j : Int)
    ((min d 1000000 : Nat) : Int) (fun x => 0 ≤ x ∧ x < 1) (by omega) (by
      intro k s hk0 hk _
      obtain ⟨kn, rfl⟩ := Int.eq_ofNat_of_zero_le hk0
      refine ⟨_, bbp_lower_body_exact d j kn hj1 hj2 (by omega) (by omega) hd hjd s,
        Int.fract_nonneg _, Int.fract_lt_one _⟩)
    (min d 1000000 + 1) fuel 0 0 (by push_cast; omega) hf (le_refl 0) ⟨le_refl 0, by norm_num⟩
  exact h

/-- The record of the first loop in double precision: one entry per index up to the
limit, each a double in `[0, 1)`. -/
theorem bbp_lower_record_binary64 (d j : Nat) (hj1 : 1 ≤ j) (hj2 : j ≤ 6)
    (hd : (d : Int) < 2 ^ 63) (hjd : j = 1 → d ≤ 1000000) (fuel : Nat)
    (hf : min d 1000000 + 1 ≤ fuel) :
    ∃ l, bbp_lower_record binary64 (d : Int) (j : Int) ((min d 1000000 : Nat) : Int) fuel
        0 0 = Run.ok l ∧ l.length = min d 1000000 + 1 ∧
      ∀ x ∈ l, ∃ N, N < one_in_units ∧ x = units_value N := by
  have h := bbp_lower_record_invariant binary64 (d : Int) (j : Int)
    ((min d 1000000 : Nat) : Int) (fun x => ∃ N, N < one_in_units ∧ x = units_value N)
    (by omega) (by
      intro k s hk0 hk hs
      obtain ⟨kn, rfl⟩ := Int.eq_ofNat_of_zero_le hk0
      obtain ⟨N, hN, rfl⟩ := hs
      obtain ⟨r, hr, hlt⟩ :=
        bbp_lower_body_binary64 d j kn hj1 hj2 (by omega) (by omega) hd hjd N hN
      exact ⟨_, hr, r, hlt, rfl⟩)
    (min d 1000000 + 1) fuel 0 0 (by push_cast; omega) hf (le_refl 0)
    ⟨0, one_in_units_pos, units_value_zero.symm⟩
  exact h

/-- The record of the second loop in exact arithmetic, entered with a sum in `[0, 1)`. -/
theorem bbp_tail_record_exact_range (d j : Nat) (hd : d < 1000000) (hj2 : j ≤ 6) (s : ℚ)
    (hs0 : 0 ≤ s) (hs1 : s < 1) :
    ∃ t, bbp_tail_record exact_arith (d : Int) (j : Int) 101 (wrap64 ((d : Int) + 1)) 0 s =
        Run.ok t ∧ t.length ≤ 12 ∧ ∀ e ∈ t, ∀ x, e.2 = some x → 0 ≤ x ∧ x < 2 := by
  have hw : wrap64 ((d : Int) + 1) = ((d + 1 : Nat) : Int) := by
    rw [wrap64_of_range (by omega) (by omega)]
    rfl
  refine ⟨tail_spec d j 101 1 s, ?_, tail_spec_length d j 101 1 s (le_refl 1) (by norm_num), ?_⟩
  · rw [hw]
    exact bbp_tail_record_exact d j hd hj2 101 1 0 s (by norm_num) (le_refl 1) (by norm_num)
      (Or.inl rfl) (tail_term_small d j _ (by norm_num))
  · intro e he x hx
    obtain ⟨h1, h2⟩ := tail_spec_sums d j 101 1 s e he x hx
    have ht : tail_term d j 1 ≤ 1 / 128 := by
      unfold tail_term
      have hm : (8 : ℚ) ≤ ((8 * (d + 1) + j : Nat) : ℚ) := by
        have h8 : 8 ≤ 8 * (d + 1) + j := by omega
        exact_mod_cast h8
      apply one_div_le_one_div_of_le (by norm_num)
      linarith
    constructor <;> linarith

/-- The record of the second loop in double precision, entered with a double in
`[0, 1)`. -/
theorem bbp_tail_record_binary64_range (d j : Nat) (hd : d < 1000000) (hj1 : 1 ≤ j)
    (hj2 : j ≤ 6) (N : Nat) (hN : N < one_in_units) :
    ∃ t, bbp_tail_record binary64 (d : Int) (j : Int) 101 (wrap64 ((d : Int) + 1)) 0
        (units_value N) = Run.ok t ∧ t.length ≤ 12 ∧
      ∀ e ∈ t, ∀ x, e.2 = some x → 0 ≤ x ∧ x < 2 := by
  have hw : wrap64 ((d : Int) + 1) = ((d + 1 : Nat) : Int) := by
    rw [wrap64_of_range (by omega) (by omega)]
    rfl
  obtain ⟨W, hW, hU, hE, hfit⟩ := units_scale
  have hS : N ≤ (127 + 1) * 2 ^ 95 * W := by
    rw [hU] at hN
    have : (127 + 1) * 2 ^ 95 * W = 2 ^ 102 * W := by norm_num
    omega
  have h := bbp_tail_record_binary64 d j hd hj1 hj2 W hW hU hE hfit 11 1 101 0 N (le_refl 1)
    (by norm_num) (by norm_num) (Nat.zero_le _) hS
  rw [units_value_zero] at h
  rw [hw]
  exact h

/-- The records of the two loops of `bbp_sum`, in double precision and in exact
arithmetic: the first loop executes `min(d, 1000000) + 1` iterations and keeps its running
sum in `[0, 1)`; the second one executes at most 12 iterations and keeps its running sum
in `[0, 2)`. -/
theorem bbp_sum_records (A : Arith) (hA : A = binary64 ∨ A = exact_arith) (d j : Int)
    (hd1 : 0 ≤ d) (hd2 : d < 2 ^ 63) (hj : j = 1 ∨ j = 4 ∨ j = 5 ∨ j = 6)
    (hjd : j = 1 → d ≤ 1000000) (fuel : Nat) (hf : (min d 1000000).toNat + 1 ≤ fuel) :
    ∃ l, bbp_lower_record A d j (if d < 1000000 then d else 1000000) fuel 0 0 = Run.ok l ∧
      l.length = (min d 1000000).toNat + 1 ∧ (∀ x ∈ l, 0 ≤ x ∧ x < 1) ∧
      (d < 1000000 →
        ∃ t, bbp_tail_record A d j 101 (wrap64 (d + 1)) 0 (l.getLastD 0) = Run.ok t ∧
          t.length ≤ 12 ∧ ∀ e ∈ t, ∀ x, e.2 = some x → 0 ≤ x ∧ x < 2) := by
  obtain ⟨n, rfl⟩ := Int.eq_ofNat_of_zero_le hd1
  obtain ⟨m, rfl⟩ : ∃ m : Nat, j = (m : Int) := ⟨j.toNat, by omega⟩
  have hm1 : 1 ≤ m := by omega
  have hm2 : m ≤ 6 := by omega
  have hkl : (if (n : Int) < 1000000 then (n : Int) else 1000000) =
      ((min n 1000000 : Nat) : Int) := by
    split <;> omega
  have hmin : (min (n : Int) 1000000).toNat = min n 1000000 := by omega
  rw [hkl, hmin]
  rw [hmin] at hf
  rcases hA with rfl | rfl
  · obtain ⟨l, hl, hlen, hall⟩ :=
      bbp_lower_record_binary64 n m hm1 hm2 hd2 (fun h => by omega) fuel hf
    refine ⟨l, hl, hlen, ?_, ?_⟩
    · intro x hx
      obtain ⟨N, hN, rfl⟩ := hall x hx
      exact ⟨units_value_nonneg N, units_value_lt_one N hN⟩
    · intro hd
      obtain ⟨N, hN, hlast⟩ := getLastD_of_forall
        (fun x => ∃ N, N < one_in_units ∧ x = units_value N) l 0
        ⟨0, one_in_units_pos, units_value_zero.symm⟩ hall
      rw [hlast]
      exact bbp_tail_record_binary64_range n m (by omega) hm1 hm2 N hN
  · obtain ⟨l, hl, hlen, hall⟩ :=
      bbp_lower_record_exact n m hm1 hm2 hd2 (fun h => by omega) fuel hf
    refine ⟨l, hl, hlen, hall, ?_⟩
    intro hd
    obtain ⟨h0, h1⟩ := getLastD_of_forall (fun x => 0 ≤ x ∧ x < 1) l 0
      ⟨le_refl 0, by norm_num⟩ hall
    exact bbp_tail_record_exact_range n m (by omega) hm2 _ h0 h1

/-- The entries of the specification's record: the `i`-th term considered is
`tail_term`, and it is left out exactly when it is below `1e-15`. -/
theorem tail_spec_entry (d j : Nat) :
    ∀ (n first : Nat) (s : ℚ) (i : Nat) (e : ℚ × Option ℚ),
      (tail_spec d j n first s)[i]? = some e →
        e.1 = tail_term d j (first + i) ∧
          (e.2 = none ↔ tail_term d j (first + i) < 1 / 10 ^ 15) := by
  intro n
  induction n with
  | zero => intro first s i e h; simp [tail_spec] at h
  | succ n ih =>
    intro first s i e h
    unfold tail_spec at h
    by_cases hlt : tail_term d j first < 1 / 10 ^ 15
    · rw [if_pos hlt] at h
      cases i with
      | zero =>
        simp only [List.getElem?_cons_zero, Option.some.injEq] at h
        subst h
        exact ⟨rfl, by simpa using hlt⟩
      | succ i => simp at h
    · rw [if_neg hlt] at h
      cases i with
      | zero =>
        simp only [List.getElem?_cons_zero, Option.some.injEq] at h
        subst h
        exact ⟨rfl, by simpa using hlt⟩
      | succ i =>
        rw [List.getElem?_cons_succ] at h
        have h2 := ih (first + 1) _ i e h
        rwa [show first + 1 + i = first + (i + 1) by omega] at h2

/-! ## The first hexadecimal digits, by evaluation of the program -/
theorem digit_of_units (d : Nat) (c : Char) (hd : d ≤ 1000000)
    (h : hex_digit_of_sums binary64 (units_run (units_sum d 1)) (units_run (units_sum d 4))
      (units_run (units_sum d 5)) (units_run (units_sum d 6)) = Run.ok c) :
    get_pi_hex_digit binary64 (d : Int) = Run.ok c := by
  rw [get_pi_hex_digit_binary64 d hd]
  exact h

theorem pi_digit_0 : get_pi_hex_digit binary64 0 = Run.ok '2' :=
  digit_of_units 0 '2' (by decide) (by decide!)
theorem pi_digit_1 : get_pi_hex_digit binary64 1 = Run.ok '4' :=
  digit_of_units 1 '4' (by decide) (by decide!)
theorem pi_digit_2 : get_pi_hex_digit binary64 2 = Run.ok '3' :=
  digit_of_units 2 '3' (by decide) (by decide!)
theorem pi_digit_3 : get_pi_hex_digit binary64 3 = Run.ok 'F' :=
  digit_of_units 3 'F' (by decide) (by decide!)
theorem pi_digit_4 : get_pi_hex_digit binary64 4 = Run.ok '6' :=
  digit_of_units 4 '6' (by decide) (by decide!)
theorem pi_digit_5 : get_pi_hex_digit binary64 5 = Run.ok 'A' :=
  digit_of_units 5 'A' (by decide) (by decide!)
theorem pi_digit_6 : get_pi_hex_digit binary64 6 = Run.ok '8' :=
  digit_of_units 6 '8' (by decide) (by decide!)
theorem pi_digit_7 : get_pi_hex_digit binary64 7 = Run.ok '8' :=
  digit_of_units 7 '8' (by decide) (by decide!)
theorem pi_digit_8 : get_pi_hex_digit binary64 8 = Run.ok '8' :=
  digit_of_units 8 '8' (by decide) (by decide!)
theorem pi_digit_9 : get_pi_hex_digit binary64 9 = Run.ok '5' :=
  digit_of_units 9 '5' (by decide) (by decide!)
theorem pi_digit_10 : get_pi_hex_digit binary64 10 = Run.ok 'A' :=
  digit_of_units 10 'A' (by decide) (by decide!)
theorem pi_digit_11 : get_pi_hex_digit binary64 11 = Run.ok '3' :=
  digit_of_units 11 '3' (by decide) (by decide!)
theorem pi_digit_12 : get_pi_hex_digit binary64 12 = Run.ok '0' :=
  digit_of_units 12 '0' (by decide) (by decide!)
theorem pi_digit_13 : get_pi_hex_digit binary64 13 = Run.ok '8' :=
  digit_of_units 13 '8' (by decide) (by decide!)
theorem pi_digit_14 : get_pi_hex_digit binary64 14 = Run.ok 'D' :=
  digit_of_units 14 'D' (by decide) (by decide!)
theorem pi_digit_15 : get_pi_hex_digit binary64 15 = Run.ok '3' :=
  digit_of_units 15 '3' (by decide) (by decide!)
theorem pi_digit_16 : get_pi_hex_digit binary64 16 = Run.ok '1' :=
  digit_of_units 16 '1' (by decide) (by decide!)
theorem pi_digit_17 : get_pi_hex_digit binary64 17 = Run.ok '3' :=
  digit_of_units 17 '3' (by decide) (by decide!)
theorem pi_digit_18 : get_pi_hex_digit binary64 18 = Run.ok '1' :=
  digit_of_units 18 '1' (by decide) (by decide!)
theorem pi_digit_19 : get_pi_hex_digit binary64 19 = Run.ok '9' :=
  digit_of_units 19 '9' (by decide) (by decide!)
theorem pi_digit_20 : get_pi_hex_digit binary64 20 = Run.ok '8' :=
  digit_of_units 20 '8' (by decide) (by decide!)
theorem pi_digit_21 : get_pi_hex_digit binary64 21 = Run.ok 'A' :=
  digit_of_units 21 'A' (by decide) (by decide!)
theorem pi_digit_22 : get_pi_hex_digit binary64 22 = Run.ok '2' :=
  digit_of_units 22 '2' (by decide) (by decide!)
theorem pi_digit_23 : get_pi_hex_digit binary64 23 = Run.ok 'E' :=
  digit_of_units 23 'E' (by decide) (by decide!)
theorem pi_digit_24 : get_pi_hex_digit binary64 24 = Run.ok '0' :=
  digit_of_units 24 '0' (by decide) (by decide!)
theorem pi_digit_25 : get_pi_hex_digit binary64 25 = Run.ok '3' :=
  digit_of_units 25 '3' (by decide) (by decide!)
theorem pi_digit_26 : get_pi_hex_digit binary64 26 = Run.ok '7' :=
  digit_of_units 26 '7' (by decide) (by decide!)
theorem pi_digit_27 : get_pi_hex_digit binary64 27 = Run.ok '0' :=
  digit_of_units 27 '0' (by decide) (by decide!)
theorem pi_digit_28 : get_pi_hex_digit binary64 28 = Run.ok '7' :=
  digit_of_units 28 '7' (by decide) (by decide!)
theorem pi_digit_29 : get_pi_hex_digit binary64 29 = Run.ok '3' :=
  digit_of_units 29 '3' (by decide) (by decide!)
theorem pi_digit_30 : get_pi_hex_digit binary64 30 = Run.ok '4' :=
  digit_of_units 30 '4' (by decide) (by decide!)
theorem pi_digit_31 : get_pi_hex_digit binary64 31 = Run.ok '4' :=
  digit_of_units 31 '4' (by decide) (by decide!)
theorem pi_digit_32 : get_pi_hex_digit binary64 32 = Run.ok 'A' :=
  digit_of_units 32 'A' (by decide) (by decide!)
theorem pi_digit_33 : get_pi_hex_digit binary64 33 = Run.ok '4' :=
  digit_of_units 33 '4' (by decide) (by decide!)
theorem pi_digit_34 : get_pi_hex_digit binary64 34 = Run.ok '0' :=
  digit_of_units 34 '0' (by decide) (by decide!)
theorem pi_digit_35 : get_pi_hex_digit binary64 35 = Run.ok '9' :=
  digit_of_units 35 '9' (by decide) (by decide!)
theorem pi_digit_36 : get_pi_hex_digit binary64 36 = Run.ok '3' :=
  digit_of_units 36 '3' (by decide) (by decide!)
theorem pi_digit_37 : get_pi_hex_digit binary64 37 = Run.ok '8' :=
  digit_of_units 37 '8' (by decide) (by decide!)
theorem pi_digit_38 : get_pi_hex_digit binary64 38 = Run.ok '2' :=
  digit_of_units 38 '2' (by decide) (by decide!)
theorem pi_digit_39 : get_pi_hex_digit binary64 39 = Run.ok '2' :=
  digit_of_units 39 '2' (by decide) (by decide!)
theorem pi_digit_40 : get_pi_hex_digit binary64 40 = Run.ok '2' :=
  digit_of_units 40 '2' (by decide) (by decide!)
theorem pi_digit_41 : get_pi_hex_digit binary64 41 = Run.ok '9' :=
  digit_of_units 41 '9' (by decide) (by decide!)
theorem pi_digit_42 : get_pi_hex_digit binary64 42 = Run.ok '9' :=
  digit_of_units 42 '9' (by decide) (by decide!)
theorem pi_digit_43 : get_pi_hex_digit binary64 43 = Run.ok 'F' :=
  digit_of_units 43 'F' (by decide) (by decide!)
theorem pi_digit_44 : get_pi_hex_digit binary64 44 = Run.ok '3' :=
  digit_of_units 44 '3' (by decide) (by decide!)
theorem pi_digit_45 : get_pi_hex_digit binary64 45 = Run.ok '1' :=
  digit_of_units 45 '1' (by decide) (by decide!)
theorem pi_digit_46 : get_pi_hex_digit binary64 46 = Run.ok 'D' :=
  digit_of_units 46 'D' (by decide) (by decide!)
theorem pi_digit_47 : get_pi_hex_digit binary64 47 = Run.ok '0' :=
  digit_of_units 47 '0' (by decide) (by decide!)
theorem pi_digit_48 : get_pi_hex_digit binary64 48 = Run.ok '0' :=
  digit_of_units 48 '0' (by decide) (by decide!)
theorem pi_digit_49 : get_pi_hex_digit binary64 49 = Run.ok '8' :=
  digit_of_units 49 '8' (by decide) (by decide!)
theorem pi_digit_50 : get_pi_hex_digit binary64 50 = Run.ok '2' :=
  digit_of_units 50 '2' (by decide) (by decide!)
theorem pi_digit_51 : get_pi_hex_digit binary64 51 = Run.ok 'E' :=
  digit_of_units 51 'E' (by decide) (by decide!)
theorem pi_digit_52 : get_pi_hex_digit binary64 52 = Run.ok 'F' :=
  digit_of_units 52 'F' (by decide) (by decide!)
theorem pi_digit_53 : get_pi_hex_digit binary64 53 = Run.ok 'A' :=
  digit_of_units 53 'A' (by decide) (by decide!)
theorem pi_digit_54 : get_pi_hex_digit binary64 54 = Run.ok '9' :=
  digit_of_units 54 '9' (by decide) (by decide!)
theorem pi_digit_55 : get_pi_hex_digit binary64 55 = Run.ok '8' :=
  digit_of_units 55 '8' (by decide) (by decide!)
theorem pi_digit_56 : get_pi_hex_digit binary64 56 = Run.ok 'E' :=
  digit_of_units 56 'E' (by decide) (by decide!)
theorem pi_digit_57 : get_pi_hex_digit binary64 57 = Run.ok 'C' :=
  digit_of_units 57 'C' (by decide) (by decide!)
theorem pi_digit_58 : get_pi_hex_digit binary64 58 = Run.ok '4' :=
  digit_of_units 58 '4' (by decide) (by decide!)
theorem pi_digit_59 : get_pi_hex_digit binary64 59 = Run.ok 'E' :=
  digit_of_units 59 'E' (by decide) (by decide!)
theorem pi_digit_60 : get_pi_hex_digit binary64 60 = Run.ok '6' :=
  digit_of_units 60 '6' (by decide) (by decide!)
theorem pi_digit_61 : get_pi_hex_digit binary64 61 = Run.ok 'C' :=
  digit_of_units 61 'C' (by decide) (by decide!)
theorem pi_digit_62 : get_pi_hex_digit binary64 62 = Run.ok '8' :=
  digit_of_units 62 '8' (by decide) (by decide!)
theorem pi_digit_63 : get_pi_hex_digit binary64 63 = Run.ok '9' :=
  digit_of_units 63 '9' (by decide) (by decide!)
theorem pi_digit_exact_0 : get_pi_hex_digit exact_arith 0 = Run.ok '2' := by decide!
theorem pi_digit_exact_1 : get_pi_hex_digit exact_arith 1 = Run.ok '4' := by decide!
theorem pi_digit_exact_2 : get_pi_hex_digit exact_arith 2 = Run.ok '3' := by decide!

/-- Position by position, the program computes the characters of `pi_hex_64`. -/
theorem pi_hex_64_pointwise (i : Nat) (c : Char) (h : pi_hex_64[i]? = some c) :
    get_pi_hex_digit binary64 (wrap64 (0 + (i : Int))) = Run.ok c := by
  have hi : i < 64 := by
    by_contra hge
    rw [List.getElem?_eq_none (by simpa [pi_hex_64] using hge)] at h
    exact absurd h (by simp)
  have hw : wrap64 (0 + (i : Int)) = (i : Int) := by
    rw [zero_add]; exact wrap64_of_range (by omega) (by omega)
  rw [hw]
  interval_cases i
  · obtain rfl : c = '2' := by simpa [pi_hex_64] using h.symm
    exact pi_digit_0
  · obtain rfl : c = '4' := by simpa [pi_hex_64] using h.symm
    exact pi_digit_1
  · obtain rfl : c = '3' := by simpa [pi_hex_64] using h.symm
    exact pi_digit_2
  · obtain rfl : c = 'F' := by simpa [pi_hex_64] using h.symm
    exact pi_digit_3
  · obtain rfl : c = '6' := by simpa [pi_hex_64] using h.symm
    exact pi_digit_4
  · obtain rfl : c = 'A' := by simpa [pi_hex_64] using h.symm
    exact pi_digit_5
  · obtain rfl : c = '8' := by simpa [pi_hex_64] using h.symm
    exact pi_digit_6
  · obtain rfl : c = '8' := by simpa [pi_hex_64] using h.symm
    exact pi_digit_7
  · obtain rfl : c = '8' := by simpa [pi_hex_64] using h.symm
    exact pi_digit_8
  · obtain rfl : c = '5' := by simpa [pi_hex_64] using h.symm
    exact pi_digit_9
  · obtain rfl : c = 'A' := by simpa [pi_hex_64] using h.symm
    exact pi_digit_10
  · obtain rfl : c = '3' := by simpa [pi_hex_64] using h.symm
    exact pi_digit_11
  · obtain rfl : c = '0' := by simpa [pi_hex_64] using h.symm
    exact pi_digit_12
  · obtain rfl : c = '8' := by simpa [pi_hex_64] using h.symm
    exact pi_digit_13
  · obtain rfl : c = 'D' := by simpa [pi_hex_64] using h.symm
    exact pi_digit_14
  · obtain rfl : c = '3' := by simpa [pi_hex_64] using h.symm
    exact pi_digit_15
  · obtain rfl : c = '1' := by simpa [pi_hex_64] using h.symm
    exact pi_digit_16
  · obtain rfl : c = '3' := by simpa [pi_hex_64] using h.symm
    exact pi_digit_17
  · obtain rfl : c = '1' := by simpa [pi_hex_64] using h.symm
    exact pi_digit_18
  · obtain rfl : c = '9' := by simpa [pi_hex_64] using h.symm
    exact pi_digit_19
  · obtain rfl : c = '8' := by simpa [pi_hex_64] using h.symm
    exact pi_digit_20
  · obtain rfl : c = 'A' := by simpa [pi_hex_64] using h.symm
    exact pi_digit_21
  · obtain rfl : c = '2' := by simpa [pi_hex_64] using h.symm
    exact pi_digit_22
  · obtain rfl : c = 'E' := by simpa [pi_hex_64] using h.symm
    exact pi_digit_23
  · obtain rfl : c = '0' := by simpa [pi_hex_64] using h.symm
    exact pi_digit_24
  · obtain rfl : c = '3' := by simpa [pi_hex_64] using h.symm
    exact pi_digit_25
  · obtain rfl : c = '7' := by simpa [pi_hex_64] using h.symm
    exact pi_digit_26
  · obtain rfl : c = '0' := by simpa [pi_hex_64] using h.symm
    exact pi_digit_27
  · obtain rfl : c = '7' := by simpa [pi_hex_64] using h.symm
    exact pi_digit_28
  · obtain rfl : c = '3' := by simpa [pi_hex_64] using h.symm
    exact pi_digit_29
  · obtain rfl : c = '4' := by simpa [pi_hex_64] using h.symm
    exact pi_digit_30
  · obtain rfl : c = '4' := by simpa [pi_hex_64] using h.symm
    exact pi_digit_31
  · obtain rfl : c = 'A' := by simpa [pi_hex_64] using h.symm
    exact pi_digit_32
  · obtain rfl : c = '4' := by simpa [pi_hex_64] using h.symm
    exact pi_digit_33
  · obtain rfl : c = '0' := by simpa [pi_hex_64] using h.symm
    exact pi_digit_34
  · obtain rfl : c = '9' := by simpa [pi_hex_64] using h.symm
    exact pi_digit_35
  · obtain rfl : c = '3' := by simpa [pi_hex_64] using h.symm
    exact pi_digit_36
  · obtain rfl : c = '8' := by simpa [pi_hex_64] using h.symm
    exact pi_digit_37
  · obtain rfl : c = '2' := by simpa [pi_hex_64] using h.symm
    exact pi_digit_38
  · obtain rfl : c = '2' := by simpa [pi_hex_64] using h.symm
    exact pi_digit_39
  · obtain rfl : c = '2' := by simpa [pi_hex_64] using h.symm
    exact pi_digit_40
  · obtain rfl : c = '9' := by simpa [pi_hex_64] using h.symm
    exact pi_digit_41
  · obtain rfl : c = '9' := by simpa [pi_hex_64] using h.symm
    exact pi_digit_42
  · obtain rfl : c = 'F' := by simpa [pi_hex_64] using h.symm
    exact pi_digit_43
  · obtain rfl : c = '3' := by simpa [pi_hex_64] using h.symm
    exact pi_digit_44
  · obtain rfl : c = '1' := by simpa [pi_hex_64] using h.symm
    exact pi_digit_45
  · obtain rfl : c = 'D' := by simpa [pi_hex_64] using h.symm
    exact pi_digit_46
  · obtain rfl : c = '0' := by simpa [pi_hex_64] using h.symm
    exact pi_digit_47
  · obtain rfl : c = '0' := by simpa [pi_hex_64] using h.symm
    exact pi_digit_48
  · obtain rfl : c = '8' := by simpa [pi_hex_64] using h.symm
    exact pi_digit_49
  · obtain rfl : c = '2' := by simpa [pi_hex_64] using h.symm
    exact pi_digit_50
  · obtain rfl : c = 'E' := by simpa [pi_hex_64] using h.symm
    exact pi_digit_51
  · obtain rfl : c = 'F' := by simpa [pi_hex_64] using h.symm
    exact pi_digit_52
  · obtain rfl : c = 'A' := by simpa [pi_hex_64] using h.symm
    exact pi_digit_53
  · obtain rfl : c = '9' := by simpa [pi_hex_64] using h.symm
    exact pi_digit_54
  · obtain rfl : c = '8' := by simpa [pi_hex_64] using h.symm
    exact pi_digit_55
  · obtain rfl : c = 'E' := by simpa [pi_hex_64] using h.symm
    exact pi_digit_56
  · obtain rfl : c = 'C' := by simpa [pi_hex_64] using h.symm
    exact pi_digit_57
  · obtain rfl : c = '4' := by simpa [pi_hex_64] using h.symm
    exact pi_digit_58
  · obtain rfl : c = 'E' := by simpa [pi_hex_64] using h.symm
    exact pi_digit_59
  · obtain rfl : c = '6' := by simpa [pi_hex_64] using h.symm
    exact pi_digit_60
  · obtain rfl : c = 'C' := by simpa [pi_hex_64] using h.symm
    exact pi_digit_61
  · obtain rfl : c = '8' := by simpa [pi_hex_64] using h.symm
    exact pi_digit_62
  · obtain rfl : c = '9' := by simpa [pi_hex_64] using h.symm
    exact pi_digit_63

/-! ## Claims about `mod_pow` -/

/-- C1: for every base >= 0, exponent e >= 0 and modulus 1 <= m <= 3037000500, `mod_pow`
in 64-bit arithmetic returns `base ^ e mod m` computed over unbounded integers. -/
theorem mod_pow_eq_pow_mod (base e m : Int) (hb : 0 ≤ base) (he : 0 ≤ e)
    (hm1 : 1 ≤ m) (hm2 : m ≤ 3037000500) :
    mod_pow base e m = Run.ok (base ^ e.toNat % m) :=
  mod_pow_of_nonneg base e m hb he hm1 hm2

/-- Witness of C1 at base 3, exponent 200, modulus 1000003. -/
theorem mod_pow_eq_pow_mod_witness :
    mod_pow 3 200 1000003 = Run.ok (3 ^ (200 : Int).toNat % 1000003) :=
  mod_pow_eq_pow_mod 3 200 1000003 (by decide) (by decide) (by decide) (by decide)

/-- C5: for every base and every exponent, negative ones included, `mod_pow(b, e, 1)`
returns 0. -/
theorem mod_pow_modulus_one (b e : Int) : mod_pow b e 1 = Run.ok 0 := by
  simp [mod_pow]

/-- C6: for every base and every modulus m >= 1, `mod_pow(base, 0, m)` returns 0 when
m = 1 and 1 otherwise. -/
theorem mod_pow_exponent_zero (base m : Int) (hm : 1 ≤ m) :
    mod_pow base 0 m = Run.ok (if m = 1 then 0 else 1) := by
  unfold mod_pow
  by_cases h1 : m = 1
  · simp [h1]
  · have h0 : m ≠ 0 := by omega
    have h2 : ¬(base = INT64_MIN ∧ m = -1) := by omega
    simp [h1, c_rem, h0, h2, mod_pow_loop]

/-- Witness of C6 at base -7 and modulus 12. -/
theorem mod_pow_exponent_zero_witness :
    mod_pow (-7) 0 12 = Run.ok (if (12 : Int) = 1 then 0 else 1) :=
  mod_pow_exponent_zero (-7) 12 (by decide)

/-! ## Claims about `bbp_sum` and `get_pi_hex_digit` -/

/-- C2: `bbp_sum` does take a remainder by zero.  For every position d > 1,000,000 the
first iteration (k = 0) of `bbp_sum(d, 1)` has m = 1 and d - k > 1,000,000, so it computes
`(d - k) % (m - 1)` with `m - 1 = 0`: the run of `bbp_sum(d, 1)`, and with it the run of
`get_pi_hex_digit(d)`, stops in that fault, whatever the floating-point arithmetic.  Up to
position 1,000,000 (999,999 and 1,000,000 included) the run in double precision has no
fault. -/
theorem bbp_sum_rem_by_zero (A : Arith) (d : Int) (hd1 : 1000000 < d) (hd2 : d < 2 ^ 63) :
    bbp_sum A d 1 = Run.fault Fault.rem_by_zero ∧
      get_pi_hex_digit A d = Run.fault Fault.rem_by_zero ∧
      ∀ d0 : Int, 0 ≤ d0 → d0 ≤ 1000000 → ∃ c, get_pi_hex_digit binary64 d0 = Run.ok c :=
  ⟨bbp_sum_fault A d hd1 hd2, get_pi_hex_digit_fault A d hd1 hd2,
    fun d0 h0 h1 => (get_pi_hex_digit_binary64_ok d0 h0 h1).imp fun _ h => h.1⟩

/-- Witness of C2 at d = 1,000,001 in double precision. -/
theorem bbp_sum_rem_by_zero_witness :
    bbp_sum binary64 1000001 1 = Run.fault Fault.rem_by_zero ∧
      get_pi_hex_digit binary64 1000001 = Run.fault Fault.rem_by_zero ∧
      ∀ d0 : Int, 0 ≤ d0 → d0 ≤ 1000000 → ∃ c, get_pi_hex_digit binary64 d0 = Run.ok c :=
  bbp_sum_rem_by_zero binary64 1000001 (by decide) (by decide)

/-- C3: for a position d >= 0, every character that `get_pi_hex_digit(d)` returns belongs
to the alphabet `0123456789ABCDEF` (the index is clamped into [0, 15]), and a character is
returned for every d up to 1,000,000, in double precision and in exact arithmetic alike;
but for d > 1,000,000 no character is returned: the run stops in the remainder by zero of
`bbp_sum(d, 1)`. -/
theorem get_pi_hex_digit_alphabet (A : Arith) (d : Int) (hd1 : 0 ≤ d) (hd2 : d < 2 ^ 63) :
    (∀ c, get_pi_hex_digit A d = Run.ok c → c ∈ hex_alphabet) ∧
      (d ≤ 1000000 →
        (∃ c, get_pi_hex_digit binary64 d = Run.ok c ∧ c ∈ hex_alphabet) ∧
        (∃ c, get_pi_hex_digit exact_arith d = Run.ok c ∧ c ∈ hex_alphabet)) ∧
      (1000000 < d → get_pi_hex_digit A d = Run.fault Fault.rem_by_zero) :=
  ⟨fun c h => get_pi_hex_digit_mem A d hd1 c h,
    fun h => ⟨get_pi_hex_digit_binary64_ok d hd1 h, get_pi_hex_digit_exact_ok d hd1 h⟩,
    fun h => get_pi_hex_digit_fault A d h hd2⟩

/-- Witness of C3 at d = 1,000,001 in double precision. -/
theorem get_pi_hex_digit_alphabet_witness :
    (∀ c, get_pi_hex_digit binary64 1000001 = Run.ok c → c ∈ hex_alphabet) ∧
      ((1000001 : Int) ≤ 1000000 →
        (∃ c, get_pi_hex_digit binary64 1000001 = Run.ok c ∧ c ∈ hex_alphabet) ∧
        (∃ c, get_pi_hex_digit exact_arith 1000001 = Run.ok c ∧ c ∈ hex_alphabet)) ∧
      ((1000000 : Int) < 1000001 →
        get_pi_hex_digit binary64 1000001 = Run.fault Fault.rem_by_zero) :=
  get_pi_hex_digit_alphabet binary64 1000001 (by decide) (by decide)

/-- C4: `get_pi_hex_digit(d)` returns the sentinel `?` if and only if d < 0.  A negative d
returns it at once, in every arithmetic (also one in which every floating-point operation
would fault, so no BBP sum is evaluated); no d >= 0 returns it. -/
theorem get_pi_hex_digit_sentinel (A : Arith) (d : Int) :
    get_pi_hex_digit A d = Run.ok '?' ↔ d < 0 := by
  constructor
  · intro h
    by_contra hd
    have hmem := get_pi_hex_digit_mem A d (by omega) '?' h
    exact absurd hmem (by decide)
  · intro hd
    unfold get_pi_hex_digit
    rw [if_pos hd]

/-- C7: the program computes `get_pi_hex_digit(0) = '2'`, `get_pi_hex_digit(1) = '4'` and
`get_pi_hex_digit(2) = '3'`, in double precision and in exact arithmetic alike. -/
theorem first_three_digits :
    (get_pi_hex_digit binary64 0 = Run.ok '2' ∧ get_pi_hex_digit binary64 1 = Run.ok '4' ∧
      get_pi_hex_digit binary64 2 = Run.ok '3') ∧
    (get_pi_hex_digit exact_arith 0 = Run.ok '2' ∧ get_pi_hex_digit exact_arith 1 = Run.ok '4' ∧
      get_pi_hex_digit exact_arith 2 = Run.ok '3') :=
  ⟨⟨pi_digit_0, pi_digit_1, pi_digit_2⟩, ⟨pi_digit_exact_0, pi_digit_exact_1, pi_digit_exact_2⟩⟩

/-- C8: started at position 0, the digit loop of `main` prints, in double precision, the 64
characters `243F6A8885A308D313198A2E03707344A4093822299F31D0082EFA98EC4E6C89`. -/
theorem main_digits_first_64 :
    main_digits binary64 0 = Run.ok pi_hex_64 ∧
      String.mk pi_hex_64 =
        "243F6A8885A308D313198A2E03707344A4093822299F31D0082EFA98EC4E6C89" :=
  ⟨(main_digits_eq_ok binary64 0 pi_hex_64).mpr ⟨rfl, pi_hex_64_pointwise⟩, by decide⟩

/-- C9: `bbp_sum(d, j)` returns a fraction x with 0 <= x < 1 for every d >= 0 and every
j in {1, 4, 5, 6}, in double precision and in exact arithmetic alike, except for j = 1 and
d > 1,000,000; there `bbp_sum(d, 1)` returns no value, in any arithmetic: it stops in a
remainder by zero. -/
theorem bbp_sum_fraction (d j : Int) (hd1 : 0 ≤ d) (hd2 : d < 2 ^ 63)
    (hj : j = 1 ∨ j = 4 ∨ j = 5 ∨ j = 6) :
    ((j = 1 → d ≤ 1000000) →
        (∃ x, bbp_sum binary64 d j = Run.ok x ∧ 0 ≤ x ∧ x < 1) ∧
        (∃ x, bbp_sum exact_arith d j = Run.ok x ∧ 0 ≤ x ∧ x < 1)) ∧
      (j = 1 → 1000000 < d → ∀ A : Arith, bbp_sum A d j = Run.fault Fault.rem_by_zero) := by
  refine ⟨fun h => ⟨bbp_sum_binary64_ok d j hd1 hd2 hj h, bbp_sum_exact_ok d j hd1 hd2 hj h⟩, ?_⟩
  intro h1 hd A
  subst h1
  exact bbp_sum_fault A d hd hd2

/-- Witness of C9 at d = 1,000,001 and j = 1. -/
theorem bbp_sum_fraction_witness :
    (((1 : Int) = 1 → (1000001 : Int) ≤ 1000000) →
        (∃ x, bbp_sum binary64 1000001 1 = Run.ok x ∧ 0 ≤ x ∧ x < 1) ∧
        (∃ x, bbp_sum exact_arith 1000001 1 = Run.ok x ∧ 0 ≤ x ∧ x < 1)) ∧
      ((1 : Int) = 1 → (1000000 : Int) < 1000001 →
        ∀ A : Arith, bbp_sum A 1000001 1 = Run.fault Fault.rem_by_zero) :=
  bbp_sum_fraction 1000001 1 (by decide) (by decide) (by decide)

/-! ## Claims about the behaviour of the loops -/

/-- C11: with the doubles read as exact rationals, for every `0 <= d <= 1,000,000` and
every `j` in {1, 4, 5, 6}, the running sum after the first loop of `bbp_sum(d, j)` is the
fractional part of `sum_{k=0}^{d} 16^(d-k) / (8k+j)`, and the exponent-reduction branch
is never taken: `d - k <= 1,000,000` at every index `k` of the loop. -/
theorem lower_loop_series_fraction (d j : Int) (hd1 : 0 ≤ d) (hd2 : d ≤ 1000000)
    (hj : j = 1 ∨ j = 4 ∨ j = 5 ∨ j = 6) :
    bbp_lower_loop exact_arith d j (if d < 1000000 then d else 1000000)
        ((if d < 1000000 then d else 1000000) + 1).toNat 0 0 =
      Run.ok (Int.fract (lower_series d.toNat j.toNat)) ∧
    ∀ k : Int, 0 ≤ k → k ≤ (if d < 1000000 then d else 1000000) →
      wrap64 (d - k) ≤ 1000000 := by
  obtain ⟨n, rfl⟩ := Int.eq_ofNat_of_zero_le hd1
  obtain ⟨m, rfl⟩ : ∃ m : Nat, j = (m : Int) := ⟨j.toNat, by omega⟩
  have hkl : (if (n : Int) < 1000000 then (n : Int) else 1000000) = (n : Int) := by
    split <;> omega
  rw [hkl]
  constructor
  · have h := bbp_lower_loop_series n m (by omega) (by omega) (by omega) (n + 1) (n + 1) 0
      (by omega) (le_refl _)
    rw [Finset.range_zero, Finset.sum_empty, Int.fract_zero] at h
    have hf : ((n : Int) + 1).toNat = n + 1 := by omega
    rw [hf, Int.toNat_ofNat, Int.toNat_ofNat]
    exact h
  · intro k hk0 hk
    rw [wrap64_of_range (by omega) (by omega)]
    omega

/-- Witness of C11 at d = 5 and j = 4. -/
theorem lower_loop_series_fraction_witness :
    bbp_lower_loop exact_arith 5 4 (if (5 : Int) < 1000000 then (5 : Int) else 1000000)
        ((if (5 : Int) < 1000000 then (5 : Int) else 1000000) + 1).toNat 0 0 =
      Run.ok (Int.fract (lower_series (5 : Int).toNat (4 : Int).toNat)) ∧
    ∀ k : Int, 0 ≤ k → k ≤ (if (5 : Int) < 1000000 then (5 : Int) else 1000000) →
      wrap64 (5 - k) ≤ 1000000 :=
  lower_loop_series_fraction 5 4 (by decide) (by decide) (by decide)

/-- C12: for every prime modulus `m = 8k + j >= 3` with `0 <= k <= 1,000,000` and `j` in
{1, 4, 5, 6}, and every exponent `e >= 0`, the reduction branch of `bbp_sum` (lines 44-46:
`mod_pow(16, e % (m - 1), m)`) returns `16^e mod m`. -/
theorem exponent_reduction_prime (k j e : Int) (hk1 : 0 ≤ k) (hk2 : k ≤ 1000000)
    (hj : j = 1 ∨ j = 4 ∨ j = 5 ∨ j = 6) (he : 0 ≤ e) (h3 : 3 ≤ 8 * k + j)
    (hp : Nat.Prime (8 * k + j).toNat) :
    (do
      let reduced_exp ← c_rem e (wrap64 (8 * k + j - 1))
      let reduced_exp :=
        if reduced_exp < 0 then wrap64 (reduced_exp + wrap64 (8 * k + j - 1)) else reduced_exp
      mod_pow 16 reduced_exp (8 * k + j)) = Run.ok (16 ^ e.toNat % (8 * k + j)) :=
  reduced_mod_pow_of_prime e (8 * k + j) he h3 (by omega) hp

/-- Witness of C12 at the prime 17 = 8 * 2 + 1 and the exponent 100. -/
theorem exponent_reduction_prime_witness :
    (do
      let reduced_exp ← c_rem 100 (wrap64 (8 * 2 + 1 - 1))
      let reduced_exp :=
        if reduced_exp < 0 then wrap64 (reduced_exp + wrap64 (8 * 2 + 1 - 1)) else reduced_exp
      mod_pow 16 reduced_exp (8 * 2 + 1)) = Run.ok (16 ^ (100 : Int).toNat % (8 * 2 + 1)) :=
  exponent_reduction_prime 2 1 100 (by decide) (by decide) (by decide) (by decide) (by decide)
    (by decide)

/-- C13, as amended: for every `d >= 0` and `j` in {1, 4, 5, 6} (`d <= 1,000,000` when
`j = 1`), in double precision and in exact arithmetic, the running sum of `bbp_sum(d, j)`
lies in `[0, 1)` after every iteration of the first loop, where the floor is subtracted
after each addition; in the second loop the floor is not subtracted, and the running sum
lies in `[0, 2)` after every addition. -/
theorem running_sum_ranges (A : Arith) (hA : A = binary64 ∨ A = exact_arith) (d j : Int)
    (hd1 : 0 ≤ d) (hd2 : d < 2 ^ 63) (hj : j = 1 ∨ j = 4 ∨ j = 5 ∨ j = 6)
    (hjd : j = 1 → d ≤ 1000000) :
    ∃ l, bbp_lower_record A d j (if d < 1000000 then d else 1000000)
        ((if d < 1000000 then d else 1000000) + 1).toNat 0 0 = Run.ok l ∧
      (∀ x ∈ l, 0 ≤ x ∧ x < 1) ∧
      (d < 1000000 →
        ∃ t, bbp_tail_record A d j 101 (wrap64 (d + 1)) 0 (l.getLastD 0) = Run.ok t ∧
          ∀ e ∈ t, ∀ x, e.2 = some x → 0 ≤ x ∧ x < 2) := by
  have hf : ((if d < 1000000 then d else 1000000) + 1).toNat = (min d 1000000).toNat + 1 := by
    split <;> omega
  obtain ⟨l, hl, -, hall, htail⟩ :=
    bbp_sum_records A hA d j hd1 hd2 hj hjd _ (le_of_eq hf.symm)
  refine ⟨l, hl, hall, fun hd => ?_⟩
  obtain ⟨t, ht, -, hsum⟩ := htail hd
  exact ⟨t, ht, hsum⟩

/-- Witness of C13 at d = 33 and j = 6, in double precision. -/
theorem running_sum_ranges_witness :
    ∃ l, bbp_lower_record binary64 33 6 (if (33 : Int) < 1000000 then (33 : Int) else 1000000)
        ((if (33 : Int) < 1000000 then (33 : Int) else 1000000) + 1).toNat 0 0 = Run.ok l ∧
      (∀ x ∈ l, 0 ≤ x ∧ x < 1) ∧
      ((33 : Int) < 1000000 →
        ∃ t, bbp_tail_record binary64 33 6 101 (wrap64 (33 + 1)) 0 (l.getLastD 0) = Run.ok t ∧
          ∀ e ∈ t, ∀ x, e.2 = some x → 0 ≤ x ∧ x < 2) :=
  running_sum_ranges binary64 (Or.inl rfl) 33 6 (by decide) (by decide) (by decide) (by decide)

/-- Counterexample to C13 as stated: at d = 33 and j = 6 the second loop records a running
sum of at least 1 (its first addition, of `1 / (16 * 278)` to `0.99980...`, gives
`1.00002...`), and the running sum with which the loop is left is at least 1; in double
precision and in exact arithmetic alike. -/
theorem running_sum_reaches_one :
    ((bbp_lower_record binary64 33 6 33 34 0 0 >>= fun l =>
      bbp_tail_record binary64 33 6 101 34 0 (l.getLastD 0) >>= fun t =>
        Run.ok (t.any fun e => decide (1 ≤ e.2.getD 0))) = Run.ok true) ∧
    ((bbp_lower_loop binary64 33 6 33 34 0 0 >>= fun s =>
      bbp_tail_loop binary64 33 6 101 34 0 s >>= fun r => Run.ok (decide (1 ≤ r))) =
        Run.ok true) ∧
    ((bbp_lower_record exact_arith 33 6 33 34 0 0 >>= fun l =>
      bbp_tail_record exact_arith 33 6 101 34 0 (l.getLastD 0) >>= fun t =>
        Run.ok (t.any fun e => decide (1 ≤ e.2.getD 0))) = Run.ok true) :=
  ⟨by decide!, by decide!, by decide!⟩

/-- C14, as amended: for every `d >= 0` and `j` in {1, 4, 5, 6} (`d <= 1,000,000` when
`j = 1`), in double precision and in exact arithmetic, `bbp_sum(d, j)` returns; its first
loop executes exactly `min(d, 1,000,000) + 1` iterations, whatever larger budget it is
given, and its second loop executes at most 100 iterations. -/
theorem loop_iteration_counts (A : Arith) (hA : A = binary64 ∨ A = exact_arith) (d j : Int)
    (hd1 : 0 ≤ d) (hd2 : d < 2 ^ 63) (hj : j = 1 ∨ j = 4 ∨ j = 5 ∨ j = 6)
    (hjd : j = 1 → d ≤ 1000000) (fuel : Nat) (hf : (min d 1000000).toNat + 1 ≤ fuel) :
    (∃ x, bbp_sum A d j = Run.ok x) ∧
    ∃ l, bbp_lower_record A d j (if d < 1000000 then d else 1000000) fuel 0 0 = Run.ok l ∧
      l.length = (min d 1000000).toNat + 1 ∧
      (d < 1000000 →
        ∃ t, bbp_tail_record A d j 101 (wrap64 (d + 1)) 0 (l.getLastD 0) = Run.ok t ∧
          t.length ≤ 100) := by
  constructor
  · rcases hA with rfl | rfl
    · exact (bbp_sum_binary64_ok d j hd1 hd2 hj hjd).imp fun _ h => h.1
    · exact (bbp_sum_exact_ok d j hd1 hd2 hj hjd).imp fun _ h => h.1
  · obtain ⟨l, hl, hlen, -, htail⟩ := bbp_sum_records A hA d j hd1 hd2 hj hjd fuel hf
    refine ⟨l, hl, hlen, fun hd => ?_⟩
    obtain ⟨t, ht, hlen12, -⟩ := htail hd
    exact ⟨t, ht, by omega⟩

/-- Witness of C14 at d = 2 and j = 5, in double precision, with a budget of 10
iterations. -/
theorem loop_iteration_counts_witness :
    (∃ x, bbp_sum binary64 2 5 = Run.ok x) ∧
    ∃ l, bbp_lower_record binary64 2 5 (if (2 : Int) < 1000000 then (2 : Int) else 1000000)
        10 0 0 = Run.ok l ∧
      l.length = (min (2 : Int) 1000000).toNat + 1 ∧
      ((2 : Int) < 1000000 →
        ∃ t, bbp_tail_record binary64 2 5 101 (wrap64 (2 + 1)) 0 (l.getLastD 0) = Run.ok t ∧
          t.length ≤ 100) :=
  loop_iteration_counts binary64 (Or.inl rfl) 2 5 (by decide) (by decide) (by decide)
    (by decide) 10 (by decide)

/-- Counterexample to C14 as stated: at d = 0 and j = 1 the first loop executes one
iteration (k = 0), more than `min(d, 1,000,000) = 0`; with a budget of 0 iterations the
loop does not reach its end. -/
theorem lower_loop_one_iteration :
    ((bbp_lower_record binary64 0 1 0 1 0 0 >>= fun l =>
      Run.ok (l.length, decide (l.length ≤ min 0 1000000))) = Run.ok (1, false)) ∧
    bbp_lower_loop binary64 0 1 0 (min 0 1000000) 0 0 = Run.fault Fault.out_of_fuel :=
  ⟨by decide!, by decide!⟩

/-- C15: with the doubles read as exact rationals, for `0 <= d < 1,000,000` and `j` in
{1, 4, 5, 6}, the second loop of `bbp_sum(d, j)` does what `tail_spec` describes: the
`i`-th term it considers is `1 / (16^i * (8(d+1)+j))`; the terms of at least `1e-15` are
added, in order, and the first term below `1e-15` ends the loop, so that the loop returns
the sum at entry plus the terms that are not below `1e-15`.  For `d >= 1,000,000` the
second loop is not executed: `bbp_sum` is the first loop followed by the final
`sum - floor(sum)`. -/
theorem tail_loop_terms (d j : Int) (hd1 : 0 ≤ d) (hd2 : d < 2 ^ 63)
    (hj : j = 1 ∨ j = 4 ∨ j = 5 ∨ j = 6) :
    (d < 1000000 → ∀ s : ℚ,
      bbp_tail_record exact_arith d j 101 (wrap64 (d + 1)) 0 s =
        Run.ok (tail_spec d.toNat j.toNat 101 1 s) ∧
      (∀ (i : Nat) (e : ℚ × Option ℚ), (tail_spec d.toNat j.toNat 101 1 s)[i]? = some e →
        e.1 = tail_term d.toNat j.toNat (1 + i) ∧
          (e.2 = none ↔ tail_term d.toNat j.toNat (1 + i) < 1 / 10 ^ 15)) ∧
      bbp_tail_loop exact_arith d j 101 (wrap64 (d + 1)) 0 s =
        Run.ok (s + ∑ i ∈ Finset.range 101,
          (if tail_term d.toNat j.toNat (1 + i) < 1 / 10 ^ 15 then 0
            else tail_term d.toNat j.toNat (1 + i)))) ∧
    (1000000 ≤ d → ∀ A : Arith,
      bbp_sum A d j =
        (bbp_lower_loop A d j 1000000 1000001 0 0 >>= fun sum => f_sub A sum (f_floor sum))) := by
  constructor
  · intro hd s
    obtain ⟨n, rfl⟩ := Int.eq_ofNat_of_zero_le hd1
    obtain ⟨m, rfl⟩ : ∃ m : Nat, j = (m : Int) := ⟨j.toNat, by omega⟩
    have hw : wrap64 ((n : Int) + 1) = ((n + 1 : Nat) : Int) := by
      rw [wrap64_of_range (by omega) (by omega)]
      rfl
    have hrec := bbp_tail_record_exact n m (by omega) (by omega) 101 1 0 s (by norm_num)
      (le_refl 1) (by norm_num) (Or.inl rfl) (tail_term_small n m _ (by norm_num))
    rw [Int.toNat_ofNat, Int.toNat_ofNat, hw]
    refine ⟨hrec, fun i e h => tail_spec_entry n m 101 1 s i e h, ?_⟩
    rw [bbp_tail_loop_record, hrec, Run.ok_bind, last_sum_tail_spec]
  · intro hd A
    unfold bbp_sum
    simp only [if_neg (not_lt.mpr hd), Run.pure_eq, Run.ok_bind]
    rfl

/-- Witness of C15 at d = 3 and j = 1. -/
theorem tail_loop_terms_witness :
    ((3 : Int) < 1000000 → ∀ s : ℚ,
      bbp_tail_record exact_arith 3 1 101 (wrap64 (3 + 1)) 0 s =
        Run.ok (tail_spec (3 : Int).toNat (1 : Int).toNat 101 1 s) ∧
      (∀ (i : Nat) (e : ℚ × Option ℚ),
        (tail_spec (3 : Int).toNat (1 : Int).toNat 101 1 s)[i]? = some e →
        e.1 = tail_term (3 : Int).toNat (1 : Int).toNat (1 + i) ∧
          (e.2 = none ↔ tail_term (3 : Int).toNat (1 : Int).toNat (1 + i) < 1 / 10 ^ 15)) ∧
      bbp_tail_loop exact_arith 3 1 101 (wrap64 (3 + 1)) 0 s =
        Run.ok (s + ∑ i ∈ Finset.range 101,
          (if tail_term (3 : Int).toNat (1 : Int).toNat (1 + i) < 1 / 10 ^ 15 then 0
            else tail_term (3 : Int).toNat (1 : Int).toNat (1 + i)))) ∧
    ((1000000 : Int) ≤ 3 → ∀ A : Arith,
      bbp_sum A 3 1 =
        (bbp_lower_loop A 3 1 1000000 1000001 0 0 >>= fun sum => f_sub A sum (f_floor sum))) :=
  tail_loop_terms 3 1 (by decide) (by decide) (by decide)

/-- C16: with the doubles read as exact rationals, for all partial sums `S1, S4, S5, S6`
(those in `[0, 1)` in particular) the index that `get_pi_hex_digit` uses is
`n = floor(16 * frac(4 S1 - 2 S4 - S5 - S6))`; it lies in `[0, 15]`, the character returned
is the `n`-th of the alphabet, and none of the three clamps (`x < 0`, `digit < 0`,
`digit > 15`) is active. -/
theorem digit_index_exact (S1 S4 S5 S6 : ℚ) :
    ∃ (n : Int) (c : Char),
      n = Int.floor (16 * Int.fract (4 * S1 - 2 * S4 - S5 - S6)) ∧ 0 ≤ n ∧ n ≤ 15 ∧
      hex_alphabet.get? n.toNat = some c ∧
      hex_digit_of_sums exact_arith (Run.ok S1) (Run.ok S4) (Run.ok S5) (Run.ok S6) =
        Run.ok c ∧
      (let x := 4 * S1 - 2 * S4 - 1 * S5 - 1 * S6
       let y := x - f_floor x
       ¬ y < 0 ∧ f_to_int (y * 16) = Run.ok n ∧ ¬ n < 0 ∧ ¬ n > 15) :=
  hex_digit_of_sums_exact S1 S4 S5 S6

/-- C17: for every 64-bit position `d >= 0` and `j` in {1, 4, 5, 6}, no signed 64-bit
operation of `bbp_sum(d, j)` or of its calls of `mod_pow` wraps around: `bbp_sum` runs as
over unbounded integers.  In the first loop every modulus is `m = 8k + j` with
`1 <= m <= 8,000,006`, every exponent passed to `mod_pow` is `>= 0`, and `mod_pow` on such
a modulus runs as over unbounded integers, its products staying below `2^63`. -/
theorem no_signed_overflow (A : Arith) (d j : Int) (hd1 : 0 ≤ d) (hd2 : d < 2 ^ 63)
    (hj : j = 1 ∨ j = 4 ∨ j = 5 ∨ j = 6) :
    bbp_sum A d j = bbp_sum_unbounded A d j ∧
    (∀ k : Int, 0 ≤ k → k ≤ (if d < 1000000 then d else 1000000) →
      wrap64 (wrap64 (8 * k) + j) = 8 * k + j ∧ 1 ≤ 8 * k + j ∧ 8 * k + j ≤ 8000006 ∧
      wrap64 (d - k) = d - k ∧ 0 ≤ d - k ∧
      (∀ r, c_rem (wrap64 (d - k)) (wrap64 (8 * k + j - 1)) = Run.ok r → 0 ≤ r) ∧
      ∀ e : Int, mod_pow 16 e (8 * k + j) = mod_pow_unbounded 16 e (8 * k + j)) ∧
    (∀ m result base : Int, m ≤ 8000006 → 0 ≤ result → result < m → 0 ≤ base → base < m →
      wrap64 (result * base) = result * base ∧ result * base < 2 ^ 63) := by
  refine ⟨bbp_sum_eq_unbounded A d j hd1 hd2 (by omega) (by omega), ?_, ?_⟩
  · intro k hk0 hk
    have hk6 : k ≤ 1000000 := by
      split at hk <;> omega
    have hkd : k ≤ d := by
      split at hk <;> omega
    have hdk : wrap64 (d - k) = d - k := wrap64_of_range (by omega) (by omega)
    have hm1 : wrap64 (8 * k + j - 1) = 8 * k + j - 1 := wrap64_of_range (by omega) (by omega)
    refine ⟨modulus_eq k j hk0 hk6 (by omega) (by omega), by omega, by omega, hdk, by omega,
      ?_, fun e => mod_pow_eq_unbounded 16 e _ (by norm_num) (by omega) (by omega)⟩
    intro r hr
    rw [hdk, hm1] at hr
    by_cases hz : 8 * k + j - 1 = 0
    · unfold c_rem at hr
      rw [if_pos hz] at hr
      cases hr
    · rw [c_rem_of_nonneg (by omega) (by omega)] at hr
      cases hr
      exact Int.emod_nonneg _ hz
  · intro m result base hm hr1 hr2 hb1 hb2
    have h := product_in_range result base m (by omega) hr2 (by omega) hb2 (by omega)
    exact ⟨wrap64_of_range h.1 h.2, h.2⟩

/-- Witness of C17 at d = 2^62 and j = 4, in double precision. -/
theorem no_signed_overflow_witness :
    bbp_sum binary64 4611686018427387904 4 = bbp_sum_unbounded binary64 4611686018427387904 4 ∧
    (∀ k : Int, 0 ≤ k →
      k ≤ (if (4611686018427387904 : Int) < 1000000 then 4611686018427387904 else 1000000) →
      wrap64 (wrap64 (8 * k) + 4) = 8 * k + 4 ∧ 1 ≤ 8 * k + 4 ∧ 8 * k + 4 ≤ 8000006 ∧
      wrap64 (4611686018427387904 - k) = 4611686018427387904 - k ∧
      0 ≤ 4611686018427387904 - k ∧
      (∀ r, c_rem (wrap64 (4611686018427387904 - k)) (wrap64 (8 * k + 4 - 1)) = Run.ok r →
        0 ≤ r) ∧
      ∀ e : Int, mod_pow 16 e (8 * k + 4) = mod_pow_unbounded 16 e (8 * k + 4)) ∧
    (∀ m result base : Int, m ≤ 8000006 → 0 ≤ result → result < m → 0 ≤ base → base < m →
      wrap64 (result * base) = result * base ∧ result * base < 2 ^ 63) :=
  no_signed_overflow binary64 4611686018427387904 4 (by decide) (by decide) (by decide)

/-- C18: for every base `>= 0`, exponent `e >= 0` and modulus `1 <= m <= 3037000500` the
result `r` of `mod_pow(base, e, m)` satisfies `0 <= r < m`; and the term
`(double)mod_pow(16, e, m) / m` that the first loop of `bbp_sum` adds lies in `[0, 1)`, in
double precision and in exact arithmetic. -/
theorem mod_pow_in_range (base e m : Int) (hb : 0 ≤ base) (he : 0 ≤ e) (hm1 : 1 ≤ m)
    (hm2 : m ≤ 3037000500) :
    (∃ r, mod_pow base e m = Run.ok r ∧ 0 ≤ r ∧ r < m) ∧
    (∃ t, (do
      let p ← mod_pow 16 e m
      f_div binary64 (← f_of_int binary64 p) (← f_of_int binary64 m)) = Run.ok t ∧
      0 ≤ t ∧ t < 1) ∧
    (∃ t, (do
      let p ← mod_pow 16 e m
      f_div exact_arith (← f_of_int exact_arith p) (← f_of_int exact_arith m)) = Run.ok t ∧
      0 ≤ t ∧ t < 1) :=
  ⟨mod_pow_result_range base e m hb he hm1 hm2, term_binary64_range e m he hm1 hm2,
    term_exact_range e m he hm1 hm2⟩

/-- Witness of C18 at base 7, exponent 10 and modulus 13. -/
theorem mod_pow_in_range_witness :
    (∃ r, mod_pow 7 10 13 = Run.ok r ∧ 0 ≤ r ∧ r < 13) ∧
    (∃ t, (do
      let p ← mod_pow 16 10 13
      f_div binary64 (← f_of_int binary64 p) (← f_of_int binary64 13)) = Run.ok t ∧
      0 ≤ t ∧ t < 1) ∧
    (∃ t, (do
      let p ← mod_pow 16 10 13
      f_div exact_arith (← f_of_int exact_arith p) (← f_of_int exact_arith 13)) = Run.ok t ∧
      0 ≤ t ∧ t < 1) :=
  mod_pow_in_range 7 10 13 (by decide) (by decide) (by decide) (by decide)

/-- C19: for a base of either sign, every exponent `e >= 0` and every modulus
`2 <= m <= 3037000500`, `mod_pow(base, e, m)` is the truncated remainder of `base^e`
divided by `m` (the sign of the dividend): it lies in `(-m, m)` and can be negative, as in
`mod_pow(-2, 1, 5) = -2`. -/
theorem mod_pow_truncated_remainder (base e m : Int) (he : 0 ≤ e) (hm1 : 2 ≤ m)
    (hm2 : m ≤ 3037000500) :
    mod_pow base e m = Run.ok (Int.tmod (base ^ e.toNat) m) ∧
      -m < Int.tmod (base ^ e.toNat) m ∧ Int.tmod (base ^ e.toNat) m < m ∧
      mod_pow (-2) 1 5 = Run.ok (-2) :=
  ⟨mod_pow_tmod base e m he hm1 hm2, neg_lt_tmod _ m (by omega), tmod_lt _ m (by omega),
    by decide⟩

/-- Witness of C19 at base -2, exponent 1 and modulus 5. -/
theorem mod_pow_truncated_remainder_witness :
    mod_pow (-2) 1 5 = Run.ok (Int.tmod ((-2) ^ (1 : Int).toNat) 5) ∧
      -5 < Int.tmod ((-2) ^ (1 : Int).toNat) 5 ∧ Int.tmod ((-2) ^ (1 : Int).toNat) 5 < 5 ∧
      mod_pow (-2) 1 5 = Run.ok (-2) :=
  mod_pow_truncated_remainder (-2) 1 5 (by decide) (by decide) (by decide)

end PiChunk
